import Mathlib

/-!
Reading log: tabular codec, identity resolver and entry-commit engine

A shallow embedding of `src/app.js`, followed by the properties proved of it.

Conventions of the embedding.

* A JavaScript string is a `List Char` (abbreviation `Str`).  The codec looks at one
  UTF-16 unit at a time but only ever tests it against `"`, `,`, line feed and carriage
  return, so reading the text one code point at a time gives the same rows; where the order
  of strings matters (`<`), characters are compared through their UTF-16 units.
* `null` / `undefined` are `none`.
* An object store of IndexedDB is the list of its records; a record's key is the
  attribute named by the store's `keyPath`, `idbGet` reads by key and `idbPut` is an upsert.
* `todayISO()` and `Date.now()` are parameters of the operations that call them.
* The slug editor acts on the draft as the store holds it: the page keeps the draft object
  it loaded and saves it after every change, and one editor is open at a time.
* Counters are unbounded integers.  A number is a binary64 value: `NaN`, an infinity, or
  the exact rational a finite binary64 number stands for; every arithmetic operation
  gives the binary64 number nearest to the exact result (the even one on a tie, an
  infinity past the largest one), which is what `binary64` computes.  The two zeros are
  one value: the program never divides by a zero nor prints the sign of one.
* A minute offset of a time range is the integer `parseHhMm` read; the duration loop reads
  it as the binary64 number nearest to it, which is the integer itself up to 2^53 in size.
* A loop that probes the store (`while(await idbGet(...))`) runs on a bound of probes;
  `none` means the bound was reached, and the loop is proved to end before it.
-/

namespace ReadingLog

/-- A JavaScript string, as the list of its characters. -/
abbrev Str := List Char

/-! ## Constants -/

/-- Embedding of `SCHEMA_VERSION` (app.js line 7). -/
def SCHEMA_VERSION : Str := "2025.2".toList

/-- Embedding of `CSV_COLUMNS` (app.js lines 8-12). -/
def CSV_COLUMNS : List Str :=
  ["SchemaVersion", "Title", "Author", "AuthorID", "BookID", "Format", "Series", "SeriesID",
   "Duration_h", "Cost_h", "Net_h", "Tags", "Notes", "Status", "DateStarted", "DateFinished",
   "DayDelta", "Scoreboard", "LastEdited", "CompositeKey", "Franchise", "Subseries"].map
    String.toList

/-! ## String helpers of the JavaScript runtime -/

/-- The characters `String.prototype.trim` removes and the regular expression class `\s`
matches: ECMAScript WhiteSpace and LineTerminator. -/
def isJsSpace (c : Char) : Bool :=
  let n := c.toNat
  n == 0x09 || n == 0x0A || n == 0x0B || n == 0x0C || n == 0x0D || n == 0x20 ||
  n == 0xA0 || n == 0x1680 || (0x2000 ≤ n && n ≤ 0x200A) || n == 0x2028 || n == 0x2029 ||
  n == 0x202F || n == 0x205F || n == 0x3000 || n == 0xFEFF

/-- Embedding of `s.trim()`. -/
def jsTrim (s : Str) : Str :=
  ((s.dropWhile isJsSpace).reverse.dropWhile isJsSpace).reverse

/-- Embedding of `parts.join(sep)`. -/
def jsJoin (sep : Str) : List Str → Str
  | [] => []
  | [a] => a
  | a :: b :: rest => a ++ sep ++ jsJoin sep (b :: rest)

/-- Embedding of `s.replace(/"/g, '""')`: every double quote is doubled. -/
def replaceQuotes : Str → Str
  | [] => []
  | c :: rest => if c = '"' then '"' :: '"' :: replaceQuotes rest else c :: replaceQuotes rest

/-- Embedding of `/[",\n]/.test(s)`. -/
def needsEscape (s : Str) : Bool :=
  s.any (fun c => c == '"' || c == ',' || c == '\n')

/-! ## Tabular codec -/

/-- Embedding of `csvEscape(v)` (app.js lines 209-213); `none` stands for `null` / `undefined`. -/
def csvEscape (v : Option Str) : Str :=
  let s : Str := match v with
    | none => []
    | some x => x
  if needsEscape s then ['"'] ++ replaceQuotes s ++ ['"']
  else ['"'] ++ s ++ ['"']

/-- The local variables of the loop of `parseCSV`. -/
structure ParseState where
  rows : List (List Str)
  row : List Str
  field : Str
  inQ : Bool
  deriving DecidableEq, Repr

/-- The test `row.length>1 || row[0].trim()!==""` that drops an empty line. -/
def keepRow (row : List Str) : Bool :=
  decide (row.length > 1) || decide (jsTrim (row.headD []) ≠ [])

/-- The `while` loop of `parseCSV` (app.js lines 219-237), one iteration per equation; the
text still to be read stands for the index `i`. -/
def parseCSVLoop : List Char → ParseState → ParseState
  | [], st => st
  | c :: rest, st =>
    if st.inQ then
      if c = '"' then
        match rest with
        | d :: rest2 =>
          if d = '"' then parseCSVLoop rest2 { st with field := st.field ++ ['"'] }
          else parseCSVLoop (d :: rest2) { st with inQ := false }
        | [] => parseCSVLoop [] { st with inQ := false }
      else parseCSVLoop rest { st with field := st.field ++ [c] }
    else
      if c = '"' then parseCSVLoop rest { st with inQ := true }
      else if c = ',' then
        parseCSVLoop rest { st with row := st.row ++ [st.field], field := [] }
      else if c = '\n' then
        let row := st.row ++ [st.field]
        parseCSVLoop rest
          { st with rows := if keepRow row then st.rows ++ [row] else st.rows,
                    row := [], field := [] }
      else if c = '\r' then parseCSVLoop rest st
      else parseCSVLoop rest { st with field := st.field ++ [c] }

/-- Embedding of `parseCSV(text)` (app.js lines 215-245). -/
def parseCSV (text : Str) : List (List Str) :=
  let st := parseCSVLoop text { rows := [], row := [], field := [], inQ := false }
  if st.field.length ≠ 0 ∨ st.row.length ≠ 0 then
    let row := st.row ++ [st.field]
    if keepRow row then st.rows ++ [row] else st.rows
  else st.rows

/-- A JavaScript object with string-valued properties, in insertion order. -/
abbrev Obj := List (Str × Str)

/-- Reading a property: `obj[k]`, `none` when the object has no such property. -/
def objGet (o : Obj) (k : Str) : Option Str :=
  match o with
  | [] => none
  | (k2, v) :: rest => if k2 = k then some v else objGet rest k

/-- Writing a property: `obj[k] = v`. -/
def objSet (o : Obj) (k v : Str) : Obj :=
  match o with
  | [] => [(k, v)]
  | (k2, v2) :: rest => if k2 = k then (k, v) :: rest else (k2, v2) :: objSet rest k v

/-- The `for` loop of `buildRowObjFromCSV`, from index `j` with `todo` header cells left. -/
def buildRowObjLoop (values : List Str) : List Str → Nat → Obj → Obj
  | [], _, obj => obj
  | h :: todo, j, obj =>
    buildRowObjLoop values todo (j + 1) (objSet obj h ((values.get? j).getD []))

/-- Embedding of `buildRowObjFromCSV(values, header)` (app.js lines 247-253). -/
def buildRowObjFromCSV (values header : List Str) : Obj :=
  buildRowObjLoop values header 0 []

/-- A record of the `entries` store (keyPath `compositeKey`). -/
structure Entry where
  compositeKey : Str
  bookKey : Str
  row : Obj
  deriving DecidableEq, Repr

/-- The UTF-16 code units of a character. -/
def utf16 (c : Char) : List Nat :=
  if c.toNat < 0x10000 then [c.toNat]
  else [0xD800 + (c.toNat - 0x10000) / 0x400, 0xDC00 + (c.toNat - 0x10000) % 0x400]

/-- Lexicographic `<` on lists of code units. -/
def unitsLt : List Nat → List Nat → Bool
  | _, [] => false
  | [], _ :: _ => true
  | a :: as, b :: bs => if a < b then true else if b < a then false else unitsLt as bs

/-- The JavaScript comparison `a < b` of two strings: by UTF-16 code units. -/
def jsStrLt (a b : Str) : Bool :=
  unitsLt (a.flatMap utf16) (b.flatMap utf16)

/-- The comparator `exportCSV` hands to `sort` (app.js lines 300-304). -/
def exportCompare (a b : Entry) : Int :=
  let la := (objGet a.row "LastEdited".toList).getD []
  let lb := (objGet b.row "LastEdited".toList).getD []
  if jsStrLt la lb then -1
  else if jsStrLt lb la then 1
  else if jsStrLt a.compositeKey b.compositeKey then -1 else 1

/-- Embedding of `entries.sort(cmp)` for the comparator of `exportCSV`: a stable insertion sort that
puts `a` before `b` when `cmp(a, b) < 0`. -/
def sortEntries (entries : List Entry) : List Entry :=
  entries.insertionSort (fun a b => exportCompare a b < 0)

/-- The line `exportCSV` writes for one row object (app.js line 309). -/
def exportLine (row : Obj) : Str :=
  jsJoin [','] (CSV_COLUMNS.map (fun k => csvEscape (some ((objGet row k).getD []))))

/-- Embedding of `exportCSV()` (app.js lines 297-313) on the records `idbAll("entries")` returns. -/
def exportCSV (entries : List Entry) : Str :=
  let sorted := sortEntries entries
  let lines := [jsJoin [','] (CSV_COLUMNS.map (fun k => csvEscape (some k)))] ++
    sorted.map (fun e => exportLine e.row)
  jsJoin ['\n'] lines ++ ['\n']

/-- The encoder's line for a list of fields: each through `csvEscape`, joined by commas. -/
def encodeLine (fields : List Str) : Str :=
  jsJoin [','] (fields.map (fun f => csvEscape (some f)))

/-- The rest of the text does not begin with a double quote. -/
def NoQuoteHead : List Char → Prop
  | [] => True
  | c :: _ => c ≠ '"'

/-! ## Identifier and label derivation -/

/-- Embedding of `s.toLowerCase()`, one character at a time.  Exact on ASCII and on the two characters
whose lower case contains an ASCII letter (U+0130 and the Kelvin sign U+212A); every other
character is left as it is: its lower case is not ASCII either, and the callers only look
for ASCII letters, digits and punctuation afterwards. -/
def jsToLowerChar (c : Char) : List Char :=
  if 'A' ≤ c ∧ c ≤ 'Z' then [Char.ofNat (c.toNat + 32)]
  else if c.toNat = 0x130 then ['i', Char.ofNat 0x307]
  else if c.toNat = 0x212A then ['k']
  else [c]

/-- Embedding of `s.toLowerCase()`. -/
def jsToLower (s : Str) : Str := s.flatMap jsToLowerChar

/-- The class `[a-z0-9]`. -/
def isLowerAlnum (c : Char) : Bool :=
  ('a' ≤ c && c ≤ 'z') || ('0' ≤ c && c ≤ '9')

/-- Embedding of `s.replace(/[^a-z0-9]+/g, "_")`; the flag says that the run of other characters the
loop is in has already been replaced. -/
def collapseRuns : Bool → Str → Str
  | _, [] => []
  | inRun, c :: rest =>
    if isLowerAlnum c then c :: collapseRuns false rest
    else if inRun then collapseRuns true rest
    else '_' :: collapseRuns true rest

/-- Embedding of `s.replace(/^_+|_+$/g, "")`. -/
def stripUnderscores (s : Str) : Str :=
  ((s.dropWhile (· == '_')).reverse.dropWhile (· == '_')).reverse

/-- Embedding of `normalizeId(s)` (app.js lines 164-169). -/
def normalizeId (s : Str) : Str :=
  stripUnderscores
    (collapseRuns false
      ((jsToLower (jsTrim s)).filter (fun c => !(c == '\'' || c == Char.ofNat 0x2019))))

/-- Embedding of `deriveSeries(franchise, subseries)` (app.js lines 171-175). -/
def deriveSeries (franchise subseries : Str) : Str :=
  if franchise ≠ [] ∧ subseries ≠ [] then franchise ++ " — ".toList ++ subseries
  else if franchise ≠ [] ∧ subseries = [] then franchise
  else []

/-- Embedding of `deriveSeriesId(franchise, subseries)` (app.js lines 176-180). -/
def deriveSeriesId (franchise subseries : Str) : Str :=
  if franchise = [] then []
  else if franchise ≠ [] ∧ subseries = [] then normalizeId franchise
  else normalizeId (franchise ++ " ".toList ++ subseries)

/-- Embedding of `makeBookKey(bookID, format)` (app.js lines 182-184). -/
def makeBookKey (bookID format : Str) : Str :=
  bookID ++ "||".toList ++ format

/-! ## The store -/

/-- A record of the `books` store (keyPath `bookKey`). -/
structure Book where
  bookKey : Str
  bookID : Str
  format : Str
  title : Str
  author : Str
  authorID : Str
  franchise : Str
  subseries : Str
  series : Str
  seriesID : Str
  deriving DecidableEq, Repr

/-- One time range of a draft: elapsed-minute offsets, `none` for `null`. -/
structure TimeRange where
  start : Option Int
  end_ : Option Int
  deriving DecidableEq, Repr

/-- A record of the `drafts` store (keyPath `draftKey`). -/
structure Draft where
  draftKey : Str
  bookKey : Str
  active : Bool
  dateStarted : Str
  dateFinished : Str
  status : Str
  tags : Str
  notes : Str
  cost_h : Str
  timeRanges : List TimeRange
  lastEdited : Str
  deriving DecidableEq, Repr

/-- The object stores the engine uses. -/
structure DB where
  books : List Book
  entries : List Entry
  drafts : List Draft
  deriving DecidableEq, Repr

/-- Embedding of `idbGet(store, key)`: the record stored under the key, `none` for `null`. -/
def idbGet {α : Type} (keyOf : α → Str) (store : List α) (key : Str) : Option α :=
  store.find? (fun r => keyOf r == key)

/-- Embedding of `idbPut(store, val)`: an upsert on the record's key. -/
def idbPut {α : Type} (keyOf : α → Str) : List α → α → List α
  | [], val => [val]
  | r :: rest, val =>
    if keyOf r = keyOf val then val :: rest else r :: idbPut keyOf rest val

/-- A template literal's text for a property value: the text `undefined` when the
property is absent. -/
def tmpl (v : Option Str) : Str :=
  match v with
  | some s => s
  | none => "undefined".toList

/-- The expression `v || d` on a string property. -/
def orElse (v : Option Str) (d : Str) : Str :=
  match v with
  | some s => if s = [] then d else s
  | none => d

/-- Embedding of `ensureBookFromCSVRow(row)` (app.js lines 186-207): the books store afterwards and the
book returned. -/
def ensureBookFromCSVRow (books : List Book) (row : Obj) : List Book × Book :=
  let bookID := tmpl (objGet row "BookID".toList)
  let format := tmpl (objGet row "Format".toList)
  let bookKey := makeBookKey bookID format
  match idbGet Book.bookKey books bookKey with
  | some b => (books, b)
  | none =>
    let b : Book :=
      { bookKey := bookKey
        bookID := bookID
        format := format
        title := orElse (objGet row "Title".toList) []
        author := orElse (objGet row "Author".toList) []
        authorID := orElse (objGet row "AuthorID".toList)
          (normalizeId (orElse (objGet row "Author".toList) []))
        franchise := orElse (objGet row "Franchise".toList) []
        subseries := orElse (objGet row "Subseries".toList) []
        series := orElse (objGet row "Series".toList)
          (deriveSeries (orElse (objGet row "Franchise".toList) [])
            (orElse (objGet row "Subseries".toList) []))
        seriesID := orElse (objGet row "SeriesID".toList)
          (deriveSeriesId (orElse (objGet row "Franchise".toList) [])
            (orElse (objGet row "Subseries".toList) [])) }
    (idbPut Book.bookKey books b, b)

/-- The decimal text of a counter, as a template literal writes it. -/
def natStr (n : Nat) : Str := Nat.toDigits 10 n

/-- The candidate identity a template literal builds: the base key, `_copy`, the counter. -/
def copyKey (base : Str) (n : Nat) : Str :=
  base ++ "_copy".toList ++ natStr n

/-- The loop `while(await idbGet("entries", ck)) { n++; ck = ... }` shared by import and
commit (app.js lines 279 and 1004), entered with counter `n`; `fuel` bounds the number of
probes and `none` means the bound was reached. -/
def copyLoop (entries : List Entry) (base : Str) : Nat → Nat → Option Str
  | 0, _ => none
  | fuel + 1, n =>
    if (idbGet Entry.compositeKey entries (copyKey base n)).isSome then
      copyLoop entries base fuel (n + 1)
    else some (copyKey base n)

/-- The counters of `importCSV`. -/
structure ImportCounts where
  added : Nat
  skipped : Nat
  deduped : Nat
  deriving DecidableEq, Repr

/-- The body of the `for` loop of `importCSV` (app.js lines 264-293) on one decoded row;
`none` only if the collision loop exhausted its probes. -/
def importRow (header : List Str) (acc : DB × ImportCounts) (values : List Str) :
    Option (DB × ImportCounts) :=
  let db := acc.1
  let counts := acc.2
  let obj := buildRowObjFromCSV values header
  let bookKey := makeBookKey (tmpl (objGet obj "BookID".toList)) (tmpl (objGet obj "Format".toList))
  let compositeKey := objGet obj "CompositeKey".toList
  let obj :=
    if compositeKey = none ∨ compositeKey = some [] then
      objSet obj "CompositeKey".toList (tmpl (objGet obj "BookID".toList))
    else obj
  let existing := idbGet Entry.compositeKey db.entries (tmpl (objGet obj "CompositeKey".toList))
  let step : Option (Obj × Nat) :=
    if existing.isSome then
      (copyLoop db.entries (tmpl (objGet obj "CompositeKey".toList))
          (db.entries.length + 1) 2).map
        (fun ck => (objSet obj "CompositeKey".toList ck, counts.deduped + 1))
    else some (obj, counts.deduped)
  match step with
  | none => none
  | some (obj, deduped) =>
    let obj := objSet obj "bookKey".toList bookKey
    let books := (ensureBookFromCSVRow db.books obj).1
    let entries := idbPut Entry.compositeKey db.entries
      { compositeKey := tmpl (objGet obj "CompositeKey".toList), bookKey := bookKey, row := obj }
    some ({ db with books := books, entries := entries },
      { counts with added := counts.added + 1, deduped := deduped })

/-- The `for` loop of `importCSV` over the decoded data rows. -/
def importRows (header : List Str) : List (List Str) → DB × ImportCounts →
    Option (DB × ImportCounts)
  | [], acc => some acc
  | values :: rest, acc =>
    match importRow header acc values with
    | none => none
    | some acc2 => importRows header rest acc2

/-- The header test of `importCSV`:
`header.length===expected.length && header.every((h,idx)=>h===expected[idx])`. -/
def sameHeader (header expected : List Str) : Bool :=
  decide (header.length = expected.length) &&
    (List.range header.length).all (fun idx => decide (header.get? idx = expected.get? idx))

/-- Embedding of `importCSV(text)` (app.js lines 255-295): the store afterwards and either the message
of the error thrown or the counters returned; `none` only if a collision loop exhausted its
probes. -/
def importCSV (db : DB) (text : Str) : Option (DB × Except Str ImportCounts) :=
  let rows := parseCSV text
  if rows.length < 2 then some (db, .error "CSV appears empty.".toList)
  else
    let header := (rows.headD []).map jsTrim
    let expected := CSV_COLUMNS
    if !sameHeader header expected then
      some (db, .error "CSV header does not match expected 22-column schema/order.".toList)
    else
      match importRows header rows.tail (db, { added := 0, skipped := 0, deduped := 0 }) with
      | none => none
      | some (db2, counts) => some (db2, .ok counts)

/-! ## Numbers

A JavaScript number is `NaN`, an infinity, or a finite binary64 value, kept as the exact
rational it stands for.  The operations round their exact result with `binary64`. -/

/-- A JavaScript number. -/
inductive JSNum where
  | nan : JSNum
  | inf (neg : Bool) : JSNum
  | fin (q : ℚ) : JSNum
  deriving DecidableEq, Repr

/-- The power of two `2^e` as a rational. -/
def pow2 (e : Int) : ℚ :=
  if 0 ≤ e then ((2 ^ e.toNat : Nat) : ℚ) else 1 / ((2 ^ (-e).toNat : Nat) : ℚ)

/-- The integer nearest to `q`, the even one of the two when `q` lies half way. -/
def roundHalfEven (q : ℚ) : Int :=
  let f := ⌊q⌋
  if q - f < 1 / 2 then f
  else if 1 / 2 < q - f then f + 1
  else if f % 2 = 0 then f else f + 1

/-- The exponent `k` with `2^k ≤ n < 2^(k+1)` for a positive `n`, found in at most `fuel`
halvings. -/
def log2Nat : Nat → Nat → Nat
  | 0, _ => 0
  | fuel + 1, n => if n < 2 then 0 else log2Nat fuel (n / 2) + 1

/-- The exponent `e` with `2^e ≤ q < 2^(e+1)`, for a positive `q`. -/
def floorLog2 (q : ℚ) : Int :=
  let e0 : Int := (log2Nat q.num.natAbs q.num.natAbs : Int) - (log2Nat q.den q.den : Int)
  if pow2 e0 ≤ q then e0 else e0 - 1

/-- The binary64 number nearest to the rational `q`, the one with the even significand on
a tie: 53 significant bits, the least exponent -1074 (subnormal numbers), an infinity when
the rounded size reaches 2^1024. -/
def binary64 (q : ℚ) : JSNum :=
  if q = 0 then .fin 0
  else
    let e : Int := max (floorLog2 |q| - 52) (-1074)
    let v : ℚ := (roundHalfEven (q / pow2 e) : ℚ) * pow2 e
    if pow2 1024 ≤ |v| then .inf (decide (q < 0)) else .fin v

/-- The number an integer is read as. -/
def JSNum.ofInt (i : Int) : JSNum := binary64 (i : ℚ)

/-- Embedding of `Number.EPSILON`, 2 to the power -52. -/
def EPSILON : ℚ := 1 / 2 ^ 52

/-- The addition `a + b`. -/
def JSNum.add : JSNum → JSNum → JSNum
  | .nan, _ => .nan
  | _, .nan => .nan
  | .inf n1, .inf n2 => if n1 = n2 then .inf n1 else .nan
  | .inf n1, .fin _ => .inf n1
  | .fin _, .inf n2 => .inf n2
  | .fin a, .fin b => binary64 (a + b)

/-- The product `x * c` with a positive finite constant `c`. -/
def JSNum.mulBy (c : ℚ) : JSNum → JSNum
  | .fin q => binary64 (q * c)
  | x => x

/-- The quotient `x / c` with a positive finite constant `c`. -/
def JSNum.divBy (c : ℚ) : JSNum → JSNum
  | .fin q => binary64 (q / c)
  | x => x

/-- Embedding of `Math.round(y)`: the integer nearest to `y`, the larger one on a tie; an
infinity or `NaN` goes through unchanged. -/
def mathRound : JSNum → JSNum
  | .fin q => .fin (⌊q + 1 / 2⌋ : ℤ)
  | x => x

/-- Embedding of `round4(x)` (app.js lines 84-86):
`Math.round((x + Number.EPSILON)*10000)/10000`, each operation in binary64. -/
def round4 (x : JSNum) : JSNum :=
  (mathRound ((x.add (.fin EPSILON)).mulBy 10000)).divBy 10000

/-- The comparison `x <= 0`. -/
def JSNum.leZero : JSNum → Bool
  | .nan => false
  | .inf neg => neg
  | .fin q => decide (q ≤ 0)

/-- The comparison `x < 0`. -/
def JSNum.ltZero : JSNum → Bool
  | .nan => false
  | .inf neg => neg
  | .fin q => decide (q < 0)

/-- The comparison `x >= 0`. -/
def JSNum.geZero : JSNum → Bool
  | .nan => false
  | .inf neg => !neg
  | .fin q => decide (0 ≤ q)

/-- Embedding of `Number.isNaN(x)`. -/
def JSNum.isNaN : JSNum → Bool
  | .nan => true
  | _ => false

/-- The subtraction `a - b`. -/
def JSNum.sub : JSNum → JSNum → JSNum
  | .nan, _ => .nan
  | _, .nan => .nan
  | .inf n1, .inf n2 => if n1 = n2 then .nan else .inf n1
  | .inf n1, .fin _ => .inf n1
  | .fin _, .inf n2 => .inf (!n2)
  | .fin a, .fin b => binary64 (a - b)

/-- The class `\d`. -/
def isDigit (c : Char) : Bool := '0' ≤ c && c ≤ '9'

/-- The value of a run of decimal digits (`parseInt(s, 10)` on such a run). -/
def digitsVal (s : Str) : Nat :=
  s.foldl (fun acc c => 10 * acc + (c.toNat - 48)) 0

/-- The exponent part of a decimal literal: the exponent and the text after it; when the
text does not continue with a well-formed exponent part, exponent 0 and the text as it is. -/
def parseExponent (s : Str) : Int × Str :=
  match s with
  | c :: rest =>
    if c = 'e' ∨ c = 'E' then
      let signed : Bool × Str := match rest with
        | '-' :: r => (true, r)
        | '+' :: r => (false, r)
        | r => (false, r)
      let ds := signed.2.takeWhile isDigit
      if ds = [] then (0, s)
      else ((if signed.1 then -(digitsVal ds : Int) else (digitsVal ds : Int)),
        signed.2.dropWhile isDigit)
    else (0, s)
  | [] => (0, s)

/-- The binary64 number a decimal literal denotes: a magnitude of at most 2^-1075 is zero,
one of at least 2^1024 - 2^970 is an infinity, any other is rounded to the nearest
binary64 number. -/
def literalValue (neg : Bool) (mag : ℚ) : JSNum :=
  if mag ≤ 1 / 2 ^ 1075 then .fin 0
  else if (2 : ℚ) ^ 1024 - 2 ^ 970 ≤ mag then .inf neg
  else binary64 (if neg then -mag else mag)

/-- Embedding of `parseFloat(s)`: leading white space is skipped, then the longest prefix that is a
decimal literal (sign, `Infinity` or digits with an optional fraction and exponent) is
read; `NaN` when there is none. -/
def parseFloat (s : Str) : JSNum :=
  let t := s.dropWhile isJsSpace
  let signed : Bool × Str := match t with
    | '-' :: r => (true, r)
    | '+' :: r => (false, r)
    | r => (false, r)
  let u := signed.2
  if "Infinity".toList.isPrefixOf u then .inf signed.1
  else
    let ip := u.takeWhile isDigit
    let afterInt := u.dropWhile isDigit
    let fp : Str := match afterInt with
      | '.' :: r => r.takeWhile isDigit
      | _ => []
    let afterFrac : Str := match afterInt with
      | '.' :: r => r.dropWhile isDigit
      | r => r
    if ip = [] ∧ fp = [] then .nan
    else
      let ex := (parseExponent afterFrac).1
      literalValue signed.1
        ((digitsVal (ip ++ fp) : ℚ) * (10 : ℚ) ^ (ex - (fp.length : Int)))

/-- Embedding of `String(n)` for an integer `n`. -/
def intStr (n : Int) : Str :=
  if n < 0 then '-' :: natStr n.natAbs else natStr n.natAbs

/-- Trailing zeros of a digit count moved into the exponent. -/
def stripZeros : Nat → Nat → Int → Nat × Int
  | 0, n, e => (n, e)
  | fuel + 1, n, e => if n ≠ 0 ∧ n % 10 = 0 then stripZeros fuel (n / 10) (e + 1) else (n, e)

/-- Embedding of `Number::toString` of ECMAScript on a positive finite value with digits `ds` (their
number is `k`) and decimal point position `n`. -/
def formatDigits (ds : Str) (n : Int) : Str :=
  let k : Int := ds.length
  if k ≤ n ∧ n ≤ 21 then ds ++ List.replicate (n - k).toNat '0'
  else if 0 < n ∧ n ≤ 21 then ds.take n.toNat ++ ['.'] ++ ds.drop n.toNat
  else if -6 < n ∧ n ≤ 0 then ['0', '.'] ++ List.replicate (-n).toNat '0' ++ ds
  else
    let ex : Str := (if n - 1 < 0 then ['-'] else ['+']) ++ natStr (n - 1).natAbs
    if k = 1 then ds ++ ['e'] ++ ex
    else ds.take 1 ++ ['.'] ++ ds.drop 1 ++ ['e'] ++ ex

/-- The power of ten `10^e` as a rational. -/
def pow10 (e : Int) : ℚ :=
  if 0 ≤ e then ((10 ^ e.toNat : Nat) : ℚ) else 1 / ((10 ^ (-e).toNat : Nat) : ℚ)

/-- The exponent `n` with `10^(n-1) ≤ q < 10^n`, for a positive `q`. -/
def decimalExponent (q : ℚ) : Int :=
  if 1 ≤ q then ((natStr ⌊q⌋.toNat).length : Int)
  else 1 - ((natStr (⌈1 / q⌉.toNat - 1)).length : Int)

/-- The search of `Number::toString` for the shortest digits that read back as `x`: with
`k` digits the two candidates are the multiples of `10^(n-k)` next to `x`; the first `k`
for which one of them rounds to the binary64 number of `x` is taken, the candidate nearer
to `x` if both do, the even one if they are equally near.  Seventeen digits always
suffice; the loop gives up after `fuel` lengths. -/
def shortestLoop (x : ℚ) (n : Int) : Nat → Nat → Nat × Nat
  | 0, k => ((⌊x / pow10 (n - k)⌋).toNat, k)
  | fuel + 1, k =>
    let scale := pow10 (n - k)
    let lo : Nat := (⌊x / scale⌋).toNat
    let okLo := decide (binary64 (lo * scale) = binary64 x)
    let okHi := decide (binary64 ((lo + 1 : Nat) * scale) = binary64 x)
    if okLo && okHi then
      if x - lo * scale < (lo + 1 : Nat) * scale - x then (lo, k)
      else if (lo + 1 : Nat) * scale - x < x - lo * scale then (lo + 1, k)
      else if lo % 2 = 0 then (lo, k) else (lo + 1, k)
    else if okLo then (lo, k)
    else if okHi then (lo + 1, k)
    else shortestLoop x n fuel (k + 1)

/-- Embedding of `String(x)` for a number `x` (`Number::toString` of ECMAScript): the
shortest digits that read back as `x`, laid out by `formatDigits`. -/
def numberToString : JSNum → Str
  | .nan => "NaN".toList
  | .inf neg => if neg then "-Infinity".toList else "Infinity".toList
  | .fin q =>
    if q = 0 then ['0']
    else
      let n := decimalExponent |q|
      let sk := shortestLoop |q| n 20 1
      let ds := natStr (stripZeros sk.1 sk.1 0).1
      (if q < 0 then ['-'] else []) ++
        formatDigits ds (n + ((natStr sk.1).length : Int) - (sk.2 : Int))

/-- Embedding of `x.toFixed(4)`: the integer `n` nearest to `x * 10^4` (the larger one on a tie) written
with the decimal point before its last four digits; from 10^21 on, `String(x)`. -/
def toFixed4 : JSNum → Str
  | .fin q =>
    if (10 : ℚ) ^ 21 ≤ |q| then numberToString (.fin q)
    else
      let n := (⌊|q| * 10000 + 1 / 2⌋).toNat
      let m := natStr n
      let m := if m.length ≤ 4 then List.replicate (5 - m.length) '0' ++ m else m
      (if q < 0 then ['-'] else []) ++ m.take (m.length - 4) ++ ['.'] ++ m.drop (m.length - 4)
  | x => numberToString x

/-! ## Time ranges and the draft -/

/-- Embedding of `parseHhMm(s)` (app.js lines 64-74): the pattern is `^(-?\d+)(?:h|:)(\d{1,2})$`. -/
def parseHhMm (s : Str) : Option Int :=
  if s = [] then none
  else
    let t := (jsToLower (jsTrim s)).filter (fun c => !isJsSpace c)
    let signed : Bool × Str := match t with
      | '-' :: r => (true, r)
      | r => (false, r)
    let hs := signed.2.takeWhile isDigit
    match signed.2.dropWhile isDigit with
    | sep :: ms =>
      if hs ≠ [] ∧ (sep = 'h' ∨ sep = ':') ∧ (ms.length = 1 ∨ ms.length = 2) ∧
          ms.all isDigit = true then
        let h : Int := if signed.1 then -(digitsVal hs : Int) else (digitsVal hs : Int)
        let mm : Int := digitsVal ms
        if mm < 0 ∨ mm > 59 then none else some (h * 60 + mm)
      else none
    | [] => none

/-- Embedding of `minutesDiff(startMin, endMin)` (app.js lines 80-83). -/
def minutesDiff (startMin endMin : Option Int) : Option JSNum :=
  match startMin, endMin with
  | some s, some e => some ((JSNum.ofInt e).sub (JSNum.ofInt s))
  | _, _ => none

/-- What `computeDurationHours` returns. -/
structure Duration where
  totalMin : JSNum
  hasOpen : Bool
  durH : JSNum
  deriving DecidableEq, Repr

/-- The `for` loop of `computeDurationHours` (app.js lines 937-942) on the ranges left,
with the current `totalMin` and `hasOpen`. -/
def durationLoop : List TimeRange → JSNum × Bool → JSNum × Bool
  | [], acc => acc
  | r :: rest, acc =>
    if r.start = none then durationLoop rest acc
    else if r.end_ = none then durationLoop rest (acc.1, true)
    else
      match minutesDiff r.start r.end_ with
      | some diff =>
        if diff.geZero then durationLoop rest (acc.1.add diff, acc.2)
        else durationLoop rest acc
      | none => durationLoop rest acc

/-- Embedding of `computeDurationHours()` (app.js lines 934-944) on the draft's ranges. -/
def computeDurationHours (timeRanges : List TimeRange) : Duration :=
  let r := durationLoop timeRanges (.fin 0, false)
  { totalMin := r.1, hasOpen := r.2, durH := round4 (r.1.divBy 60) }

/-- The expression `s || d` on two strings. -/
def orStr (s d : Str) : Str := if s = [] then d else s

/-- Embedding of `saveDraft(d)` (app.js lines 1069-1072): the draft as saved and the drafts store. -/
def saveDraft (today : Str) (drafts : List Draft) (d : Draft) : Draft × List Draft :=
  let d2 := { d with lastEdited := today }
  (d2, idbPut Draft.draftKey drafts d2)

/-- How a call of `commitEntry` ends. -/
inductive CommitResult where
  | rejected (alert : Str) : CommitResult
  | committed (compositeKey : Str) (row : Obj) : CommitResult
  deriving DecidableEq, Repr

/-- The store and the in-memory draft after a call of `commitEntry`, and how it ended. -/
structure CommitOutcome where
  db : DB
  draft : Draft
  result : CommitResult
  deriving DecidableEq, Repr

/-- Embedding of `commitEntry()` (app.js lines 987-1049) for the draft and the book the slug editor
holds, on the day `today`; `none` only if the collision loop exhausted its probes. -/
def commitEntry (today : Str) (db : DB) (book : Book) (draft : Draft) : Option CommitOutcome :=
  let d := computeDurationHours draft.timeRanges
  if d.hasOpen then
    some { db := db, draft := draft,
           result := .rejected
             "You have an open range (missing end). Close it before committing.".toList }
  else if d.durH.leZero then
    some { db := db, draft := draft,
           result := .rejected
             "Duration is 0. Add at least one valid closed range before committing.".toList }
  else
    let cost := parseFloat (orStr draft.cost_h ['0'])
    if cost.isNaN || cost.ltZero then
      some { db := db, draft := draft,
             result := .rejected "Cost must be a non-negative number (e.g., 0 or 2.09).".toList }
    else
      let net := round4 (d.durH.sub cost)
      let lastEdited := today
      let bookID := book.bookID
      let resolved : Option Str :=
        if (idbGet Entry.compositeKey db.entries bookID).isSome then
          copyLoop db.entries bookID (db.entries.length + 1) 2
        else some bookID
      match resolved with
      | none => none
      | some compositeKey =>
        let series := orStr book.series (deriveSeries book.franchise book.subseries)
        let seriesID := orStr book.seriesID (deriveSeriesId book.franchise book.subseries)
        let row : Obj :=
          [ ("SchemaVersion".toList, SCHEMA_VERSION),
            ("Title".toList, book.title),
            ("Author".toList, book.author),
            ("AuthorID".toList, orStr book.authorID (normalizeId book.author)),
            ("BookID".toList, book.bookID),
            ("Format".toList, book.format),
            ("Series".toList, series),
            ("SeriesID".toList, seriesID),
            ("Duration_h".toList, toFixed4 d.durH),
            ("Cost_h".toList, numberToString cost),
            ("Net_h".toList, numberToString net),
            ("Tags".toList, orStr draft.tags []),
            ("Notes".toList, orStr draft.notes []),
            ("Status".toList, orStr draft.status "Unfinished".toList),
            ("DateStarted".toList, orStr draft.dateStarted today),
            ("DateFinished".toList,
              if draft.status ≠ [] ∧ draft.status ≠ "Unfinished".toList then
                orStr draft.dateFinished today
              else []),
            ("DayDelta".toList, ['0']),
            ("Scoreboard".toList, []),
            ("LastEdited".toList, lastEdited),
            ("CompositeKey".toList, compositeKey),
            ("Franchise".toList, orStr book.franchise []),
            ("Subseries".toList, orStr book.subseries []) ]
        let entries := idbPut Entry.compositeKey db.entries
          { compositeKey := compositeKey, bookKey := book.bookKey, row := row }
        let draft1 :=
          if orStr draft.status "Unfinished".toList ≠ "Unfinished".toList then
            { draft with active := false }
          else draft
        let draft2 := { draft1 with lastEdited := lastEdited }
        let saved := saveDraft today db.drafts draft2
        some { db := { db with entries := entries, drafts := saved.2 }, draft := saved.1,
               result := .committed compositeKey row }

/-! ## The interchange format in the words of the specification -/

/-- A field as the interchange format writes it: wrapped in double quotes, each double
quote inside doubled. -/
def quoteField (v : Str) : Str :=
  ['"'] ++ v.flatMap (fun c => if c = '"' then ['"', '"'] else [c]) ++ ['"']

/-- The values of the 22 columns of a row object, a missing one as the empty string. -/
def rowValues (row : Obj) : List Str :=
  CSV_COLUMNS.map (fun k => (objGet row k).getD [])

/-- The interchange text of a list of rows: every field quoted, fields joined by commas,
every row ended by a line feed. -/
def specDocument (rows : List (List Str)) : Str :=
  (rows.map (fun r => [','].intercalate (r.map quoteField) ++ ['\n'])).flatten

/-! ## The collision rule in the words of the specification -/

/-- The keys under which the entries of a store are kept. -/
def entryKeys (entries : List Entry) : List Str := entries.map Entry.compositeKey

/-- The key `key` is what the collision rule makes of the candidate `K` over the persisted
keys: `K` itself when unused, otherwise `K` followed by `_copy` and the least `N` from 2 on
for which that text is unused. -/
def IsResolved (keys : List Str) (K key : Str) : Prop :=
  (K ∉ keys ∧ key = K) ∨
  (K ∈ keys ∧ ∃ N, 2 ≤ N ∧ key = copyKey K N ∧ copyKey K N ∉ keys ∧
    ∀ m, 2 ≤ m → m < N → copyKey K m ∈ keys)

/-- The candidate key of a row object on import: its `CompositeKey`, or its `BookID` when
the `CompositeKey` is blank. -/
def rowCandidate (obj : Obj) : Str :=
  if objGet obj "CompositeKey".toList = none ∨ objGet obj "CompositeKey".toList = some [] then
    tmpl (objGet obj "BookID".toList)
  else tmpl (objGet obj "CompositeKey".toList)

/-- The candidate key of a decoded row of 22 values: the supplied `CompositeKey` (column 19),
or the `BookID` (column 4) when the supplied key is blank. -/
def importCandidate (values : List Str) : Str :=
  if (values.get? 19).getD [] = [] then (values.get? 4).getD [] else (values.get? 19).getD []

/-- Every entry of the list was written under a key that no entry present at that moment
had: none of `old` and none of the entries of the list before it. -/
def FreshlyAppended (old : List Entry) : List Entry → Prop
  | [] => True
  | e :: rest => e.compositeKey ∉ entryKeys old ∧ FreshlyAppended (old ++ [e]) rest

/-! ## Durations in the words of the specification -/

/-- A range with a set start and an unset end. -/
def isOpenRange (r : TimeRange) : Bool :=
  r.start.isSome && r.end_.isNone

/-- The minutes a range adds to the total: `end - start` when both are set and the end is
not before the start, nothing otherwise. -/
def countedMinutes (r : TimeRange) : Option Int :=
  match r.start, r.end_ with
  | some s, some e => if s ≤ e then some (e - s) else none
  | _, _ => none

/-- Rounding to 4 decimal places, a half at the 4th decimal going up. -/
def halfUp4 (x : ℚ) : ℚ := (⌊x * 10000 + 1 / 2⌋ : ℤ) / 10000

/-- A text of the shape `digits.dddd`: an integer part and exactly four decimal digits. -/
def IsFourDecimals (s : Str) (value : ℚ) : Prop :=
  ∃ ip frac : Str, s = ip ++ '.' :: frac ∧ ip ≠ [] ∧ ip.all isDigit = true ∧
    frac.length = 4 ∧ frac.all isDigit = true ∧
    (digitsVal ip : ℚ) + (digitsVal frac : ℚ) / 10000 = value

/-- The cost `commitEntry` reads from a draft. -/
def draftCost (draft : Draft) : JSNum := parseFloat (orStr draft.cost_h ['0'])

/-! ## Sample data -/

/-- A row record with a comma, double quotes, an embedded line feed, padding spaces and
empty fields. -/
def sampleRow : List Str :=
  ["2025.2", "a, b", "say \"hi\"", "line1\nline2", "  padded  ", "", "", "", "", "", "",
   "", "", "", "", "", "", "", "", "", "", ""].map String.toList

/-- A store with nothing in it. -/
def emptyDB : DB := { books := [], entries := [], drafts := [] }

/-- One data line of interchange text, with composite key `K`. -/
def sampleLine : String :=
  "2025.2,Dune,Frank Herbert,,dune,Kindle,,,1.0000,0,1,,,Finished,2025-01-01,2025-01-02,0,,2025-01-02,K,Dune,\n"

/-- Interchange text whose header has a space before the first column name. -/
def paddedHeaderText : Str :=
  (" SchemaVersion,Title,Author,AuthorID,BookID,Format,Series,SeriesID,Duration_h,Cost_h,Net_h,Tags,Notes,Status,DateStarted,DateFinished,DayDelta,Scoreboard,LastEdited,CompositeKey,Franchise,Subseries\n"
    ++ sampleLine).toList

/-- Interchange text whose header omits `Subseries`. -/
def shortHeaderText : Str :=
  ("SchemaVersion,Title,Author,AuthorID,BookID,Format,Series,SeriesID,Duration_h,Cost_h,Net_h,Tags,Notes,Status,DateStarted,DateFinished,DayDelta,Scoreboard,LastEdited,CompositeKey,Franchise\n"
    ++ sampleLine).toList

/-- A catalog item. -/
def sampleBook : Book :=
  { bookKey := "dune||Kindle".toList, bookID := "dune".toList, format := "Kindle".toList,
    title := "Dune".toList, author := "Frank Herbert".toList, authorID := [],
    franchise := "Dune".toList, subseries := [], series := [], seriesID := [] }

/-- An active, unfinished draft of the sample book with the given ranges and cost text. -/
def sampleDraft (ranges : List TimeRange) (cost : Str) : Draft :=
  { draftKey := "draft_dune||Kindle_1".toList, bookKey := "dune||Kindle".toList, active := true,
    dateStarted := "2025-01-01".toList, dateFinished := [], status := "Unfinished".toList,
    tags := [], notes := [], cost_h := cost, timeRanges := ranges,
    lastEdited := "2025-01-01".toList }

/-- A store holding the sample book and the given draft. -/
def sampleStore (draft : Draft) : DB :=
  { books := [sampleBook], entries := [], drafts := [draft] }

/-- The day of the sample commits. -/
def sampleToday : Str := "2025-02-02".toList

/-- The key a call of `commitEntry` persisted its row under, when it committed. -/
def committedKey (o : Option CommitOutcome) : Option Str :=
  match o with
  | some out =>
    match out.result with
    | .committed key _ => some key
    | .rejected _ => none
  | none => none

/-- A field of the row a call of `commitEntry` persisted, when it committed. -/
def committedField (o : Option CommitOutcome) (k : Str) : Option Str :=
  match o with
  | some out =>
    match out.result with
    | .committed _ row => objGet row k
    | .rejected _ => none
  | none => none

/-- The alert of a call of `commitEntry` that was refused. -/
def rejection (o : Option CommitOutcome) : Option Str :=
  match o with
  | some out =>
    match out.result with
    | .committed _ _ => none
    | .rejected msg => some msg
  | none => none

/-- The header line of the interchange format, unquoted. -/
def plainHeader : String :=
  "SchemaVersion,Title,Author,AuthorID,BookID,Format,Series,SeriesID,Duration_h,Cost_h,Net_h,Tags,Notes,Status,DateStarted,DateFinished,DayDelta,Scoreboard,LastEdited,CompositeKey,Franchise,Subseries\n"

/-- Interchange text with two data rows of composite key `K`. -/
def twoRowsText : Str := (plainHeader ++ sampleLine ++ sampleLine).toList

/-- Interchange text with three data rows of composite key `K`. -/
def threeRowsText : Str := (plainHeader ++ sampleLine ++ sampleLine ++ sampleLine).toList

/-- A store in which `K_copy2` is taken and `K` is not. -/
def copy2TakenDB : DB :=
  { books := [],
    entries := [{ compositeKey := "K_copy2".toList, bookKey := "dune||Kindle".toList, row := [] }],
    drafts := [] }

/-- The 22 values of `sampleLine`. -/
def sampleValues : List Str :=
  ["2025.2", "Dune", "Frank Herbert", "", "dune", "Kindle", "", "", "1.0000", "0", "1", "", "",
   "Finished", "2025-01-01", "2025-01-02", "0", "", "2025-01-02", "K", "Dune", ""].map
    String.toList

/-! ## Identifier derivation in the words of the specification -/

/-- The call `normalizeId(s)` with an argument that may be absent: `String(s||"")` is the
empty string then. -/
def normalizeIdArg (s : Option Str) : Str := normalizeId (orElse s [])

/-- Every maximal run of characters outside `[a-z0-9]` replaced by a single underscore: a
character of the class is kept, any other one is written as one underscore and the rest of
its run is dropped. -/
def collapseSpec : Str → Str
  | [] => []
  | c :: rest =>
    if isLowerAlnum c then c :: collapseSpec rest
    else '_' :: collapseSpec (rest.dropWhile (fun d => !isLowerAlnum d))
termination_by s => s.length
decreasing_by
  · simp
  · simp only [List.length_cons]
    exact Nat.lt_succ_of_le (List.Sublist.length_le (List.dropWhile_sublist _))

/-- No two underscores in a row. -/
def NoDoubleUnderscore (s : Str) : Prop :=
  List.Chain' (fun a b => ¬ (a = '_' ∧ b = '_')) s

/-! ## Statistics engine -/

/-- The expression `x || 0` on a number: `NaN` (and zero) give 0. -/
def JSNum.orZero : JSNum → JSNum
  | .nan => .fin 0
  | x => x

/-- The expression `parseFloat(v||"0")||0` on a row field. -/
def tolerantNumber (v : Option Str) : JSNum :=
  (parseFloat (orElse v ['0'])).orZero

/-- The test `(row.Status||"").toLowerCase()==="finished"`. -/
def isFinishedRow (row : Obj) : Bool :=
  decide (jsToLower (orElse (objGet row "Status".toList) []) = "finished".toList)

/-- The records `idbAll("entries","by_bookKey", bookKey)` returns. -/
def entriesOfBook (entries : List Entry) (bookKey : Str) : List Entry :=
  entries.filter (fun e => e.bookKey == bookKey)

/-- What `computeBookStats` returns. -/
structure BookStats where
  reads : Nat
  duration : JSNum
  cost : JSNum
  netOverall : JSNum
  deriving DecidableEq, Repr

/-- The `for` loop of `computeBookStats` (app.js lines 373-379) with the current `reads`,
`dur` and `cost`. -/
def bookStatsLoop : List Entry → Nat × JSNum × JSNum → Nat × JSNum × JSNum
  | [], acc => acc
  | e :: rest, acc =>
    let d := tolerantNumber (objGet e.row "Duration_h".toList)
    let c := tolerantNumber (objGet e.row "Cost_h".toList)
    bookStatsLoop rest
      (if isFinishedRow e.row then acc.1 + 1 else acc.1, acc.2.1.add d, acc.2.2.add c)

/-- Embedding of `computeBookStats(bookKey)` (app.js lines 370-382). -/
def computeBookStats (entries : List Entry) (bookKey : Str) : BookStats :=
  let r := bookStatsLoop (entriesOfBook entries bookKey) (0, .fin 0, .fin 0)
  { reads := r.1, duration := r.2.1, cost := r.2.2, netOverall := r.2.1.sub r.2.2 }

/-- The comparison `a >= b` of two strings. -/
def jsStrGe (a b : Str) : Bool := !jsStrLt a b

/-- The comparison `a <= b` of two strings. -/
def jsStrLe (a b : Str) : Bool := !jsStrLt b a

/-- Embedding of `dateInRange(d, from, to)` (app.js lines 451-454). -/
def dateInRange (d from_ to_ : Str) : Bool :=
  if d = [] then false else jsStrGe d from_ && jsStrLe d to_

/-- The expression `row.DateStarted || row.DateFinished || ""`. -/
def effectiveDate (row : Obj) : Str :=
  orElse (objGet row "DateStarted".toList) (orElse (objGet row "DateFinished".toList) [])

/-- What `sumEntries` returns. -/
structure RangeStats where
  dur : JSNum
  cost : JSNum
  net : JSNum
  deriving DecidableEq, Repr

/-- The `for` loop of `sumEntries` (app.js lines 468-475) with the current `dur` and
`cost`. -/
def sumEntriesLoop (from_ to_ : Str) : List Entry → JSNum × JSNum → JSNum × JSNum
  | [], acc => acc
  | e :: rest, acc =>
    if dateInRange (effectiveDate e.row) from_ to_ then
      sumEntriesLoop from_ to_ rest
        (acc.1.add (tolerantNumber (objGet e.row "Duration_h".toList)),
         acc.2.add (tolerantNumber (objGet e.row "Cost_h".toList)))
    else sumEntriesLoop from_ to_ rest acc

/-- Embedding of `sumEntries(from, to)` (app.js lines 465-478) on the records
`idbAll("entries")` returns. -/
def sumEntries (entries : List Entry) (from_ to_ : Str) : RangeStats :=
  let r := sumEntriesLoop from_ to_ entries (.fin 0, .fin 0)
  { dur := r.1, cost := r.2, net := r.1.sub r.2 }

/-- The sum of a list of numbers, added from the left starting at 0. -/
def jsSum (xs : List JSNum) : JSNum := xs.foldl JSNum.add (.fin 0)

/-- The number a row counts for in a total of `Duration_h`. -/
def durationOf (e : Entry) : JSNum := tolerantNumber (objGet e.row "Duration_h".toList)

/-- The number a row counts for in a total of `Cost_h`. -/
def costOf (e : Entry) : JSNum := tolerantNumber (objGet e.row "Cost_h".toList)

/-- The entry's effective date is not empty and lies in the window, both bounds included,
in the order of strings. -/
def inWindow (from_ to_ : Str) (e : Entry) : Bool :=
  decide (effectiveDate e.row ≠ []) && jsStrLe from_ (effectiveDate e.row) &&
    jsStrLe (effectiveDate e.row) to_

/-- Three entries of the sample book: a finished one, an unfinished one with an
unparseable cost, and one of another book. -/
def statsEntries : List Entry :=
  [{ compositeKey := "dune".toList, bookKey := "dune||Kindle".toList,
     row := [("Duration_h".toList, "3.7000".toList), ("Cost_h".toList, "2".toList),
             ("Status".toList, "Finished".toList), ("DateStarted".toList, "2025-01-05".toList)] },
   { compositeKey := "dune_copy2".toList, bookKey := "dune||Kindle".toList,
     row := [("Duration_h".toList, "1.5".toList), ("Cost_h".toList, "n/a".toList),
             ("Status".toList, "Unfinished".toList), ("DateStarted".toList, []),
             ("DateFinished".toList, "2025-02-01".toList)] },
   { compositeKey := "emma".toList, bookKey := "emma||Audio".toList,
     row := [("Duration_h".toList, "10".toList), ("Cost_h".toList, "1".toList),
             ("Status".toList, "finished".toList)] }]

/-! ## The order of the exported rows in the words of the specification -/

/-- The `LastEdited` an entry is sorted by: a missing one counts as the empty string. -/
def lastEditedOf (e : Entry) : Str := (objGet e.row "LastEdited".toList).getD []

/-- The pair (LastEdited, CompositeKey) of `a` is below that of `b`: the first components
decide, the composite keys do on a tie; strings are in the order of JavaScript. -/
def exportBefore (a b : Entry) : Prop :=
  jsStrLt (lastEditedOf a) (lastEditedOf b) = true ∨
    (lastEditedOf a = lastEditedOf b ∧ jsStrLt a.compositeKey b.compositeKey = true)

/-! ## The life of a draft -/

/-- Embedding of `findActiveDraftByBookKey(bookKey)` (app.js lines 756-759): the first
active draft among the records of the index `by_bookKey`. -/
def findActiveDraftByBookKey (drafts : List Draft) (bookKey : Str) : Option Draft :=
  (drafts.filter (fun d => d.bookKey == bookKey)).find? (fun d => d.active == true)

/-- Embedding of `getOrCreateDraft(bookKey, opts)` (app.js lines 761-783) at the clock value
`now` of `Date.now()` on the day `today`: the store afterwards and the draft key returned,
or the message of the error thrown. -/
def getOrCreateDraft (now : Nat) (today : Str) (db : DB) (bookKey : Str) (isReread : Bool) :
    DB × Except Str Str :=
  match findActiveDraftByBookKey db.drafts bookKey with
  | some existing => (db, .ok existing.draftKey)
  | none =>
    match idbGet Book.bookKey db.books bookKey with
    | none => (db, .error "Book not found.".toList)
    | some _ =>
      let draftKey := "draft_".toList ++ bookKey ++ ['_'] ++ natStr now
      let d : Draft :=
        { draftKey := draftKey
          bookKey := bookKey
          active := true
          dateStarted := today
          dateFinished := []
          status := "Unfinished".toList
          tags := []
          notes := if isReread then "reread".toList else []
          cost_h := if isReread then ['0'] else []
          timeRanges := []
          lastEdited := today }
      ({ db with drafts := idbPut Draft.draftKey db.drafts d }, .ok draftKey)

/-- What `openSlug(draftKey)` loads before it builds the editor (app.js lines 785-789): the
draft and its book; `none` when either is not found and the editor is not opened. -/
def openSlug (db : DB) (draftKey : Str) : Option (Draft × Book) :=
  match idbGet Draft.draftKey db.drafts draftKey with
  | none => none
  | some draft =>
    match idbGet Book.bookKey db.books draft.bookKey with
    | none => none
    | some book => some (draft, book)

/-- The actions of the slug editor that change the draft and save it (app.js lines 808-928
and 946-975). -/
inductive SlugAction where
  | setStatus (value : Str) : SlugAction
  | setCost (value : Str) : SlugAction
  | setDateStarted (value : Str) : SlugAction
  | setDateFinished (value : Str) : SlugAction
  | setTags (value : Str) : SlugAction
  | setNotes (value : Str) : SlugAction
  | addRange : SlugAction
  | setRangeStart (idx : Nat) (value : Str) : SlugAction
  | setRangeEnd (idx : Nat) (value : Str) : SlugAction
  | deleteRange (idx : Nat) : SlugAction
  | removeFromReading : SlugAction
  deriving DecidableEq, Repr

/-- The change an action of the slug editor makes to the draft before `saveDraft`. -/
def applyAction (today : Str) (a : SlugAction) (draft : Draft) : Draft :=
  match a with
  | .setStatus value =>
    let d1 := { draft with status := value }
    let d2 :=
      if d1.status ≠ "Unfinished".toList ∧ d1.dateFinished = [] then
        { d1 with dateFinished := today }
      else d1
    if d2.status = "Unfinished".toList then { d2 with dateFinished := [] } else d2
  | .setCost value => { draft with cost_h := value }
  | .setDateStarted value => { draft with dateStarted := jsTrim value }
  | .setDateFinished value => { draft with dateFinished := jsTrim value }
  | .setTags value => { draft with tags := value }
  | .setNotes value => { draft with notes := value }
  | .addRange => { draft with timeRanges := draft.timeRanges ++ [⟨none, none⟩] }
  | .setRangeStart idx value =>
    { draft with
      timeRanges := draft.timeRanges.modify (fun r => { r with start := parseHhMm value }) idx }
  | .setRangeEnd idx value =>
    { draft with
      timeRanges := draft.timeRanges.modify (fun r => { r with end_ := parseHhMm value }) idx }
  | .deleteRange idx => { draft with timeRanges := draft.timeRanges.eraseIdx idx }
  | .removeFromReading => { draft with active := false }

/-- The store states reachable from an empty drafts collection by imports, calls of
`getOrCreateDraft`, actions of the slug editor on a stored draft (edits and
remove-from-reading, each followed by `saveDraft`) and calls of `commitEntry` on a stored
draft.  The editor's draft is the record the store holds under its key: every change of
the editor is saved before the next one, and no second editor works on an older copy. -/
inductive Reachable : DB → Prop where
  | init (books : List Book) (entries : List Entry) :
      Reachable { books := books, entries := entries, drafts := [] }
  | imported {db : DB} (h : Reachable db) (text : Str) (db2 : DB)
      (res : Except Str ImportCounts) (hi : importCSV db text = some (db2, res)) :
      Reachable db2
  | created {db : DB} (h : Reachable db) (now : Nat) (today bookKey : Str) (isReread : Bool) :
      Reachable (getOrCreateDraft now today db bookKey isReread).1
  | edited {db : DB} (h : Reachable db) (today draftKey : Str) (a : SlugAction)
      (draft : Draft) (book : Book) (ho : openSlug db draftKey = some (draft, book)) :
      Reachable { db with drafts := (saveDraft today db.drafts (applyAction today a draft)).2 }
  | committed {db : DB} (h : Reachable db) (today draftKey : Str) (draft : Draft)
      (book : Book) (out : CommitOutcome) (ho : openSlug db draftKey = some (draft, book))
      (hc : commitEntry today db book draft = some out) :
      Reachable out.db

/-- No two records of the drafts store share a key. -/
def DraftKeysDistinct (drafts : List Draft) : Prop := (drafts.map Draft.draftKey).Nodup

/-- No two drafts of the same catalog item are both active: two active drafts with the same
catalog key are the same record. -/
def AtMostOneActive (drafts : List Draft) : Prop :=
  ∀ d1 ∈ drafts, ∀ d2 ∈ drafts, d1.bookKey = d2.bookKey → d1.active = true →
    d2.active = true → d1 = d2

/-- The active drafts of one catalog item in the drafts store. -/
def activeDrafts (drafts : List Draft) (bookKey : Str) : List Draft :=
  drafts.filter (fun d => d.bookKey == bookKey && d.active)

/-- A store holding the sample book and no draft. -/
def catalogStore : DB := { books := [sampleBook], entries := [], drafts := [] }

/-- A row object naming the sample book, with other catalog fields than the stored item. -/
def otherRow : Obj :=
  [("BookID".toList, "dune".toList), ("Format".toList, "Kindle".toList),
   ("Title".toList, "Dune Messiah".toList), ("Author".toList, "F. Herbert".toList),
   ("Franchise".toList, "Dune Saga".toList), ("Subseries".toList, "Prelude".toList)]

/-! ## Carriage returns and blank lines in the words of the specification -/

/-- The state of the loop of `parseCSV` after one character read outside a quoted section
(app.js lines 227-236). -/
def readOutside (c : Char) (st : ParseState) : ParseState :=
  if c = '"' then { st with inQ := true }
  else if c = ',' then { st with row := st.row ++ [st.field], field := [] }
  else if c = '\n' then
    { st with rows := if keepRow (st.row ++ [st.field]) then st.rows ++ [st.row ++ [st.field]]
                      else st.rows,
              row := [], field := [] }
  else if c = '\r' then st
  else { st with field := st.field ++ [c] }

/-- A carriage return stands inside a quoted section of the text, where a double quote
opens a section when none is open and closes the open one otherwise; `q` tells whether the
text starts inside a section. -/
def hasQuotedCR : Str → Bool → Bool
  | [], _ => false
  | c :: rest, q =>
    if c = '"' then hasQuotedCR rest (!q)
    else (q && decide (c = '\r')) || hasQuotedCR rest q

/-- A quoted section is open at the end of the text; `q` tells whether the text starts
inside one. -/
def quoteOpen : Str → Bool → Bool
  | [], q => q
  | c :: rest, q => quoteOpen rest (if c = '"' then !q else q)

/-- The text with LF line endings: each carriage return directly followed by a line feed
is removed. -/
def toLF : Str → Str
  | [] => []
  | c :: rest => if c = '\r' ∧ rest.head? = some '\n' then toLF rest else c :: toLF rest

/-- A blank line: white space only, and no line feed. -/
def IsBlank (ws : Str) : Prop := ∀ c ∈ ws, isJsSpace c = true ∧ c ≠ '\n'

/-- No field of the local variables of the loop of `parseCSV` holds a carriage return. -/
def NoCRState (st : ParseState) : Prop :=
  (∀ r ∈ st.rows, ∀ f ∈ r, '\r' ∉ f) ∧ (∀ f ∈ st.row, '\r' ∉ f) ∧ '\r' ∉ st.field

/-- Two lines with CRLF line endings, the second with a quoted field. -/
def crlfText : Str := "a,b\r\nc,\"d,e\"\r\n".toList

/-! ## Showing an elapsed-minute offset -/

/-- Embedding of `s.padStart(targetLength, fill)` for a one-character fill string. -/
def padStart (s : Str) (targetLength : Nat) (fill : Char) : Str :=
  List.replicate (targetLength - s.length) fill ++ s

/-- Embedding of `fmtHhMm(minutes)` (app.js lines 75-79): `Math.trunc(minutes/60)` is the
quotient rounded towards zero, `minutes%60` the remainder with the sign of `minutes`, and
the template literal writes the hours with `String(h)`. -/
def fmtHhMm (minutes : Int) : Str :=
  let h : Int := Int.tdiv minutes 60
  let m : Nat := (Int.tmod minutes 60).natAbs
  numberToString (.fin (h : ℚ)) ++ ['h'] ++ padStart (natStr m) 2 '0'

/-! ## The series label and its identifier -/

/-- The text `normalizeId` replaces runs in (app.js lines 165-166 without the trim): lower
case, the two apostrophe characters removed. -/
def lowerPlain (s : Str) : Str :=
  (jsToLower s).filter (fun c => !(c == '\'' || c == Char.ofNat 0x2019))

/-! ## The range of exact minute totals -/

/-- Every offset of the ranges is an integer below 2^52 in size. -/
def OffsetsBelow52 (ranges : List TimeRange) : Prop :=
  ∀ r ∈ ranges, (∀ i, r.start = some i → |i| < 2 ^ 52) ∧ (∀ i, r.end_ = some i → |i| < 2 ^ 52)

/-- Two closed ranges, of 2^53 minutes and of one minute. -/
def longRanges : List TimeRange :=
  [⟨some 0, some 9007199254740992⟩, ⟨some 0, some 1⟩]

/-- A draft of the sample book with one range from 0 to the given offset and the given
cost text. -/
def rangeDraft (offset : Int) (cost : Str) : Draft := sampleDraft [⟨some 0, some offset⟩] cost

/-- Two entries of the sample book whose decimal figures have no exact binary64 value:
durations 0.3 and 0, costs 0.1 and 0.2. -/
def decimalEntries : List Entry :=
  [{ compositeKey := "dune".toList, bookKey := "dune||Kindle".toList,
     row := [("Duration_h".toList, "0.3".toList), ("Cost_h".toList, "0.1".toList),
             ("Status".toList, "Finished".toList), ("DateStarted".toList, "2025-01-05".toList)] },
   { compositeKey := "dune_copy2".toList, bookKey := "dune||Kindle".toList,
     row := [("Duration_h".toList, "0".toList), ("Cost_h".toList, "0.2".toList),
             ("Status".toList, "Finished".toList), ("DateStarted".toList, "2025-01-06".toList)] }]
/-! # Theorems -/

/-! ## Decoding what the encoder wrote -/

theorem replaceQuotes_of_not_needsEscape (s : Str) (h : needsEscape s = false) :
    replaceQuotes s = s := by
  induction s with
  | nil => rfl
  | cons c rest ih =>
    simp only [needsEscape, List.any_cons, Bool.or_eq_false_iff] at h
    have hc : c ≠ '"' := by
      intro hq
      simp [hq] at h
    simp only [replaceQuotes, hc, if_false]
    rw [ih (by simpa [needsEscape] using h.2)]

theorem csvEscape_eq (s : Str) : csvEscape (some s) = '"' :: (replaceQuotes s ++ ['"']) := by
  by_cases h : needsEscape s = true
  · simp [csvEscape, h]
  · simp [csvEscape, h, replaceQuotes_of_not_needsEscape s (by simpa using h)]

theorem parseCSVLoop_inQ_quote_quote (rest : List Char) (st : ParseState) (hq : st.inQ = true) :
    parseCSVLoop ('"' :: '"' :: rest) st =
      parseCSVLoop rest { st with field := st.field ++ ['"'] } := by
  rw [parseCSVLoop.eq_def]
  simp [hq]

theorem parseCSVLoop_inQ_quote_end (rest : List Char) (hrest : NoQuoteHead rest)
    (st : ParseState) (hq : st.inQ = true) :
    parseCSVLoop ('"' :: rest) st = parseCSVLoop rest { st with inQ := false } := by
  rw [parseCSVLoop.eq_def]
  cases rest with
  | nil => simp [hq]
  | cons d rest2 =>
    have hd : d ≠ '"' := hrest
    simp [hq, hd]

theorem parseCSVLoop_inQ_other (c : Char) (hc : c ≠ '"') (rest : List Char)
    (st : ParseState) (hq : st.inQ = true) :
    parseCSVLoop (c :: rest) st = parseCSVLoop rest { st with field := st.field ++ [c] } := by
  rw [parseCSVLoop.eq_def]
  simp [hq, hc]

theorem parseCSVLoop_open (rest : List Char) (st : ParseState) (hq : st.inQ = false) :
    parseCSVLoop ('"' :: rest) st = parseCSVLoop rest { st with inQ := true } := by
  rw [parseCSVLoop.eq_def]
  simp [hq]

theorem parseCSVLoop_comma (rest : List Char) (st : ParseState) (hq : st.inQ = false) :
    parseCSVLoop (',' :: rest) st =
      parseCSVLoop rest { st with row := st.row ++ [st.field], field := [] } := by
  rw [parseCSVLoop.eq_def]
  simp [hq]

theorem parseCSVLoop_newline (rest : List Char) (st : ParseState) (hq : st.inQ = false) :
    parseCSVLoop ('\n' :: rest) st =
      parseCSVLoop rest
        { st with rows := if keepRow (st.row ++ [st.field]) then st.rows ++ [st.row ++ [st.field]]
                          else st.rows,
                  row := [], field := [] } := by
  rw [parseCSVLoop.eq_def]
  simp [hq]

theorem parseCSVLoop_quoted (s : Str) (rest : List Char) (hrest : NoQuoteHead rest) :
    ∀ st : ParseState, st.inQ = true →
      parseCSVLoop (replaceQuotes s ++ '"' :: rest) st =
        parseCSVLoop rest { st with field := st.field ++ s, inQ := false } := by
  induction s with
  | nil =>
    intro st hq
    simpa [replaceQuotes] using parseCSVLoop_inQ_quote_end rest hrest st hq
  | cons c s ih =>
    intro st hq
    by_cases hc : c = '"'
    · subst hc
      simp only [replaceQuotes, if_true, List.cons_append]
      rw [parseCSVLoop_inQ_quote_quote _ _ hq, ih]
      · simp
      · exact hq
    · simp only [replaceQuotes, hc, if_false, List.cons_append]
      rw [parseCSVLoop_inQ_other c hc _ _ hq, ih]
      · simp
      · exact hq

theorem parseCSVLoop_field (s : Str) (rest : List Char) (hrest : NoQuoteHead rest)
    (st : ParseState) (hq : st.inQ = false) :
    parseCSVLoop (csvEscape (some s) ++ rest) st =
      parseCSVLoop rest { st with field := st.field ++ s } := by
  rw [csvEscape_eq]
  simp only [List.cons_append, List.append_assoc, List.singleton_append, List.nil_append]
  rw [parseCSVLoop_open _ _ hq, parseCSVLoop_quoted s rest hrest _ rfl]
  simp [hq]

theorem parseCSVLoop_field_mk (s : Str) (rest : List Char) (hrest : NoQuoteHead rest)
    (rows : List (List Str)) (row : List Str) (field : Str) :
    parseCSVLoop (csvEscape (some s) ++ rest)
        { rows := rows, row := row, field := field, inQ := false } =
      parseCSVLoop rest { rows := rows, row := row, field := field ++ s, inQ := false } :=
  parseCSVLoop_field s rest hrest _ rfl

theorem parseCSVLoop_comma_mk (rest : List Char)
    (rows : List (List Str)) (row : List Str) (field : Str) :
    parseCSVLoop (',' :: rest) { rows := rows, row := row, field := field, inQ := false } =
      parseCSVLoop rest { rows := rows, row := row ++ [field], field := [], inQ := false } :=
  parseCSVLoop_comma rest _ rfl

theorem parseCSVLoop_newline_mk (rest : List Char)
    (rows : List (List Str)) (row : List Str) (field : Str) :
    parseCSVLoop ('\n' :: rest) { rows := rows, row := row, field := field, inQ := false } =
      parseCSVLoop rest
        { rows := if keepRow (row ++ [field]) then rows ++ [row ++ [field]] else rows,
          row := [], field := [], inQ := false } :=
  parseCSVLoop_newline rest _ rfl

theorem parseCSVLoop_line (rest : List Char) :
    ∀ (fields : List Str), fields ≠ [] → ∀ (rows : List (List Str)) (row : List Str),
      parseCSVLoop (encodeLine fields ++ '\n' :: rest)
          { rows := rows, row := row, field := [], inQ := false } =
        parseCSVLoop rest
          { rows := if keepRow (row ++ fields) then rows ++ [row ++ fields] else rows,
            row := [], field := [], inQ := false } := by
  intro fields
  induction fields with
  | nil => intro h; exact absurd rfl h
  | cons f fs ih =>
    intro _ rows row
    cases fs with
    | nil =>
      simp only [encodeLine, List.map, jsJoin]
      rw [parseCSVLoop_field_mk f _ (by simp [NoQuoteHead]), parseCSVLoop_newline_mk]
      simp
    | cons g gs =>
      have ih2 := ih (by simp) rows (row ++ [f])
      simp only [encodeLine, List.map, jsJoin] at ih2 ⊢
      simp only [List.append_assoc, List.singleton_append, List.cons_append]
      rw [parseCSVLoop_field_mk f _ (by simp [NoQuoteHead]), parseCSVLoop_comma_mk]
      simp only [List.nil_append] at ih2 ⊢
      rw [ih2]
      simp

theorem jsJoin_newline_append (l : Str) (ls : List Str) :
    jsJoin ['\n'] (l :: ls) ++ ['\n'] = ((l :: ls).map (fun x => x ++ ['\n'])).flatten := by
  induction ls generalizing l with
  | nil => simp [jsJoin]
  | cons m ms ih =>
    simp only [jsJoin, List.append_assoc, ih m]
    simp

theorem parseCSVLoop_lines :
    ∀ (rs : List (List Str)), (∀ r ∈ rs, r ≠ []) → ∀ (rows : List (List Str)),
      parseCSVLoop ((rs.map (fun r => encodeLine r ++ ['\n'])).flatten)
          { rows := rows, row := [], field := [], inQ := false } =
        { rows := rows ++ rs.filter keepRow, row := [], field := [], inQ := false } := by
  intro rs
  induction rs with
  | nil => intro _ rows; simp [parseCSVLoop]
  | cons r rs ih =>
    intro h rows
    simp only [List.map, List.flatten, List.append_assoc, List.singleton_append]
    rw [parseCSVLoop_line _ r (h r (by simp)) rows []]
    have ih2 := ih (fun x hx => h x (by simp [hx]))
    simp only [List.nil_append]
    by_cases hk : keepRow r = true
    · simp only [hk, if_true]
      rw [ih2]
      simp [List.filter, hk]
    · simp only [hk]
      rw [if_neg (by simp), ih2]
      simp [List.filter, hk]

/-- Decoding what the encoder wrote gives back the rows that are not dropped as blank. -/
theorem parseCSV_encode (l : List Str) (ls : List (List Str)) (h : ∀ r ∈ l :: ls, r ≠ []) :
    parseCSV (jsJoin ['\n'] ((l :: ls).map encodeLine) ++ ['\n']) = (l :: ls).filter keepRow := by
  unfold parseCSV
  have := jsJoin_newline_append (encodeLine l) (ls.map encodeLine)
  simp only [List.map] at this ⊢
  rw [this]
  have h2 := parseCSVLoop_lines (l :: ls) h []
  simp only [List.map, List.map_map] at h2 ⊢
  have h3 : (List.map ((fun x => x ++ ['\n']) ∘ encodeLine) ls) =
      List.map (fun r => encodeLine r ++ ['\n']) ls := by
    apply List.map_congr_left
    intro a _
    rfl
  rw [h3, h2]
  simp

/-! ## Row objects -/

theorem objGet_cons_ne (k k2 v : Str) (rest : Obj) (h : k2 ≠ k) :
    objGet ((k2, v) :: rest) k = objGet rest k := by
  simp [objGet, h]

theorem objGet_zip_map : ∀ (keys vals : List Str), keys.Nodup → keys.length = vals.length →
    keys.map (fun k => (objGet (keys.zip vals) k).getD []) = vals := by
  intro keys
  induction keys with
  | nil =>
    intro vals _ hl
    cases vals with
    | nil => rfl
    | cons v vs => simp at hl
  | cons k ks ih =>
    intro vals hnd hl
    cases vals with
    | nil => simp at hl
    | cons v vs =>
      have hnd2 := List.nodup_cons.mp hnd
      simp only [List.zip_cons_cons, List.map_cons, objGet, if_true, Option.getD_some]
      congr 1
      refine Eq.trans ?_ (ih vs hnd2.2 (by simpa using hl))
      apply List.map_congr_left
      intro a ha
      have hne : k ≠ a := fun h => hnd2.1 (h ▸ ha)
      simp [objGet, hne, List.zip]

theorem objGet_zip_getD : ∀ (keys vals : List Str), keys.Nodup → keys.length = vals.length →
    ∀ j, j < keys.length → objGet (keys.zip vals) (keys.getD j []) = vals.get? j := by
  intro keys
  induction keys with
  | nil => intro vals _ _ j hj; simp at hj
  | cons k ks ih =>
    intro vals hnd hl j hj
    cases vals with
    | nil => simp at hl
    | cons v vs =>
      have hnd2 := List.nodup_cons.mp hnd
      cases j with
      | zero => simp [objGet]
      | succ i =>
        have hi : i < ks.length := by simpa using hj
        have hmem : ks.getD i [] ∈ ks := by
          rw [List.getD_eq_getElem _ _ hi]
          exact List.getElem_mem hi
        have hne : k ≠ ks.getD i [] := fun h => hnd2.1 (h ▸ hmem)
        simp only [List.zip_cons_cons, List.getD_cons_succ, List.get?_cons_succ]
        rw [objGet_cons_ne _ _ _ _ hne]
        exact ih vs hnd2.2 (by simpa using hl) i hi

theorem objSet_of_not_mem : ∀ (o : Obj) (k v : Str), k ∉ o.map Prod.fst →
    objSet o k v = o ++ [(k, v)] := by
  intro o
  induction o with
  | nil => intro k v _; rfl
  | cons p rest ih =>
    intro k v h
    obtain ⟨k2, v2⟩ := p
    simp only [List.map_cons, List.mem_cons, not_or] at h
    have hne : k2 ≠ k := fun e => h.1 e.symm
    simp [objSet, hne, ih k v h.2]

theorem buildRowObjLoop_eq (values : List Str) : ∀ (todo : List Str) (j : Nat) (obj : Obj),
    todo.Nodup → (∀ k ∈ todo, k ∉ obj.map Prod.fst) →
    buildRowObjLoop values todo j obj =
      obj ++ todo.zip ((List.range todo.length).map (fun i => (values.get? (j + i)).getD [])) := by
  intro todo
  induction todo with
  | nil => intro j obj _ _; simp [buildRowObjLoop]
  | cons h t ih =>
    intro j obj hnd hfresh
    have hnd2 := List.nodup_cons.mp hnd
    simp only [buildRowObjLoop]
    rw [objSet_of_not_mem obj h _ (hfresh h (by simp))]
    rw [ih (j + 1) _ hnd2.2]
    · simp only [List.length_cons, List.range_succ_eq_map, List.map_cons, List.zip_cons_cons,
        List.append_assoc, List.singleton_append, Nat.add_zero, List.map_map]
      congr 3
      apply List.map_congr_left
      intro i _
      simp [Nat.add_assoc, Nat.add_comm 1 i]
    · intro k hk
      simp only [List.map_append, List.map_cons, List.map_nil, List.mem_append,
        List.mem_singleton, not_or]
      exact ⟨hfresh k (by simp [hk]), fun e => hnd2.1 (e ▸ hk)⟩

theorem CSV_COLUMNS_nodup : CSV_COLUMNS.Nodup := by decide

theorem CSV_COLUMNS_length : CSV_COLUMNS.length = 22 := by decide

theorem range_map_get (R : List Str) :
    (List.range R.length).map (fun i => (R.get? i).getD []) = R := by
  apply List.ext_getElem
  · simp
  · intro n h1 h2
    simp [List.getElem?_eq_getElem h2]

theorem buildRowObjFromCSV_full (R : List Str) (hlen : R.length = 22) :
    buildRowObjFromCSV R CSV_COLUMNS = CSV_COLUMNS.zip R := by
  unfold buildRowObjFromCSV
  rw [buildRowObjLoop_eq R CSV_COLUMNS 0 [] CSV_COLUMNS_nodup (by simp)]
  simp only [List.nil_append, Nat.zero_add, CSV_COLUMNS_length]
  rw [← hlen, range_map_get]

theorem exportCSV_single (e : Entry) :
    exportCSV [e] = jsJoin ['\n']
      ([CSV_COLUMNS, CSV_COLUMNS.map (fun k => (objGet e.row k).getD [])].map encodeLine) ++
        ['\n'] := by
  simp [exportCSV, sortEntries, exportLine, encodeLine, List.map_map, Function.comp_def]

/-- C1. Round trip: for every row record R (22 values, none with a carriage return), decoding
the text `exportCSV` writes for the header and R gives exactly two rows, the 22 column names
and the 22 values of R, and `buildRowObjFromCSV` on the second row against the header gives
back R field for field. -/
theorem csv_round_trip (R : List Str) (hlen : R.length = 22)
    (hcr : ∀ v ∈ R, '\r' ∉ v) (ck bk : Str) :
    parseCSV (exportCSV [{ compositeKey := ck, bookKey := bk, row := CSV_COLUMNS.zip R }]) =
        [CSV_COLUMNS, R] ∧
      buildRowObjFromCSV R CSV_COLUMNS = CSV_COLUMNS.zip R ∧
      ∀ j, j < 22 →
        objGet (buildRowObjFromCSV R CSV_COLUMNS) (CSV_COLUMNS.getD j []) = R.get? j := by
  have hl : CSV_COLUMNS.length = R.length := by rw [hlen, CSV_COLUMNS_length]
  refine ⟨?_, buildRowObjFromCSV_full R hlen, ?_⟩
  · rw [exportCSV_single]
    simp only [objGet_zip_map CSV_COLUMNS R CSV_COLUMNS_nodup hl]
    rw [parseCSV_encode]
    · have h1 : keepRow CSV_COLUMNS = true := by decide
      have h2 : keepRow R = true := by simp [keepRow, hlen]
      simp [List.filter, h1, h2]
    · intro r hr
      simp only [List.mem_cons, List.mem_singleton, List.not_mem_nil, or_false] at hr
      rcases hr with rfl | rfl
      · decide
      · intro h; simp [h] at hlen
  · intro j hj
    rw [buildRowObjFromCSV_full R hlen]
    exact objGet_zip_getD CSV_COLUMNS R CSV_COLUMNS_nodup hl j (by rw [CSV_COLUMNS_length]; exact hj)

theorem csv_round_trip_witness :
    (sampleRow.length = 22 ∧ ∀ v ∈ sampleRow, '\r' ∉ v) ∧
    parseCSV (exportCSV [{ compositeKey := "k".toList, bookKey := "b||Kindle".toList,
                           row := CSV_COLUMNS.zip sampleRow }]) = [CSV_COLUMNS, sampleRow] :=
  ⟨by decide, (csv_round_trip sampleRow (by decide) (by decide) _ _).1⟩

/-! ## The text `exportCSV` writes -/

theorem replaceQuotes_eq_flatMap (s : Str) :
    replaceQuotes s = s.flatMap (fun c => if c = '"' then ['"', '"'] else [c]) := by
  induction s with
  | nil => rfl
  | cons c rest ih =>
    by_cases hc : c = '"'
    · simp [replaceQuotes, hc, ih]
    · simp [replaceQuotes, hc, ih]

theorem csvEscape_eq_quoteField (v : Str) : csvEscape (some v) = quoteField v := by
  rw [csvEscape_eq, replaceQuotes_eq_flatMap]
  simp [quoteField]

theorem jsJoin_eq_intercalate (sep : Str) (parts : List Str) :
    jsJoin sep parts = sep.intercalate parts := by
  induction parts with
  | nil => rfl
  | cons a rest ih =>
    cases rest with
    | nil => simp [jsJoin, List.intercalate]
    | cons b rest2 =>
      simp only [jsJoin, ih]
      simp [List.intercalate, List.intersperse]

theorem encodeLine_eq (fields : List Str) :
    encodeLine fields = [','].intercalate (fields.map quoteField) := by
  unfold encodeLine
  rw [jsJoin_eq_intercalate]
  congr 1
  apply List.map_congr_left
  intro a _
  exact csvEscape_eq_quoteField a

theorem exportCSV_eq_lines (entries : List Entry) :
    exportCSV entries = jsJoin ['\n']
      ((CSV_COLUMNS :: (sortEntries entries).map (fun e => rowValues e.row)).map encodeLine) ++
        ['\n'] := by
  simp [exportCSV, exportLine, encodeLine, rowValues, List.map_map, Function.comp_def]

theorem sortEntries_perm (entries : List Entry) : (sortEntries entries).Perm entries :=
  List.perm_insertionSort _ entries

theorem encodeDocument_eq (r : List Str) (rs : List (List Str)) :
    jsJoin ['\n'] ((r :: rs).map encodeLine) ++ ['\n'] = specDocument (r :: rs) := by
  rw [List.map_cons, jsJoin_newline_append, ← List.map_cons]
  unfold specDocument
  rw [List.map_map]
  congr 1
  apply List.map_congr_left
  intro a _
  simp only [Function.comp_apply, encodeLine_eq]

theorem jsJoin_ends (sep : Str) (c : Char) : ∀ parts : List Str, parts ≠ [] →
    (∀ p ∈ parts, ∃ b : Str, p = b ++ [c]) → ∃ b : Str, jsJoin sep parts = b ++ [c] := by
  intro parts
  induction parts with
  | nil => intro h _; exact absurd rfl h
  | cons a rest ih =>
    intro _ hall
    cases rest with
    | nil => simpa [jsJoin] using hall a (by simp)
    | cons b2 rest2 =>
      obtain ⟨b, hb⟩ := ih (by simp) (fun p hp => hall p (by simp [hp]))
      exact ⟨a ++ sep ++ b, by simp [jsJoin, hb]⟩

theorem encodeLine_ends (fields : List Str) (h : fields ≠ []) :
    ∃ b : Str, encodeLine fields = b ++ ['"'] := by
  apply jsJoin_ends
  · simpa using h
  · intro p hp
    obtain ⟨f, _, rfl⟩ := List.mem_map.mp hp
    exact ⟨'"' :: replaceQuotes f, by rw [csvEscape_eq]; simp⟩

/-- C10. For every list of persisted entries the text of `exportCSV` is the header line
followed by one line per entry (the sorted list is a permutation of the entries), each line
being the 22 fields in `CSV_COLUMNS` order with a missing field written as empty, every field
wrapped in double quotes with each internal double quote doubled, fields joined by single
commas and every line ended by one line feed, so that the document ends with exactly one
trailing line feed (the character before it is a double quote); and `csvEscape(v)` is the
quote-wrapped, quote-doubled `v` for every string `v`. -/
theorem exportCSV_format (entries : List Entry) (v : Str) :
    exportCSV entries =
        specDocument (CSV_COLUMNS :: (sortEntries entries).map (fun e => rowValues e.row)) ∧
      (sortEntries entries).Perm entries ∧
      (∀ row : Obj, (rowValues row).length = 22) ∧
      (∃ body : Str, exportCSV entries = body ++ ['"', '\n']) ∧
      csvEscape (some v) = quoteField v := by
  have h1 : exportCSV entries =
      specDocument (CSV_COLUMNS :: (sortEntries entries).map (fun e => rowValues e.row)) := by
    rw [exportCSV_eq_lines, encodeDocument_eq]
  refine ⟨h1, sortEntries_perm entries, fun row => by simp [rowValues, CSV_COLUMNS], ?_,
    csvEscape_eq_quoteField v⟩
  rw [exportCSV_eq_lines]
  obtain ⟨b, hb⟩ := jsJoin_ends ['\n'] '"'
    ((CSV_COLUMNS :: (sortEntries entries).map (fun e => rowValues e.row)).map encodeLine)
    (by simp)
    (by
      intro p hp
      obtain ⟨r, hr, rfl⟩ := List.mem_map.mp hp
      apply encodeLine_ends
      simp only [List.mem_cons, List.mem_map] at hr
      rcases hr with rfl | ⟨e, _, rfl⟩
      · decide
      · simp [rowValues, CSV_COLUMNS])
  exact ⟨b, by rw [hb]; simp⟩

/-! ## The header check of `importCSV` -/

theorem sameHeader_eq_true_iff (header expected : List Str) :
    sameHeader header expected = true ↔ header = expected := by
  unfold sameHeader
  constructor
  · intro h
    simp only [Bool.and_eq_true, decide_eq_true_eq, List.all_eq_true, List.mem_range] at h
    apply List.ext_get?
    intro n
    by_cases hn : n < header.length
    · exact h.2 n hn
    · have h1 : header.length ≤ n := Nat.le_of_not_lt hn
      have h2 : expected.length ≤ n := h.1 ▸ h1
      rw [List.get?_eq_none.mpr h1, List.get?_eq_none.mpr h2]
  · rintro rfl
    simp

/-- C2, amended. For every interchange text whose first decoded row, each cell trimmed of
surrounding white space, is not exactly the 22 column names in their order (compared case
sensitively; no first row at all included), `importCSV` fails with an error before any data
row is processed and leaves the store as it was: no catalog item and no entry is created. -/
theorem importCSV_rejects_header (db : DB) (text : Str)
    (h : (parseCSV text).head?.map (fun r => r.map jsTrim) ≠ some CSV_COLUMNS) :
    ∃ msg : Str, importCSV db text = some (db, .error msg) := by
  unfold importCSV
  by_cases hlen : (parseCSV text).length < 2
  · simp only [hlen, if_true]
    exact ⟨_, rfl⟩
  · have hsame : sameHeader (((parseCSV text).headD []).map jsTrim) CSV_COLUMNS = false := by
      cases hs : sameHeader (((parseCSV text).headD []).map jsTrim) CSV_COLUMNS with
      | false => rfl
      | true =>
        exfalso
        apply h
        rw [sameHeader_eq_true_iff] at hs
        cases hp : parseCSV text with
        | nil => simp [hp] at hlen
        | cons r rs => simpa [hp] using hs
    simp only [hlen, if_false, hsame, Bool.not_false, if_true]
    exact ⟨_, rfl⟩

theorem importCSV_rejects_header_witness :
    (parseCSV shortHeaderText).head?.map (fun r => r.map jsTrim) ≠ some CSV_COLUMNS ∧
      ∃ msg : Str, importCSV emptyDB shortHeaderText = some (emptyDB, .error msg) :=
  ⟨by decide!, importCSV_rejects_header emptyDB shortHeaderText (by decide!)⟩

/-- C2, counterexample: the first decoded row of this text is not the 22 column names (its
first cell is ` SchemaVersion`, with a space), yet `importCSV` goes on, stores a catalog item
and an entry and returns its counters. -/
theorem importCSV_accepts_padded_header :
    (parseCSV paddedHeaderText).head? ≠ some CSV_COLUMNS ∧
      (importCSV emptyDB paddedHeaderText).map
          (fun r => (r.1.books.length, r.1.entries.map Entry.compositeKey, r.2.toOption)) =
        some (1, ["K".toList], some { added := 1, skipped := 0, deduped := 0 }) := by
  decide!

/-! ## The collision loop -/

theorem digitChar_toNat (d : Nat) (h : d < 10) : (Nat.digitChar d).toNat - 48 = d := by
  interval_cases d <;> rfl

theorem digitsVal_append_single (L : Str) (c : Char) :
    digitsVal (L ++ [c]) = 10 * digitsVal L + (c.toNat - 48) := by
  simp [digitsVal, List.foldl_append]

theorem toDigitsCore_spec : ∀ (fuel n : Nat) (ds : List Char), n < fuel →
    ∃ L : List Char, Nat.toDigitsCore 10 fuel n ds = L ++ ds ∧ digitsVal L = n := by
  intro fuel
  induction fuel with
  | zero => intro n ds h; omega
  | succ fuel ih =>
    intro n ds h
    by_cases h0 : n / 10 = 0
    · refine ⟨[Nat.digitChar (n % 10)], ?_, ?_⟩
      · simp [Nat.toDigitsCore, h0]
      · have : n % 10 < 10 := Nat.mod_lt _ (by decide)
        simp only [digitsVal, List.foldl_cons, List.foldl_nil, Nat.mul_zero, Nat.zero_add]
        rw [digitChar_toNat _ this]
        omega
    · obtain ⟨L, hL, hv⟩ := ih (n / 10) (Nat.digitChar (n % 10) :: ds) (by omega)
      refine ⟨L ++ [Nat.digitChar (n % 10)], ?_, ?_⟩
      · simp [Nat.toDigitsCore, h0, hL]
      · rw [digitsVal_append_single, hv, digitChar_toNat _ (Nat.mod_lt _ (by decide))]
        omega

theorem digitsVal_natStr (n : Nat) : digitsVal (natStr n) = n := by
  obtain ⟨L, hL, hv⟩ := toDigitsCore_spec (n + 1) n [] (Nat.lt_succ_self n)
  unfold natStr Nat.toDigits
  rw [hL]
  simpa using hv

theorem natStr_injective : Function.Injective natStr := by
  intro a b h
  have := congrArg digitsVal h
  rwa [digitsVal_natStr, digitsVal_natStr] at this

theorem copyKey_injective (base : Str) : Function.Injective (copyKey base) := by
  intro a b h
  unfold copyKey at h
  exact natStr_injective (List.append_cancel_left h)

theorem idbGet_isSome_iff {α : Type} (keyOf : α → Str) (store : List α) (key : Str) :
    (idbGet keyOf store key).isSome = true ↔ key ∈ store.map keyOf := by
  unfold idbGet
  rw [List.find?_isSome]
  simp only [beq_iff_eq, List.mem_map]

theorem idbPut_fresh {α : Type} (keyOf : α → Str) : ∀ (store : List α) (val : α),
    keyOf val ∉ store.map keyOf → idbPut keyOf store val = store ++ [val] := by
  intro store
  induction store with
  | nil => intro val _; rfl
  | cons r rest ih =>
    intro val h
    simp only [List.map_cons, List.mem_cons, not_or] at h
    have hne : keyOf r ≠ keyOf val := fun e => h.1 e.symm
    simp [idbPut, hne, ih val h.2]

theorem copyLoop_none (entries : List Entry) (base : Str) : ∀ (fuel n : Nat),
    copyLoop entries base fuel n = none →
      ∀ i, i < fuel → copyKey base (n + i) ∈ entryKeys entries := by
  intro fuel
  induction fuel with
  | zero => intro n _ i hi; omega
  | succ fuel ih =>
    intro n h i hi
    simp only [copyLoop] at h
    by_cases hp : (idbGet Entry.compositeKey entries (copyKey base n)).isSome = true
    · simp only [hp, if_true] at h
      cases i with
      | zero => exact (idbGet_isSome_iff _ _ _).mp hp
      | succ j =>
        have := ih (n + 1) h j (by omega)
        rwa [Nat.add_assoc, Nat.add_comm 1 j] at this
    · simp [hp] at h

theorem copyLoop_some (entries : List Entry) (base : Str) : ∀ (fuel n : Nat) (ck : Str),
    copyLoop entries base fuel n = some ck →
      ∃ N, n ≤ N ∧ ck = copyKey base N ∧ ck ∉ entryKeys entries ∧
        ∀ m, n ≤ m → m < N → copyKey base m ∈ entryKeys entries := by
  intro fuel
  induction fuel with
  | zero => intro n ck h; simp [copyLoop] at h
  | succ fuel ih =>
    intro n ck h
    simp only [copyLoop] at h
    by_cases hp : (idbGet Entry.compositeKey entries (copyKey base n)).isSome = true
    · simp only [hp, if_true] at h
      obtain ⟨N, hN, hck, hfree, hused⟩ := ih (n + 1) ck h
      refine ⟨N, by omega, hck, hfree, ?_⟩
      intro m hm1 hm2
      by_cases hmn : m = n
      · subst hmn; exact (idbGet_isSome_iff _ _ _).mp hp
      · exact hused m (by omega) hm2
    · simp only [hp] at h
      simp only [Bool.false_eq_true, if_false, Option.some.injEq] at h
      refine ⟨n, le_refl n, h.symm, ?_, fun m h1 h2 => by omega⟩
      rw [← h]
      intro hmem
      exact hp ((idbGet_isSome_iff _ _ _).mpr hmem)

theorem copyLoop_terminates (entries : List Entry) (base : Str) (n : Nat) :
    ∃ ck, copyLoop entries base (entries.length + 1) n = some ck := by
  cases h : copyLoop entries base (entries.length + 1) n with
  | some ck => exact ⟨ck, rfl⟩
  | none =>
    exfalso
    have hall := copyLoop_none entries base _ n h
    have hnd : ((List.range (entries.length + 1)).map (fun i => copyKey base (n + i))).Nodup := by
      apply List.Nodup.map _ (List.nodup_range _)
      intro a b hab
      have := copyKey_injective base hab
      omega
    have hsub : (List.range (entries.length + 1)).map (fun i => copyKey base (n + i)) ⊆
        entryKeys entries := by
      intro k hk
      obtain ⟨i, hi, rfl⟩ := List.mem_map.mp hk
      exact hall i (List.mem_range.mp hi)
    have hle := (List.subperm_of_subset hnd hsub).length_le
    simp [entryKeys] at hle

/-! ## One imported row -/

theorem objGet_objSet_same : ∀ (o : Obj) (k v : Str), objGet (objSet o k v) k = some v := by
  intro o
  induction o with
  | nil => intro k v; simp [objSet, objGet]
  | cons p rest ih =>
    intro k v
    obtain ⟨k2, v2⟩ := p
    by_cases h : k2 = k
    · simp [objSet, objGet, h]
    · simp [objSet, objGet, h, ih]

theorem objGet_objSet_ne : ∀ (o : Obj) (k k' v : Str), k ≠ k' →
    objGet (objSet o k v) k' = objGet o k' := by
  intro o
  induction o with
  | nil => intro k k' v h; simp [objSet, objGet, h]
  | cons p rest ih =>
    intro k k' v h
    obtain ⟨k2, v2⟩ := p
    by_cases h2 : k2 = k
    · subst h2
      simp [objSet, objGet, h]
    · by_cases h3 : k2 = k'
      · subst h3
        simp [objSet, objGet, h2]
      · simp [objSet, objGet, h2, h3, ih k k' v h]

theorem tmpl_candidate (obj : Obj) :
    tmpl (objGet
      (if objGet obj "CompositeKey".toList = none ∨ objGet obj "CompositeKey".toList = some []
        then objSet obj "CompositeKey".toList (tmpl (objGet obj "BookID".toList)) else obj)
      "CompositeKey".toList) = rowCandidate obj := by
  unfold rowCandidate
  split
  · rw [objGet_objSet_same]; rfl
  · rfl

theorem importRow_spec (header : List Str) (db : DB) (counts : ImportCounts)
    (values : List Str) :
    ∃ (key : Str) (out : DB × ImportCounts),
      importRow header (db, counts) values = some out ∧
      (∃ e : Entry, out.1.entries = db.entries ++ [e] ∧ e.compositeKey = key) ∧
      out.1.drafts = db.drafts ∧
      out.2.added = counts.added + 1 ∧
      IsResolved (entryKeys db.entries) (rowCandidate (buildRowObjFromCSV values header)) key ∧
      key ∉ entryKeys db.entries := by
  have hck : "bookKey".toList ≠ "CompositeKey".toList := by decide
  have hK := tmpl_candidate (buildRowObjFromCSV values header)
  by_cases hused : rowCandidate (buildRowObjFromCSV values header) ∈ entryKeys db.entries
  · have hsome := (idbGet_isSome_iff Entry.compositeKey db.entries _).mpr hused
    obtain ⟨ck, hloop⟩ := copyLoop_terminates db.entries
      (rowCandidate (buildRowObjFromCSV values header)) 2
    obtain ⟨N, hN, hckN, hfree, hbelow⟩ := copyLoop_some _ _ _ _ _ hloop
    simp only [importRow, hK, hsome, if_true, hloop, Option.map_some']
    simp only [objGet_objSet_ne _ _ _ _ hck, objGet_objSet_same, tmpl]
    rw [idbPut_fresh _ _ _ (by exact hfree)]
    exact ⟨ck, _, rfl, ⟨_, rfl, rfl⟩, rfl, rfl,
      Or.inr ⟨hused, N, hN, hckN, hckN ▸ hfree, hbelow⟩, hfree⟩
  · have hnone : (idbGet Entry.compositeKey db.entries
        (rowCandidate (buildRowObjFromCSV values header))).isSome = false := by
      rw [Bool.eq_false_iff]
      exact fun h => hused ((idbGet_isSome_iff _ _ _).mp h)
    simp only [importRow, hK, hnone, Bool.false_eq_true, if_false]
    simp only [objGet_objSet_ne _ _ _ _ hck, hK]
    rw [idbPut_fresh _ _ _ (by exact hused)]
    exact ⟨_, _, rfl, ⟨_, rfl, rfl⟩, rfl, rfl, Or.inl ⟨hused, rfl⟩, hused⟩

/-! ## A whole import -/

theorem importRows_spec (header : List Str) : ∀ (rows : List (List Str)) (acc : DB × ImportCounts),
    ∃ (out : DB × ImportCounts) (news : List Entry),
      importRows header rows acc = some out ∧
      out.1.entries = acc.1.entries ++ news ∧
      FreshlyAppended acc.1.entries news ∧
      news.length = rows.length ∧
      out.1.drafts = acc.1.drafts ∧
      out.2.added = acc.2.added + rows.length := by
  intro rows
  induction rows with
  | nil => intro acc; exact ⟨acc, [], rfl, by simp, trivial, rfl, rfl, rfl⟩
  | cons values rest ih =>
    intro acc
    obtain ⟨db, counts⟩ := acc
    obtain ⟨key, out1, h1, ⟨e, he, hkey⟩, hd1, ha1, _, hfresh⟩ :=
      importRow_spec header db counts values
    obtain ⟨out, news, h2, he2, hf2, hl2, hd2, ha2⟩ := ih out1
    refine ⟨out, e :: news, ?_, ?_, ?_, ?_, ?_, ?_⟩
    · simp only [importRows, h1, h2]
    · rw [he2, he]; simp
    · exact ⟨hkey ▸ hfresh, he ▸ hf2⟩
    · simp [hl2]
    · rw [hd2, hd1]
    · rw [ha2, ha1]; simp; omega

theorem FreshlyAppended_nodup : ∀ (news old : List Entry), (entryKeys old).Nodup →
    FreshlyAppended old news → (entryKeys (old ++ news)).Nodup := by
  intro news
  induction news with
  | nil => intro old h _; simpa using h
  | cons e rest ih =>
    intro old h hf
    have := ih (old ++ [e]) (by
      simp only [entryKeys, List.map_append, List.map_cons, List.map_nil]
      rw [List.nodup_append]
      refine ⟨h, by simp, ?_⟩
      intro a ha hb
      simp only [List.mem_singleton] at hb
      subst hb
      exact hf.1 ha) hf.2
    simpa using this

theorem importCSV_spec (db : DB) (text : Str) (hlen : 2 ≤ (parseCSV text).length)
    (hhdr : ((parseCSV text).headD []).map jsTrim = CSV_COLUMNS) :
    ∃ (db2 : DB) (counts : ImportCounts) (news : List Entry),
      importCSV db text = some (db2, .ok counts) ∧
      db2.entries = db.entries ++ news ∧
      FreshlyAppended db.entries news ∧
      news.length = (parseCSV text).length - 1 ∧
      db2.drafts = db.drafts ∧
      counts.added = (parseCSV text).length - 1 := by
  obtain ⟨out, news, h, he, hf, hl, hd, ha⟩ :=
    importRows_spec CSV_COLUMNS (parseCSV text).tail (db, { added := 0, skipped := 0, deduped := 0 })
  have hnot : ¬ (parseCSV text).length < 2 := by omega
  have hsame : sameHeader CSV_COLUMNS CSV_COLUMNS = true := (sameHeader_eq_true_iff _ _).mpr rfl
  refine ⟨out.1, out.2, news, ?_, he, hf, by simpa using hl, hd, by simpa using ha⟩
  simp only [importCSV, hnot, if_false, hhdr, hsame, Bool.not_true, Bool.false_eq_true, h]

theorem rowObj_eq (values : List Str) :
    buildRowObjFromCSV values CSV_COLUMNS =
      CSV_COLUMNS.zip ((List.range 22).map (fun i => (values.get? i).getD [])) := by
  unfold buildRowObjFromCSV
  rw [buildRowObjLoop_eq values CSV_COLUMNS 0 [] CSV_COLUMNS_nodup (by simp)]
  simp [CSV_COLUMNS_length]

theorem rowObj_get (values : List Str) (j : Nat) (hj : j < 22) :
    objGet (buildRowObjFromCSV values CSV_COLUMNS) (CSV_COLUMNS.getD j []) =
      some ((values.get? j).getD []) := by
  rw [rowObj_eq, objGet_zip_getD CSV_COLUMNS _ CSV_COLUMNS_nodup (by simp [CSV_COLUMNS_length]) j
    (by rw [CSV_COLUMNS_length]; exact hj)]
  simp [List.get?_eq_getElem?, hj]

theorem rowCandidate_eq (values : List Str) :
    rowCandidate (buildRowObjFromCSV values CSV_COLUMNS) = importCandidate values := by
  have h19 := rowObj_get values 19 (by decide)
  have h4 := rowObj_get values 4 (by decide)
  have e19 : CSV_COLUMNS.getD 19 [] = "CompositeKey".toList := by decide
  have e4 : CSV_COLUMNS.getD 4 [] = "BookID".toList := by decide
  rw [e19] at h19
  rw [e4] at h4
  unfold rowCandidate importCandidate
  rw [h19, h4]
  by_cases hb : (values.get? 19).getD [] = []
  · simp [hb, tmpl]
  · simp [hb, tmpl]

/-! ## Binary64 rounding -/

theorem pow2_eq (e : Int) : pow2 e = (2 : ℚ) ^ e := by
  unfold pow2
  split_ifs with h
  · have he : e = (e.toNat : Int) := (Int.toNat_of_nonneg h).symm
    conv_rhs => rw [he]
    rw [zpow_natCast]
    push_cast
    rfl
  · have hn : 0 ≤ -e := by omega
    have he : e = -((-e).toNat : Int) := by rw [Int.toNat_of_nonneg hn]; ring
    conv_rhs => rw [he]
    rw [zpow_neg, zpow_natCast]
    push_cast
    rw [one_div]

theorem pow2_pos (e : Int) : 0 < pow2 e := by
  rw [pow2_eq]
  positivity

theorem pow2_add (a b : Int) : pow2 (a + b) = pow2 a * pow2 b := by
  rw [pow2_eq, pow2_eq, pow2_eq, zpow_add₀ (by norm_num)]

theorem pow2_le_pow2 {a b : Int} (h : a ≤ b) : pow2 a ≤ pow2 b := by
  rw [pow2_eq, pow2_eq]
  exact zpow_le_zpow_right₀ (by norm_num) h

theorem pow2_lt_pow2 {a b : Int} (h : a < b) : pow2 a < pow2 b := by
  rw [pow2_eq, pow2_eq]
  exact zpow_lt_zpow_right₀ (by norm_num) h

theorem pow2_lt_pow2_iff {a b : Int} : pow2 a < pow2 b ↔ a < b := by
  constructor
  · intro h
    by_contra hn
    exact absurd (pow2_le_pow2 (not_lt.mp hn)) (not_le.mpr h)
  · exact pow2_lt_pow2

theorem pow2_natCast (k : Nat) : pow2 (k : Int) = (2 : ℚ) ^ k := by
  rw [pow2_eq, zpow_natCast]

theorem log2Nat_spec : ∀ (fuel n : Nat), 0 < n → n ≤ fuel →
    2 ^ log2Nat fuel n ≤ n ∧ n < 2 ^ (log2Nat fuel n + 1) := by
  intro fuel
  induction fuel with
  | zero => intro n h1 h2; omega
  | succ f ih =>
    intro n h1 h2
    by_cases hn : n < 2
    · have : n = 1 := by omega
      simp [log2Nat, this]
    · have hd : 0 < n / 2 := Nat.div_pos (by omega) (by decide)
      have hf : n / 2 ≤ f := by omega
      obtain ⟨a, b⟩ := ih (n / 2) hd hf
      simp only [log2Nat, hn, if_false]
      constructor
      · rw [pow_succ]
        have := (Nat.le_div_iff_mul_le (by decide : 0 < 2)).mp a
        exact this
      · rw [pow_succ]
        exact (Nat.div_lt_iff_lt_mul (by decide : 0 < 2)).mp b

theorem floorLog2_spec (q : ℚ) (hq : 0 < q) :
    pow2 (floorLog2 q) ≤ q ∧ q < pow2 (floorLog2 q + 1) := by
  have hnum : 0 < q.num := Rat.num_pos.mpr hq
  have hden : 0 < q.den := q.den_pos
  have hna : 0 < q.num.natAbs := Int.natAbs_pos.mpr (ne_of_gt hnum)
  obtain ⟨a1, a2⟩ := log2Nat_spec q.num.natAbs q.num.natAbs hna (le_refl _)
  obtain ⟨b1, b2⟩ := log2Nat_spec q.den q.den hden (le_refl _)
  set a := log2Nat q.num.natAbs q.num.natAbs with ha
  set b := log2Nat q.den q.den with hb
  have hqe : q = (q.num.natAbs : ℚ) / (q.den : ℚ) := by
    have h2 : (q.num.natAbs : ℚ) = (q.num : ℚ) := by
      rw [Nat.cast_natAbs, abs_of_pos hnum]
    rw [h2]
    exact (Rat.num_div_den q).symm
  have hdq : (0 : ℚ) < (q.den : ℚ) := by exact_mod_cast hden
  have A1 : (2 : ℚ) ^ a ≤ (q.num.natAbs : ℚ) := by exact_mod_cast a1
  have A2 : (q.num.natAbs : ℚ) < (2 : ℚ) ^ (a + 1) := by exact_mod_cast a2
  have B1 : (2 : ℚ) ^ b ≤ (q.den : ℚ) := by exact_mod_cast b1
  have B2 : (q.den : ℚ) < (2 : ℚ) ^ (b + 1) := by exact_mod_cast b2
  have hP : ∀ k : Int, pow2 ((a : Int) - (b : Int) + k) = (2 : ℚ) ^ a / (2 : ℚ) ^ b * pow2 k := by
    intro k
    rw [pow2_add, pow2_eq ((a : Int) - (b : Int)), zpow_sub₀ (by norm_num), zpow_natCast,
      zpow_natCast]
  have hp0 := hP 0
  have hp1 := hP 1
  have hpm := hP (-1)
  have e1 : pow2 1 = 2 := by rw [pow2_eq]; norm_num
  have em : pow2 (-1) = 1 / 2 := by rw [pow2_eq]; norm_num
  have e0 : pow2 0 = 1 := by rw [pow2_eq]; norm_num
  rw [add_zero, e0, mul_one] at hp0
  rw [e1] at hp1
  rw [em] at hpm
  have hb0 : (0 : ℚ) < (2 : ℚ) ^ b := by positivity
  have ha0 : (0 : ℚ) < (2 : ℚ) ^ a := by positivity
  unfold floorLog2
  simp only [← ha, ← hb]
  split_ifs with h
  · refine ⟨h, ?_⟩
    rw [hp1]
    conv_lhs => rw [hqe]
    rw [div_mul_eq_mul_div, div_lt_div_iff₀ hdq hb0]
    have : (q.num.natAbs : ℚ) < (2 : ℚ) ^ a * 2 := by rw [← pow_succ]; exact A2
    nlinarith
  · have h2 : (a : Int) - (b : Int) - 1 + 1 = (a : Int) - (b : Int) := by ring
    rw [h2]
    refine ⟨?_, lt_of_not_le h⟩
    have h3 : (a : Int) - (b : Int) - 1 = (a : Int) - (b : Int) + (-1) := by ring
    rw [h3, hpm]
    conv_rhs => rw [hqe]
    rw [div_mul_eq_mul_div, div_le_div_iff₀ hb0 hdq]
    have : (q.den : ℚ) < (2 : ℚ) ^ b * 2 := by rw [← pow_succ]; exact B2
    nlinarith

theorem roundHalfEven_int (n : Int) : roundHalfEven (n : ℚ) = n := by
  unfold roundHalfEven
  simp

theorem roundHalfEven_near (q : ℚ) :
    |(roundHalfEven q : ℚ) - q| ≤ 1 / 2 := by
  have h1 := Int.floor_le q
  have h2 := Int.lt_floor_add_one q
  unfold roundHalfEven
  simp only
  split_ifs with a b c
  · rw [abs_le]; constructor <;> linarith
  · push_cast; rw [abs_le]; constructor <;> linarith
  · rw [abs_le]; constructor <;> linarith
  · push_cast; rw [abs_le]; constructor <;> linarith

theorem binary64_of_exact (q : ℚ) (m : Int) (hq : q ≠ 0)
    (hm : q / pow2 (max (floorLog2 |q| - 52) (-1074)) = (m : ℚ))
    (hlt : |q| < pow2 1024) : binary64 q = .fin q := by
  unfold binary64
  simp only [hq, if_false, hm, roundHalfEven_int]
  have hp := pow2_pos (max (floorLog2 |q| - 52) (-1074))
  have hv : (m : ℚ) * pow2 (max (floorLog2 |q| - 52) (-1074)) = q := by
    rw [← hm, div_mul_cancel₀ _ (ne_of_gt hp)]
  rw [hv, if_neg (not_le.mpr hlt)]

theorem floorLog2_le_of_lt (q : ℚ) (hq : 0 < q) (k : Int) (h : q < pow2 k) :
    floorLog2 q < k := by
  have := (floorLog2_spec q hq).1
  exact pow2_lt_pow2_iff.mp (lt_of_le_of_lt this h)

theorem le_floorLog2_of_le (q : ℚ) (hq : 0 < q) (k : Int) (h : pow2 k ≤ q) :
    k ≤ floorLog2 q := by
  have := (floorLog2_spec q hq).2
  have h2 := pow2_lt_pow2_iff.mp (lt_of_le_of_lt h this)
  omega

theorem pow2_neg_mul_int (i : Int) (e : Int) (he : e ≤ 0) :
    ∃ m : Int, (i : ℚ) / pow2 e = (m : ℚ) := by
  refine ⟨i * 2 ^ (-e).toNat, ?_⟩
  have hn : 0 ≤ -e := by omega
  have h1 : pow2 e = 1 / (2 : ℚ) ^ (-e).toNat := by
    rw [pow2_eq]
    have he2 : e = -((-e).toNat : Int) := by rw [Int.toNat_of_nonneg hn]; ring
    conv_lhs => rw [he2]
    rw [zpow_neg, zpow_natCast, one_div]
  rw [h1]
  push_cast
  field_simp

theorem binary64_int (i : Int) (h : |i| < 2 ^ 53) : binary64 (i : ℚ) = .fin (i : ℚ) := by
  by_cases h0 : i = 0
  · rw [h0]
    simp [binary64]
  · have hq : (i : ℚ) ≠ 0 := by exact_mod_cast h0
    have habs : (0 : ℚ) < |(i : ℚ)| := abs_pos.mpr hq
    have hlt53 : |(i : ℚ)| < pow2 53 := by
      rw [pow2_eq]
      have : ((|i| : Int) : ℚ) < ((2 ^ 53 : Int) : ℚ) := by exact_mod_cast h
      rw [Int.cast_abs] at this
      norm_num at this ⊢
      exact this
    have hE := floorLog2_le_of_lt _ habs 53 hlt53
    have hge : pow2 0 ≤ |(i : ℚ)| := by
      rw [pow2_eq, zpow_zero]
      have : (1 : Int) ≤ |i| := Int.one_le_abs h0
      have : ((1 : Int) : ℚ) ≤ ((|i| : Int) : ℚ) := by exact_mod_cast this
      simpa using this
    have hE0 := le_floorLog2_of_le _ habs 0 hge
    have hmax : max (floorLog2 |(i : ℚ)| - 52) (-1074) = floorLog2 |(i : ℚ)| - 52 := by
      apply max_eq_left
      omega
    obtain ⟨m, hm⟩ := pow2_neg_mul_int i (floorLog2 |(i : ℚ)| - 52) (by omega)
    apply binary64_of_exact (i : ℚ) m hq
    · rw [hmax]
      exact hm
    · exact lt_trans hlt53 (pow2_lt_pow2 (by norm_num))

theorem binary64_pos_err (q : ℚ) (hq : 0 < q) (hlo : pow2 (-1022) ≤ q) (hhi : q < pow2 1023) :
    ∃ v : ℚ, binary64 q = .fin v ∧ |v - q| ≤ q / 2 ^ 53 ∧ 0 < v := by
  have hE1 := le_floorLog2_of_le q hq (-1022) hlo
  have hE2 := floorLog2_le_of_lt q hq 1023 hhi
  obtain ⟨s1, s2⟩ := floorLog2_spec q hq
  have habs : |q| = q := abs_of_pos hq
  have hmax : max (floorLog2 q - 52) (-1074) = floorLog2 q - 52 := by
    apply max_eq_left
    omega
  set e := floorLog2 q - 52 with he
  have hpe := pow2_pos e
  have hE : pow2 (floorLog2 q) = pow2 e * 2 ^ 52 := by
    have : floorLog2 q = e + 52 := by omega
    rw [this, pow2_add, pow2_eq 52]
    norm_num
  have hnear := roundHalfEven_near (q / pow2 e)
  have herr : |(roundHalfEven (q / pow2 e) : ℚ) * pow2 e - q| ≤ pow2 e / 2 := by
    have : (roundHalfEven (q / pow2 e) : ℚ) * pow2 e - q =
        ((roundHalfEven (q / pow2 e) : ℚ) - q / pow2 e) * pow2 e := by
      field_simp
    rw [this, abs_mul, abs_of_pos hpe]
    calc |(roundHalfEven (q / pow2 e) : ℚ) - q / pow2 e| * pow2 e ≤ 1 / 2 * pow2 e :=
          mul_le_mul_of_nonneg_right hnear hpe.le
      _ = pow2 e / 2 := by ring
  have hbound : pow2 e / 2 ≤ q / 2 ^ 53 := by
    rw [hE] at s1
    rw [div_le_div_iff₀ (by norm_num) (by positivity)]
    nlinarith
  have hvpos : 0 < (roundHalfEven (q / pow2 e) : ℚ) * pow2 e := by
    have h1 := (abs_le.mp herr).1
    have : pow2 e / 2 < q := by
      rw [hE] at s1
      nlinarith
    linarith
  have hvlt : |(roundHalfEven (q / pow2 e) : ℚ) * pow2 e| < pow2 1024 := by
    rw [abs_of_pos hvpos]
    have h1 := (abs_le.mp herr).2
    have h2 : pow2 1024 = pow2 1023 * 2 := by
      rw [show (1024 : Int) = 1023 + 1 by norm_num, pow2_add, pow2_eq 1]
      norm_num
    have h3 : q / 2 ^ 53 ≤ q := by
      apply div_le_self hq.le
      norm_num
    rw [h2]
    linarith [le_trans herr hbound]
  refine ⟨(roundHalfEven (q / pow2 e) : ℚ) * pow2 e, ?_, le_trans herr hbound, hvpos⟩
  unfold binary64
  simp only [ne_of_gt hq, if_false, habs, hmax, ← he]
  rw [if_neg (not_le.mpr hvlt)]

/-! ## Durations -/

theorem countedMinutes_nonneg (r : TimeRange) (m : Int) (h : countedMinutes r = some m) :
    0 ≤ m := by
  obtain ⟨s, e⟩ := r
  cases s <;> cases e <;> simp [countedMinutes] at h
  obtain ⟨h1, h2⟩ := h
  omega

theorem totalMin_nonneg (ranges : List TimeRange) :
    0 ≤ (ranges.filterMap countedMinutes).sum := by
  apply List.sum_nonneg
  intro m hm
  obtain ⟨r, _, hr⟩ := List.mem_filterMap.mp hm
  exact countedMinutes_nonneg r m hr

theorem durationLoop_open : ∀ (ranges : List TimeRange) (acc : JSNum × Bool),
    (durationLoop ranges acc).2 = (acc.2 || ranges.any isOpenRange) := by
  intro ranges
  induction ranges with
  | nil => intro acc; simp [durationLoop]
  | cons r rest ih =>
    intro acc
    obtain ⟨s, e⟩ := r
    cases s with
    | none => simp [durationLoop, ih, isOpenRange]
    | some s =>
      cases e with
      | none => simp [durationLoop, ih, isOpenRange]
      | some e =>
        simp only [durationLoop, minutesDiff]
        split_ifs <;> simp [ih, isOpenRange]

theorem ofInt_exact (i : Int) (h : |i| < 2 ^ 53) : JSNum.ofInt i = .fin (i : ℚ) :=
  binary64_int i h

theorem sub_exact (a b : Int) (h : |a - b| < 2 ^ 53) :
    (JSNum.fin (a : ℚ)).sub (.fin (b : ℚ)) = .fin ((a - b : Int) : ℚ) := by
  have := binary64_int (a - b) h
  simp only [JSNum.sub]
  rw [← this]
  push_cast
  rfl

theorem add_exact (a b : Int) (h : |a + b| < 2 ^ 53) :
    (JSNum.fin (a : ℚ)).add (.fin (b : ℚ)) = .fin ((a + b : Int) : ℚ) := by
  have := binary64_int (a + b) h
  simp only [JSNum.add]
  rw [← this]
  push_cast
  rfl

theorem durationLoop_total : ∀ (ranges : List TimeRange) (a : Int) (b : Bool),
    OffsetsBelow52 ranges → 0 ≤ a → a + (ranges.filterMap countedMinutes).sum < 2 ^ 53 →
    (durationLoop ranges (.fin (a : ℚ), b)).1 =
      .fin ((a + (ranges.filterMap countedMinutes).sum : Int) : ℚ) := by
  intro ranges
  induction ranges with
  | nil => intro a b _ _ _; simp [durationLoop]
  | cons r rest ih =>
    intro a b hoff ha hsum
    have hrest : OffsetsBelow52 rest := fun x hx => hoff x (List.mem_cons_of_mem _ hx)
    have hr := hoff r (List.mem_cons_self _ _)
    have hnn := totalMin_nonneg rest
    obtain ⟨s, e⟩ := r
    cases s with
    | none =>
      have hc : countedMinutes ⟨none, e⟩ = none := by cases e <;> rfl
      simp only [List.filterMap_cons, hc] at hsum ⊢
      simp only [durationLoop, if_true]
      exact ih a b hrest ha hsum
    | some s =>
      cases e with
      | none =>
        have hc : countedMinutes ⟨some s, none⟩ = none := rfl
        simp only [List.filterMap_cons, hc] at hsum ⊢
        simp only [durationLoop, if_true]
        simp only [reduceCtorEq, if_false]
        exact ih a true hrest ha hsum
      | some e =>
        have hs := hr.1 s rfl
        have he := hr.2 e rfl
        have hs2 : |s| < 2 ^ 53 := by
          have : (2 : Int) ^ 52 < 2 ^ 53 := by norm_num
          omega
        have he2 : |e| < 2 ^ 53 := by
          have : (2 : Int) ^ 52 < 2 ^ 53 := by norm_num
          omega
        have hd : |e - s| < 2 ^ 53 := by
          have h1 := abs_sub e s
          have : (2 : Int) ^ 53 = 2 ^ 52 + 2 ^ 52 := by norm_num
          omega
        have hdiff : minutesDiff (some s) (some e) = some (.fin ((e - s : Int) : ℚ)) := by
          simp only [minutesDiff, ofInt_exact e he2, ofInt_exact s hs2, sub_exact e s hd]
        simp only [durationLoop, reduceCtorEq, if_false, hdiff]
        by_cases hle : s ≤ e
        · have hc : countedMinutes ⟨some s, some e⟩ = some (e - s) := by
            simp [countedMinutes, hle]
          simp only [List.filterMap_cons, hc, List.sum_cons] at hsum ⊢
          have hge : (JSNum.fin ((e - s : Int) : ℚ)).geZero = true := by
            simp only [JSNum.geZero, decide_eq_true_eq]
            have : (0 : Int) ≤ e - s := by omega
            exact_mod_cast this
          rw [if_pos hge]
          have hadd : |a + (e - s)| < 2 ^ 53 := by
            rw [abs_of_nonneg (by omega)]
            omega
          rw [add_exact a (e - s) hadd, ih (a + (e - s)) b hrest (by omega) (by omega)]
          congr 2
          ring
        · have hc : countedMinutes ⟨some s, some e⟩ = none := by
            simp [countedMinutes, hle]
          simp only [List.filterMap_cons, hc] at hsum ⊢
          have hge : (JSNum.fin ((e - s : Int) : ℚ)).geZero = false := by
            simp only [JSNum.geZero, decide_eq_false_iff_not, not_le]
            have : e - s < (0 : Int) := by omega
            exact_mod_cast this
          rw [hge]
          simp only [Bool.false_eq_true, if_false]
          exact ih a b hrest ha hsum

theorem computeDurationHours_open (ranges : List TimeRange) :
    (computeDurationHours ranges).hasOpen = ranges.any isOpenRange := by
  simp [computeDurationHours, durationLoop_open]

theorem computeDurationHours_total (ranges : List TimeRange) (hoff : OffsetsBelow52 ranges)
    (hsum : (ranges.filterMap countedMinutes).sum < 2 ^ 53) :
    (computeDurationHours ranges).totalMin =
      .fin (((ranges.filterMap countedMinutes).sum : Int) : ℚ) := by
  have := durationLoop_total ranges 0 false hoff (le_refl _) (by simpa using hsum)
  simp only [computeDurationHours]
  rw [show (JSNum.fin 0) = JSNum.fin ((0 : Int) : ℚ) by norm_num, this]
  simp

theorem digitChar_isDigit (d : Nat) (h : d < 10) : isDigit (Nat.digitChar d) = true := by
  interval_cases d <;> decide

theorem toDigitsCore_digits : ∀ (fuel n : Nat) (ds : List Char), ds.all isDigit = true →
    (Nat.toDigitsCore 10 fuel n ds).all isDigit = true := by
  intro fuel
  induction fuel with
  | zero => intro n ds h; simpa [Nat.toDigitsCore] using h
  | succ fuel ih =>
    intro n ds h
    have hd := digitChar_isDigit (n % 10) (Nat.mod_lt _ (by decide))
    by_cases h0 : n / 10 = 0
    · simp only [Nat.toDigitsCore, h0, if_true, List.all_cons, hd, Bool.true_and]
      exact h
    · simp only [Nat.toDigitsCore, h0, if_false]
      exact ih _ _ (by simp only [List.all_cons, hd, Bool.true_and]; exact h)

theorem natStr_digits (n : Nat) : (natStr n).all isDigit = true :=
  toDigitsCore_digits _ _ [] rfl

theorem natStr_ne_nil (n : Nat) : natStr n ≠ [] := by
  intro h
  have h1 := digitsVal_natStr n
  unfold natStr Nat.toDigits at h
  rw [Nat.toDigitsCore] at h
  by_cases h0 : n / 10 = 0
  · simp [h0] at h
  · simp only [h0, if_false] at h
    obtain ⟨L, hL, _⟩ := toDigitsCore_spec n (n / 10) [Nat.digitChar (n % 10)] (by omega)
    rw [hL] at h
    simp at h

theorem digitsVal_append (a : Str) : ∀ b : Str,
    digitsVal (a ++ b) = digitsVal a * 10 ^ b.length + digitsVal b := by
  intro b
  induction b using List.reverseRecOn with
  | nil => simp [digitsVal]
  | append_singleton b c ih =>
    rw [← List.append_assoc, digitsVal_append_single, ih, digitsVal_append_single]
    simp only [List.length_append, List.length_singleton, pow_succ]
    ring

theorem digitsVal_replicate_zero (k : Nat) : digitsVal (List.replicate k '0') = 0 := by
  induction k with
  | zero => rfl
  | succ k ih =>
    rw [List.replicate_succ', digitsVal_append_single, ih]
    rfl

/-- The text `toFixed(4)` writes for a non-negative number below 10^21. -/
theorem toFixed4_shape (q : ℚ) (z : Nat) (hq0 : 0 ≤ q) (hz : q < 10 ^ 21)
    (hfloor : ⌊q * 10000 + 1 / 2⌋ = (z : Int)) :
    IsFourDecimals (toFixed4 (.fin q)) ((z : ℚ) / 10000) := by
  have habs : |q| = q := abs_of_nonneg hq0
  have hnot : ¬ ((10 : ℚ) ^ 21 ≤ |q|) := by rw [habs]; exact not_le.mpr hz
  have hneg : ¬ (q < 0) := not_lt.mpr hq0
  unfold toFixed4
  dsimp only
  rw [if_neg hnot, if_neg hneg, habs, hfloor, Int.toNat_ofNat, List.nil_append]
  generalize hm : (if (natStr z).length ≤ 4 then
      List.replicate (5 - (natStr z).length) '0' ++ natStr z else natStr z) = m
  have hmlen : 5 ≤ m.length := by
    rw [← hm]
    split
    · simp; omega
    · omega
  have hmdig : m.all isDigit = true := by
    rw [← hm]
    split
    · rw [List.all_append, natStr_digits]
      have h0 : isDigit '0' = true := by decide
      simp [List.all_replicate, h0]
    · exact natStr_digits z
  have hmval : digitsVal m = z := by
    rw [← hm]
    split
    · rw [digitsVal_append, digitsVal_replicate_zero, digitsVal_natStr]; simp
    · exact digitsVal_natStr z
  have hsplit : m = m.take (m.length - 4) ++ m.drop (m.length - 4) := (List.take_append_drop _ _).symm
  refine ⟨m.take (m.length - 4), m.drop (m.length - 4), by simp, ?_, ?_, ?_, ?_, ?_⟩
  · intro h
    have := congrArg List.length h
    simp at this
    omega
  · rw [hsplit, List.all_append, Bool.and_eq_true] at hmdig
    exact hmdig.1
  · simp; omega
  · rw [hsplit, List.all_append, Bool.and_eq_true] at hmdig
    exact hmdig.2
  · have h1 : digitsVal m = digitsVal (m.take (m.length - 4)) * 10 ^ 4 +
        digitsVal (m.drop (m.length - 4)) := by
      conv_lhs => rw [hsplit]
      rw [digitsVal_append]
      have hl : (m.drop (m.length - 4)).length = 4 := by simp; omega
      rw [hl]
    rw [hmval] at h1
    have h2 : (z : ℚ) = (digitsVal (m.take (m.length - 4)) : ℚ) * 10 ^ 4 +
        (digitsVal (m.drop (m.length - 4)) : ℚ) := by exact_mod_cast h1
    rw [h2]
    field_simp
    left
    norm_num

theorem binary64_mid (q : ℚ) (hlo : 1 / 2 ^ 60 ≤ q) (hhi : q ≤ 2 ^ 60) :
    ∃ v : ℚ, binary64 q = .fin v ∧ |v - q| ≤ q / 2 ^ 53 ∧ 0 < v := by
  have hq : 0 < q := lt_of_lt_of_le (by positivity) hlo
  apply binary64_pos_err q hq
  · have h1 : pow2 (-1022) ≤ pow2 (-60) := pow2_le_pow2 (by norm_num)
    have h2 : pow2 (-60) = 1 / 2 ^ 60 := by
      rw [pow2_eq, zpow_neg, one_div]
      norm_cast
    rw [h2] at h1
    exact le_trans h1 hlo
  · have h1 : pow2 60 < pow2 1023 := pow2_lt_pow2 (by norm_num)
    have h2 : pow2 60 = 2 ^ 60 := by
      rw [pow2_eq]
      norm_cast
    rw [h2] at h1
    exact lt_of_le_of_lt hhi h1

theorem halfUp4_div60 (t : Int) :
    halfUp4 ((t : ℚ) / 60) = (((1000 * t + 3) / 6 : Int) : ℚ) / 10000 := by
  unfold halfUp4
  congr 2
  rw [Int.floor_eq_iff]
  have h : 6 * ((1000 * t + 3) / 6) ≤ 1000 * t + 3 ∧ 1000 * t + 3 ≤ 6 * ((1000 * t + 3) / 6) + 5 := by
    omega
  have h1 : (6 : ℚ) * (((1000 * t + 3) / 6 : Int) : ℚ) ≤ 1000 * (t : ℚ) + 3 := by
    exact_mod_cast h.1
  have h2 : 1000 * (t : ℚ) + 3 ≤ (6 : ℚ) * (((1000 * t + 3) / 6 : Int) : ℚ) + 5 := by
    exact_mod_cast h.2
  constructor <;> linarith

set_option maxHeartbeats 2000000 in
theorem round4_minutes (t : Int) (h0 : 0 < t) (hT : t < 10 ^ 12) :
    ∃ v : ℚ, round4 ((JSNum.fin (t : ℚ)).divBy 60) = .fin v ∧ 0 < v ∧ v < 10 ^ 21 ∧
      ⌊v * 10000 + 1 / 2⌋ = (1000 * t + 3) / 6 ∧
      |v - (((1000 * t + 3) / 6 : Int) : ℚ) / 10000| ≤ 2 / 10 ^ 6 := by
  have ht0 : (1 : ℚ) ≤ (t : ℚ) := by exact_mod_cast h0
  have htT : (t : ℚ) ≤ 10 ^ 12 := by exact_mod_cast hT.le
  -- the quotient
  obtain ⟨v1, e1, b1, p1⟩ := binary64_mid ((t : ℚ) / 60)
    (by rw [div_le_div_iff₀ (by norm_num) (by norm_num)]; nlinarith)
    (by rw [div_le_iff₀ (by norm_num)]; nlinarith)
  rw [abs_le] at b1
  -- the sum with EPSILON
  have hv1 : v1 ≤ 10 ^ 12 / 60 + 1 := by
    have : (t : ℚ) / 60 / 2 ^ 53 ≤ 1 := by
      rw [div_div, div_le_iff₀ (by norm_num)]
      nlinarith
    have : (t : ℚ) / 60 ≤ 10 ^ 12 / 60 := by
      apply div_le_div_of_nonneg_right htT (by norm_num)
    linarith [b1.2]
  obtain ⟨v2, e2, b2, p2⟩ := binary64_mid (v1 + EPSILON)
    (by
      have : (1 : ℚ) / 2 ^ 60 ≤ EPSILON := by norm_num [EPSILON]
      linarith)
    (by
      have : EPSILON ≤ 1 := by norm_num [EPSILON]
      have : (10 : ℚ) ^ 12 / 60 + 1 + 1 ≤ 2 ^ 60 := by norm_num
      linarith)
  rw [abs_le] at b2
  -- the product with 10000
  have hv2lo : 1 / 2 ^ 60 ≤ v2 * 10000 := by
    have h1 : (v1 + EPSILON) / 2 ^ 53 ≤ (v1 + EPSILON) / 2 := by
      apply div_le_div_of_nonneg_left (by linarith [p1.le, (by norm_num [EPSILON] : (0 : ℚ) ≤ EPSILON)])
        (by norm_num) (by norm_num)
    have h2 : (1 : ℚ) / 2 ^ 52 ≤ EPSILON := by norm_num [EPSILON]
    have h3 : (1 : ℚ) / 2 ^ 60 ≤ 1 / 2 ^ 52 / 2 * 10000 := by norm_num
    nlinarith [b2.1, p1.le]
  have hv2up : v2 ≤ 10 ^ 12 / 60 + 3 := by
    have h1 : (v1 + EPSILON) / 2 ^ 53 ≤ 1 := by
      rw [div_le_iff₀ (by norm_num)]
      have : EPSILON ≤ 1 := by norm_num [EPSILON]
      have : (10 : ℚ) ^ 12 / 60 + 1 + 1 ≤ 1 * 2 ^ 53 := by norm_num
      linarith
    have : EPSILON ≤ 1 := by norm_num [EPSILON]
    linarith [b2.2]
  obtain ⟨v3, e3, b3, p3⟩ := binary64_mid (v2 * 10000) hv2lo
    (by
      have : ((10 : ℚ) ^ 12 / 60 + 3) * 10000 ≤ 2 ^ 60 := by norm_num
      nlinarith)
  rw [abs_le] at b3
  -- the rounded product is the half-up rounding of the exact one
  have hH : 6 * ((1000 * t + 3) / 6) + 1 ≤ 1000 * t + 3 ∧
      1000 * t + 3 ≤ 6 * ((1000 * t + 3) / 6) + 5 := by omega
  have hH1 : (6 : ℚ) * (((1000 * t + 3) / 6 : Int) : ℚ) + 1 ≤ 1000 * (t : ℚ) + 3 := by
    exact_mod_cast hH.1
  have hH2 : 1000 * (t : ℚ) + 3 ≤ (6 : ℚ) * (((1000 * t + 3) / 6 : Int) : ℚ) + 5 := by
    exact_mod_cast hH.2
  have hu : (0 : ℚ) < 1 / 2 ^ 53 := by positivity
  have hE1 : (t : ℚ) / 60 / 2 ^ 53 ≤ 2 / 10 ^ 6 := by
    rw [div_div, div_le_iff₀ (by norm_num)]
    have : (2 : ℚ) / 10 ^ 6 * (60 * 2 ^ 53) ≥ 10 ^ 12 := by norm_num
    linarith
  have hE2 : (v1 + EPSILON) / 2 ^ 53 ≤ 2 / 10 ^ 6 := by
    rw [div_le_iff₀ (by norm_num)]
    have : EPSILON ≤ 1 := by norm_num [EPSILON]
    have : (10 : ℚ) ^ 12 / 60 + 1 + 1 ≤ 2 / 10 ^ 6 * 2 ^ 53 := by norm_num
    linarith
  have hE3 : v2 * 10000 / 2 ^ 53 ≤ 2 / 10 ^ 2 := by
    rw [div_le_iff₀ (by norm_num)]
    have : ((10 : ℚ) ^ 12 / 60 + 3) * 10000 ≤ 2 / 10 ^ 2 * 2 ^ 53 := by norm_num
    nlinarith
  have hEps : EPSILON ≤ 1 / 10 ^ 6 := by norm_num [EPSILON]
  have hEps0 : 0 ≤ EPSILON := by norm_num [EPSILON]
  have hv3lo : (t : ℚ) / 60 * 10000 - 1 / 6 < v3 := by
    have : v2 * 10000 ≥ ((t : ℚ) / 60 - 2 / 10 ^ 6 - 2 / 10 ^ 6) * 10000 := by nlinarith [b1.1, b2.1]
    nlinarith [b3.1]
  have hv3up : v3 < (t : ℚ) / 60 * 10000 + 1 / 6 := by
    have : v2 * 10000 ≤ ((t : ℚ) / 60 + 2 / 10 ^ 6 + 1 / 10 ^ 6 + 2 / 10 ^ 6) * 10000 := by
      nlinarith [b1.2, b2.2]
    nlinarith [b3.2]
  have hround : ⌊v3 + 1 / 2⌋ = (1000 * t + 3) / 6 := by
    rw [Int.floor_eq_iff]
    constructor <;> linarith
  -- the quotient by 10000
  have hHpos : (1 : ℚ) ≤ (((1000 * t + 3) / 6 : Int) : ℚ) := by
    have : (1 : Int) ≤ (1000 * t + 3) / 6 := by omega
    exact_mod_cast this
  have hHup : (((1000 * t + 3) / 6 : Int) : ℚ) ≤ 10 ^ 15 := by
    have : (1000 * t + 3) / 6 ≤ (10 : Int) ^ 15 := by omega
    exact_mod_cast this
  obtain ⟨v4, e4, b4, p4⟩ := binary64_mid ((((1000 * t + 3) / 6 : Int) : ℚ) / 10000)
    (by
      rw [div_le_div_iff₀ (by norm_num) (by norm_num)]
      nlinarith)
    (by
      rw [div_le_iff₀ (by norm_num)]
      nlinarith)
  have hE5 : (((1000 * t + 3) / 6 : Int) : ℚ) / 10000 / 2 ^ 53 ≤ 2 / 10 ^ 6 := by
    have h6 : (((1000 * t + 3) / 6 : Int) : ℚ) ≤ 17 * 10 ^ 13 := by
      have : (1000 * t + 3) / 6 ≤ 17 * (10 : Int) ^ 13 := by omega
      exact_mod_cast this
    rw [div_div, div_le_iff₀ (by norm_num)]
    have : (2 : ℚ) / 10 ^ 6 * (10000 * 2 ^ 53) ≥ 17 * 10 ^ 13 := by norm_num
    linarith
  have b5 := le_trans b4 hE5
  rw [abs_le] at b4
  have hE4 : (((1000 * t + 3) / 6 : Int) : ℚ) / 10000 / 2 ^ 53 ≤ 2 / 10 ^ 5 := by
    rw [div_div, div_le_iff₀ (by norm_num)]
    have : (2 : ℚ) / 10 ^ 5 * (10000 * 2 ^ 53) ≥ 10 ^ 15 := by norm_num
    linarith
  refine ⟨v4, ?_, p4, ?_, ?_, b5⟩
  · simp only [round4, JSNum.divBy, e1, JSNum.add, e2, JSNum.mulBy, e3, mathRound, hround, e4]
  · have : (((1000 * t + 3) / 6 : Int) : ℚ) / 10000 ≤ 10 ^ 11 := by
      rw [div_le_iff₀ (by norm_num)]
      nlinarith
    have : (10 : ℚ) ^ 11 + 1 < 10 ^ 21 := by norm_num
    linarith [b4.2]
  · rw [Int.floor_eq_iff]
    constructor
    · nlinarith [b4.1]
    · nlinarith [b4.2]

theorem round4_zero_minutes : round4 ((JSNum.fin ((0 : Int) : ℚ)).divBy 60) = .fin 0 := by
  decide!

/-! ## The guards of `commitEntry` -/

theorem commitEntry_rejected (today : Str) (db : DB) (book : Book) (draft : Draft)
    (h : (computeDurationHours draft.timeRanges).hasOpen = true ∨
      (computeDurationHours draft.timeRanges).durH.leZero = true ∨
      (draftCost draft).isNaN = true ∨ (draftCost draft).ltZero = true) :
    ∃ msg : Str, commitEntry today db book draft =
      some { db := db, draft := draft, result := .rejected msg } := by
  unfold commitEntry
  by_cases h1 : (computeDurationHours draft.timeRanges).hasOpen = true
  · simp only [h1, if_true]
    exact ⟨_, rfl⟩
  · by_cases h2 : (computeDurationHours draft.timeRanges).durH.leZero = true
    · simp only [h1, h2, if_true, Bool.false_eq_true, if_false]
      exact ⟨_, rfl⟩
    · have h3 : ((draftCost draft).isNaN || (draftCost draft).ltZero) = true := by
        rcases h with h | h | h | h
        · exact absurd h h1
        · exact absurd h h2
        · simp [h]
        · simp [h]
      unfold draftCost at h3
      simp only [h1, h2, h3, if_true, Bool.false_eq_true, if_false]
      exact ⟨_, rfl⟩

theorem commitEntry_accepted (today : Str) (db : DB) (book : Book) (draft : Draft)
    (h1 : (computeDurationHours draft.timeRanges).hasOpen = false)
    (h2 : (computeDurationHours draft.timeRanges).durH.leZero = false)
    (h3 : (draftCost draft).isNaN = false) (h4 : (draftCost draft).ltZero = false) :
    ∃ (key : Str) (row : Obj) (out : CommitOutcome),
      commitEntry today db book draft = some out ∧
      out.result = .committed key row ∧
      out.db.entries = db.entries ++ [{ compositeKey := key, bookKey := book.bookKey, row := row }] ∧
      out.db.books = db.books ∧
      IsResolved (entryKeys db.entries) book.bookID key ∧
      key ∉ entryKeys db.entries ∧
      objGet row "Duration_h".toList =
        some (toFixed4 (computeDurationHours draft.timeRanges).durH) ∧
      objGet row "Cost_h".toList = some (numberToString (draftCost draft)) ∧
      objGet row "Net_h".toList =
        some (numberToString
          (round4 ((computeDurationHours draft.timeRanges).durH.sub (draftCost draft)))) := by
  have h34 : ((draftCost draft).isNaN || (draftCost draft).ltZero) = false := by simp [h3, h4]
  unfold draftCost at h34
  by_cases hused : book.bookID ∈ entryKeys db.entries
  · have hsome := (idbGet_isSome_iff Entry.compositeKey db.entries _).mpr hused
    obtain ⟨ck, hloop⟩ := copyLoop_terminates db.entries book.bookID 2
    obtain ⟨N, hN, hckN, hfree, hbelow⟩ := copyLoop_some _ _ _ _ _ hloop
    simp only [commitEntry, h1, h2, h34, Bool.false_eq_true, if_false, hsome, if_true, hloop]
    rw [idbPut_fresh _ _ _ (by exact hfree)]
    exact ⟨ck, _, _, rfl, rfl, rfl, rfl, Or.inr ⟨hused, N, hN, hckN, hckN ▸ hfree, hbelow⟩,
      hfree, rfl, rfl, rfl⟩
  · have hnone : (idbGet Entry.compositeKey db.entries book.bookID).isSome = false := by
      rw [Bool.eq_false_iff]
      exact fun h => hused ((idbGet_isSome_iff _ _ _).mp h)
    simp only [commitEntry, h1, h2, h34, Bool.false_eq_true, if_false, hnone]
    rw [idbPut_fresh _ _ _ (by exact hused)]
    exact ⟨book.bookID, _, _, rfl, rfl, rfl, rfl, Or.inl ⟨hused, rfl⟩, hused, rfl, rfl, rfl⟩

/-! ## The collision rule -/

theorem copyKey_ne_self (K : Str) (n : Nat) : copyKey K n ≠ K := by
  intro h
  have := congrArg List.length h
  simp [copyKey] at this

theorem IsResolved_unused (keys : List Str) (K key : Str) (h : K ∉ keys)
    (hr : IsResolved keys K key) : key = K := by
  rcases hr with ⟨_, hk⟩ | ⟨hin, _⟩
  · exact hk
  · exact absurd hin h

theorem IsResolved_least (keys : List Str) (K key : Str) (N : Nat) (hK : K ∈ keys)
    (hN : 2 ≤ N) (hfree : copyKey K N ∉ keys)
    (hbelow : ∀ m, 2 ≤ m → m < N → copyKey K m ∈ keys)
    (hr : IsResolved keys K key) : key = copyKey K N := by
  rcases hr with ⟨hnot, _⟩ | ⟨_, M, hM, hkey, hMfree, hMbelow⟩
  · exact absurd hK hnot
  · rcases Nat.lt_trichotomy M N with hlt | heq | hgt
    · exact absurd (hbelow M hM hlt) hMfree
    · rw [hkey, heq]
    · exact absurd (hMbelow N hN hgt) hfree

theorem IsResolved_unique (keys : List Str) (K k1 k2 : Str)
    (h1 : IsResolved keys K k1) (h2 : IsResolved keys K k2) : k1 = k2 := by
  rcases h1 with ⟨hnot, hk⟩ | ⟨hin, N, hN, hkey, hfree, hbelow⟩
  · rw [hk, IsResolved_unused keys K k2 hnot h2]
  · rw [hkey, IsResolved_least keys K k2 N hin hN hfree hbelow h2]

theorem commitEntry_total (today : Str) (db : DB) (book : Book) (draft : Draft) :
    ∃ out : CommitOutcome, commitEntry today db book draft = some out ∧
      ((∃ msg, out.result = .rejected msg) → out.db = db ∧ out.draft = draft) ∧
      (∀ key row, out.result = .committed key row →
        key ∉ entryKeys db.entries ∧
        out.db.entries =
          db.entries ++ [{ compositeKey := key, bookKey := book.bookKey, row := row }] ∧
        out.db.books = db.books ∧
        IsResolved (entryKeys db.entries) book.bookID key) := by
  by_cases h : (computeDurationHours draft.timeRanges).hasOpen = true ∨
      (computeDurationHours draft.timeRanges).durH.leZero = true ∨
      (draftCost draft).isNaN = true ∨ (draftCost draft).ltZero = true
  · obtain ⟨msg, hm⟩ := commitEntry_rejected today db book draft h
    refine ⟨_, hm, fun _ => ⟨rfl, rfl⟩, ?_⟩
    intro key row hres
    simp at hres
  · simp only [not_or, Bool.not_eq_true] at h
    obtain ⟨key, row, out, ho, hres, hent, hbooks, hrule, hfresh, _⟩ :=
      commitEntry_accepted today db book draft h.1 h.2.1 h.2.2.1 h.2.2.2
    refine ⟨out, ho, ?_, ?_⟩
    · rintro ⟨msg, hmsg⟩
      rw [hres] at hmsg
      simp at hmsg
    · intro key2 row2 hres2
      rw [hres] at hres2
      simp only [CommitResult.committed.injEq] at hres2
      obtain ⟨rfl, rfl⟩ := hres2
      exact ⟨hfresh, hent, hbooks, hrule⟩

theorem entryKeys_append_single (entries : List Entry) (e : Entry) :
    entryKeys (entries ++ [e]) = entryKeys entries ++ [e.compositeKey] := by
  simp [entryKeys]

theorem import_three_same_key (db : DB) (text : Str) (hdr r1 r2 r3 : List Str) (K : Str)
    (hp : parseCSV text = [hdr, r1, r2, r3]) (hh : hdr.map jsTrim = CSV_COLUMNS)
    (h1 : importCandidate r1 = K) (h2 : importCandidate r2 = K) (h3 : importCandidate r3 = K)
    (hK : K ∉ entryKeys db.entries) (hK2 : copyKey K 2 ∉ entryKeys db.entries)
    (hK3 : copyKey K 3 ∉ entryKeys db.entries) :
    ∃ (db2 : DB) (counts : ImportCounts),
      importCSV db text = some (db2, .ok counts) ∧
      entryKeys db2.entries = entryKeys db.entries ++ [K, copyKey K 2, copyKey K 3] := by
  obtain ⟨k1, o1, e1, ⟨x1, hx1, hxk1⟩, _, _, hr1, _⟩ :=
    importRow_spec CSV_COLUMNS db { added := 0, skipped := 0, deduped := 0 } r1
  rw [rowCandidate_eq, h1] at hr1
  have hk1 : k1 = K := IsResolved_unused _ _ _ hK hr1
  obtain ⟨db1, c1⟩ := o1
  obtain ⟨k2, o2, e2, ⟨x2, hx2, hxk2⟩, _, _, hr2, _⟩ := importRow_spec CSV_COLUMNS db1 c1 r2
  obtain ⟨db2, c2⟩ := o2
  obtain ⟨k3, o3, e3, ⟨x3, hx3, hxk3⟩, _, _, hr3, _⟩ := importRow_spec CSV_COLUMNS db2 c2 r3
  obtain ⟨db3, c3⟩ := o3
  simp only at hx1 hx2 hx3 hr2 hr3
  have hkeys1 : entryKeys db1.entries = entryKeys db.entries ++ [K] := by
    rw [hx1, entryKeys_append_single, hxk1, hk1]
  rw [rowCandidate_eq, h2, hkeys1] at hr2
  have hk2 : k2 = copyKey K 2 := by
    refine IsResolved_least _ K k2 2 (by simp) (le_refl 2) ?_ (fun m a b => by omega) hr2
    simp only [List.mem_append, List.mem_singleton, not_or]
    exact ⟨hK2, copyKey_ne_self K 2⟩
  have hkeys2 : entryKeys db2.entries = entryKeys db.entries ++ [K, copyKey K 2] := by
    rw [hx2, entryKeys_append_single, hkeys1, hxk2, hk2]
    simp
  rw [rowCandidate_eq, h3, hkeys2] at hr3
  have hk3 : k3 = copyKey K 3 := by
    refine IsResolved_least _ K k3 3 (by simp) (by decide) ?_ ?_ hr3
    · simp only [List.mem_append, List.mem_cons, List.mem_singleton, List.not_mem_nil,
        or_false, not_or]
      refine ⟨hK3, copyKey_ne_self K 3, ?_⟩
      intro h
      have := copyKey_injective K h
      omega
    · intro m hm1 hm2
      have : m = 2 := by omega
      subst this
      simp
  refine ⟨db3, c3, ?_, ?_⟩
  · have hnot : ¬ (parseCSV text).length < 2 := by rw [hp]; simp
    have hsame : sameHeader CSV_COLUMNS CSV_COLUMNS = true :=
      (sameHeader_eq_true_iff _ _).mpr rfl
    simp only [importCSV, hp, List.headD_cons, hh, hsame, Bool.not_true,
      Bool.false_eq_true, List.tail_cons, importRows, e1, e2, e3]
    simp
  · rw [hx3, entryKeys_append_single, hkeys2, hxk3, hk3]
    simp

/-! ## Claims on row-record identities -/

/-- C3, counterexample. `K` is unused in this store (only `K_copy2` is there), and importing
two rows that carry the composite key `K` persists them as `K` and then `K_copy3`: the
second one is not `K_copy2`. -/
theorem import_same_key_copy2_taken :
    "K".toList ∉ entryKeys copy2TakenDB.entries ∧
      (importCSV copy2TakenDB twoRowsText).map (fun r => entryKeys r.1.entries) =
        some ["K_copy2".toList, "K".toList, "K_copy3".toList] := by
  decide!

/-- C3, amended. Row-record identities stay unique and writes are append-only. For every
store: (1) an import whose header is valid returns, its entries are the old ones, unchanged
and in place, followed by one new entry per decoded data row, each written under a key no
entry present at that moment had, so that distinct keys stay distinct and the counter
`added` is the number of data rows; (2) `commitEntry` always returns, a refused commit leaves
the store as it was and an accepted one appends exactly one entry under a key that was
unused; (3) importing three rows whose candidate key is `K` into a store where `K`,
`K_copy2` and `K_copy3` are all unused persists them as `K`, `K_copy2`, `K_copy3`. -/
theorem entries_append_only (db : DB) :
    (∀ text : Str, 2 ≤ (parseCSV text).length →
      ((parseCSV text).headD []).map jsTrim = CSV_COLUMNS →
      ∃ (db2 : DB) (counts : ImportCounts) (news : List Entry),
        importCSV db text = some (db2, .ok counts) ∧
        db2.entries = db.entries ++ news ∧
        FreshlyAppended db.entries news ∧
        news.length = (parseCSV text).length - 1 ∧
        counts.added = (parseCSV text).length - 1 ∧
        ((entryKeys db.entries).Nodup → (entryKeys db2.entries).Nodup)) ∧
    (∀ (today : Str) (book : Book) (draft : Draft),
      ∃ out : CommitOutcome, commitEntry today db book draft = some out ∧
        ((∃ msg, out.result = .rejected msg) → out.db = db) ∧
        (∀ key row, out.result = .committed key row →
          key ∉ entryKeys db.entries ∧
          out.db.entries =
            db.entries ++ [{ compositeKey := key, bookKey := book.bookKey, row := row }])) ∧
    (∀ (text : Str) (hdr r1 r2 r3 : List Str) (K : Str),
      parseCSV text = [hdr, r1, r2, r3] → hdr.map jsTrim = CSV_COLUMNS →
      importCandidate r1 = K → importCandidate r2 = K → importCandidate r3 = K →
      K ∉ entryKeys db.entries → copyKey K 2 ∉ entryKeys db.entries →
      copyKey K 3 ∉ entryKeys db.entries →
      ∃ (db2 : DB) (counts : ImportCounts),
        importCSV db text = some (db2, .ok counts) ∧
        entryKeys db2.entries = entryKeys db.entries ++ [K, copyKey K 2, copyKey K 3]) := by
  refine ⟨?_, ?_, ?_⟩
  · intro text hlen hhdr
    obtain ⟨db2, counts, news, h, he, hf, hl, _, ha⟩ := importCSV_spec db text hlen hhdr
    refine ⟨db2, counts, news, h, he, hf, hl, ha, ?_⟩
    intro hnd
    rw [he]
    exact FreshlyAppended_nodup news db.entries hnd hf
  · intro today book draft
    obtain ⟨out, ho, hrej, hacc⟩ := commitEntry_total today db book draft
    exact ⟨out, ho, fun h => (hrej h).1, fun key row h => ⟨(hacc key row h).1, (hacc key row h).2.1⟩⟩
  · intro text hdr r1 r2 r3 K hp hh h1 h2 h3 hK hK2 hK3
    exact import_three_same_key db text hdr r1 r2 r3 K hp hh h1 h2 h3 hK hK2 hK3

theorem entries_append_only_witness :
    ∃ (db2 : DB) (counts : ImportCounts),
      importCSV emptyDB threeRowsText = some (db2, .ok counts) ∧
      entryKeys db2.entries =
        entryKeys emptyDB.entries ++
          ["K".toList, copyKey "K".toList 2, copyKey "K".toList 3] :=
  (entries_append_only emptyDB).2.2 threeRowsText CSV_COLUMNS sampleValues sampleValues
    sampleValues "K".toList (by decide!) (by decide!) (by decide!) (by decide!) (by decide!)
    (by decide!) (by decide!) (by decide!)

/-- C4. For every store and every candidate key (on import the supplied `CompositeKey` of
the row, or its `BookID` when the supplied key is blank; on commit the external book id of
the catalog item), the key the row is persisted under is the candidate itself when it is
unused and otherwise the candidate followed by `_copy` and the least `N` from 2 on for which
that key is unused; import and commit obey the same rule `IsResolved`, which determines the
key. -/
theorem collision_rule (db : DB) :
    (∀ (counts : ImportCounts) (values : List Str),
      ∃ (key : Str) (out : DB × ImportCounts) (e : Entry),
        importRow CSV_COLUMNS (db, counts) values = some out ∧
        out.1.entries = db.entries ++ [e] ∧ e.compositeKey = key ∧
        IsResolved (entryKeys db.entries) (importCandidate values) key) ∧
    (∀ (today : Str) (book : Book) (draft : Draft),
      ∃ out : CommitOutcome, commitEntry today db book draft = some out ∧
        ∀ key row, out.result = .committed key row →
          out.db.entries =
            db.entries ++ [{ compositeKey := key, bookKey := book.bookKey, row := row }] ∧
          IsResolved (entryKeys db.entries) book.bookID key) ∧
    (∀ (K k1 k2 : Str), IsResolved (entryKeys db.entries) K k1 →
      IsResolved (entryKeys db.entries) K k2 → k1 = k2) := by
  refine ⟨?_, ?_, ?_⟩
  · intro counts values
    obtain ⟨key, out, h, ⟨e, he, hk⟩, _, _, hr, _⟩ := importRow_spec CSV_COLUMNS db counts values
    rw [rowCandidate_eq] at hr
    exact ⟨key, out, e, h, he, hk, hr⟩
  · intro today book draft
    obtain ⟨out, ho, _, hacc⟩ := commitEntry_total today db book draft
    exact ⟨out, ho, fun key row h => ⟨(hacc key row h).2.1, (hacc key row h).2.2.2⟩⟩
  · intro K k1 k2 h1 h2
    exact IsResolved_unique _ K k1 k2 h1 h2

theorem collision_rule_witness :
    ∃ (key : Str) (out : DB × ImportCounts) (e : Entry),
      importRow CSV_COLUMNS (copy2TakenDB, { added := 0, skipped := 0, deduped := 0 })
          sampleValues = some out ∧
        out.1.entries = copy2TakenDB.entries ++ [e] ∧ e.compositeKey = key ∧
        IsResolved (entryKeys copy2TakenDB.entries) (importCandidate sampleValues) key :=
  (collision_rule copy2TakenDB).1 { added := 0, skipped := 0, deduped := 0 } sampleValues

/-! ## Claims on the guards of `commitEntry` -/

/-- C5, counterexample. The first range of this draft has an unset end (and an unset start),
yet `commitEntry` accepts the draft and writes an entry under the key `dune`. -/
theorem commit_accepts_unstarted_range :
    (∃ r ∈ (sampleDraft [⟨none, none⟩, ⟨some 0, some 60⟩] ['0']).timeRanges, r.end_ = none) ∧
      committedKey (commitEntry sampleToday
        (sampleStore (sampleDraft [⟨none, none⟩, ⟨some 0, some 60⟩] ['0'])) sampleBook
        (sampleDraft [⟨none, none⟩, ⟨some 0, some 60⟩] ['0'])) = some "dune".toList := by
  decide!

/-- C5, amended. For every draft in which some time range has a set start and an unset end,
`commitEntry` is rejected: no entry is written, and the store and the draft (its fields,
active flag and last-edited date) are left as they were. -/
theorem commit_rejects_open_range (today : Str) (db : DB) (book : Book) (draft : Draft)
    (h : ∃ r ∈ draft.timeRanges, r.start ≠ none ∧ r.end_ = none) :
    ∃ msg : Str, commitEntry today db book draft =
      some { db := db, draft := draft, result := .rejected msg } := by
  apply commitEntry_rejected
  left
  rw [computeDurationHours_open draft.timeRanges, List.any_eq_true]
  obtain ⟨r, hr, hs, he⟩ := h
  refine ⟨r, hr, ?_⟩
  cases hstart : r.start with
  | none => exact absurd hstart hs
  | some s => simp [isOpenRange, hstart, he]

theorem commit_rejects_open_range_witness :
    (∃ r ∈ (sampleDraft [⟨some 0, none⟩, ⟨some 0, some 60⟩] ['0']).timeRanges,
        r.start ≠ none ∧ r.end_ = none) ∧
      ∃ msg : Str, commitEntry sampleToday
          (sampleStore (sampleDraft [⟨some 0, none⟩, ⟨some 0, some 60⟩] ['0'])) sampleBook
          (sampleDraft [⟨some 0, none⟩, ⟨some 0, some 60⟩] ['0']) =
        some { db := sampleStore (sampleDraft [⟨some 0, none⟩, ⟨some 0, some 60⟩] ['0']),
               draft := sampleDraft [⟨some 0, none⟩, ⟨some 0, some 60⟩] ['0'],
               result := .rejected msg } :=
  ⟨by decide, commit_rejects_open_range _ _ _ _ (by decide)⟩

/-- C6, counterexample. With one closed range of 222 minutes, the draft whose cost is blank
and the draft whose cost is the text `2abc` are both accepted: the rows are written with
`Cost_h` 0 and 2. -/
theorem commit_accepts_blank_and_prefixed_cost :
    committedField (commitEntry sampleToday
        (sampleStore (sampleDraft [⟨some 1517, some 1739⟩] [])) sampleBook
        (sampleDraft [⟨some 1517, some 1739⟩] [])) "Cost_h".toList = some "0".toList ∧
      committedField (commitEntry sampleToday
        (sampleStore (sampleDraft [⟨some 1517, some 1739⟩] "2abc".toList)) sampleBook
        (sampleDraft [⟨some 1517, some 1739⟩] "2abc".toList)) "Cost_h".toList =
          some "2".toList := by
  decide!

theorem parseFloat_zero : parseFloat ['0'] = .fin 0 := by decide!

/-- C6, amended. For every draft with no open range and a positive computed duration,
`commitEntry` is accepted exactly when `parseFloat` of the cost text, a blank text read as
`0`, is a number that is not negative: a blank cost is accepted, a cost with no leading
number (as `abc`) or a negative one is refused, and a refused commit writes no entry and
leaves the store and the draft as they were. -/
theorem commit_cost_guard (today : Str) (db : DB) (book : Book) (draft : Draft)
    (h1 : (computeDurationHours draft.timeRanges).hasOpen = false)
    (h2 : (computeDurationHours draft.timeRanges).durH.leZero = false) :
    ∃ out : CommitOutcome, commitEntry today db book draft = some out ∧
      ((∃ key row, out.result = .committed key row) ↔
        ((draftCost draft).isNaN = false ∧ (draftCost draft).ltZero = false)) ∧
      ((∃ msg, out.result = .rejected msg) → out.db = db ∧ out.draft = draft) ∧
      (draft.cost_h = [] → ∃ key row, out.result = .committed key row) ∧
      parseFloat "abc".toList = .nan ∧ (parseFloat "-1".toList).ltZero = true := by
  by_cases h : (draftCost draft).isNaN = true ∨ (draftCost draft).ltZero = true
  · obtain ⟨msg, hm⟩ := commitEntry_rejected today db book draft (Or.inr (Or.inr h))
    refine ⟨_, hm, ?_, fun _ => ⟨rfl, rfl⟩, ?_, by decide!, by decide!⟩
    · constructor
      · rintro ⟨key, row, hres⟩
        simp at hres
      · rintro ⟨ha, hb⟩
        rcases h with h | h
        · rw [ha] at h; simp at h
        · rw [hb] at h; simp at h
    · intro hblank
      exfalso
      have : draftCost draft = .fin 0 := by
        unfold draftCost
        rw [hblank]
        exact parseFloat_zero
      rw [this] at h
      simp [JSNum.isNaN, JSNum.ltZero] at h
  · simp only [not_or, Bool.not_eq_true] at h
    obtain ⟨key, row, out, ho, hres, _⟩ := commitEntry_accepted today db book draft h1 h2 h.1 h.2
    refine ⟨out, ho, ?_, ?_, fun _ => ⟨key, row, hres⟩, by decide!, by decide!⟩
    · exact ⟨fun _ => h, fun _ => ⟨key, row, hres⟩⟩
    · rintro ⟨msg, hmsg⟩
      rw [hres] at hmsg
      simp at hmsg

theorem commit_cost_guard_witness :
    ∃ out : CommitOutcome, commitEntry sampleToday
        (sampleStore (sampleDraft [⟨some 1517, some 1739⟩] "abc".toList)) sampleBook
        (sampleDraft [⟨some 1517, some 1739⟩] "abc".toList) = some out ∧
      ((∃ key row, out.result = .committed key row) ↔
        ((draftCost (sampleDraft [⟨some 1517, some 1739⟩] "abc".toList)).isNaN = false ∧
          (draftCost (sampleDraft [⟨some 1517, some 1739⟩] "abc".toList)).ltZero = false)) ∧
      ((∃ msg, out.result = .rejected msg) →
        out.db = sampleStore (sampleDraft [⟨some 1517, some 1739⟩] "abc".toList) ∧
        out.draft = sampleDraft [⟨some 1517, some 1739⟩] "abc".toList) ∧
      ((sampleDraft [⟨some 1517, some 1739⟩] "abc".toList).cost_h = [] →
        ∃ key row, out.result = .committed key row) ∧
      parseFloat "abc".toList = .nan ∧ (parseFloat "-1".toList).ltZero = true :=
  commit_cost_guard _ _ _ _ (by decide!) (by decide!)

/-! ## Rounding of the net figure -/

theorem binary64_err (q : ℚ) (h : |q| ≤ 2 ^ 60) :
    ∃ v : ℚ, binary64 q = .fin v ∧ |v - q| ≤ |q| / 2 ^ 53 + 1 / 2 ^ 1075 := by
  by_cases h0 : q = 0
  · refine ⟨0, ?_, ?_⟩
    · rw [h0]
      simp [binary64]
    · rw [h0]
      norm_num
  · have habs : 0 < |q| := abs_pos.mpr h0
    obtain ⟨s1, s2⟩ := floorLog2_spec |q| habs
    have hpe_le : pow2 (max (floorLog2 |q| - 52) (-1074)) ≤ |q| / 2 ^ 52 + 1 / 2 ^ 1074 := by
      rcases max_cases (floorLog2 |q| - 52) (-1074) with ⟨hm, _⟩ | ⟨hm, _⟩
      · rw [hm]
        have e1 : pow2 (floorLog2 |q|) = pow2 (floorLog2 |q| - 52) * 2 ^ 52 := by
          have : floorLog2 |q| = (floorLog2 |q| - 52) + 52 := by ring
          conv_lhs => rw [this]
          rw [pow2_add, pow2_eq 52]
          norm_num
        rw [e1] at s1
        have h2 : pow2 (floorLog2 |q| - 52) ≤ |q| / 2 ^ 52 := by
          rw [le_div_iff₀ (by positivity)]
          exact s1
        have : (0 : ℚ) ≤ 1 / 2 ^ 1074 := by positivity
        linarith
      · rw [hm]
        have e1 : pow2 (-1074) = 1 / 2 ^ 1074 := by
          rw [pow2_eq, zpow_neg, one_div]
          norm_cast
        rw [e1]
        have : (0 : ℚ) ≤ |q| / 2 ^ 52 := by positivity
        linarith
    set e := max (floorLog2 |q| - 52) (-1074) with he
    have hpe := pow2_pos e
    have hnear := roundHalfEven_near (q / pow2 e)
    have herr : |(roundHalfEven (q / pow2 e) : ℚ) * pow2 e - q| ≤ pow2 e / 2 := by
      have : (roundHalfEven (q / pow2 e) : ℚ) * pow2 e - q =
          ((roundHalfEven (q / pow2 e) : ℚ) - q / pow2 e) * pow2 e := by
        field_simp
      rw [this, abs_mul, abs_of_pos hpe]
      calc |(roundHalfEven (q / pow2 e) : ℚ) - q / pow2 e| * pow2 e ≤ 1 / 2 * pow2 e :=
            mul_le_mul_of_nonneg_right hnear hpe.le
        _ = pow2 e / 2 := by ring
    have hbound : pow2 e / 2 ≤ |q| / 2 ^ 53 + 1 / 2 ^ 1075 := by
      have e2 : |q| / 2 ^ 53 + 1 / 2 ^ 1075 = (|q| / 2 ^ 52 + 1 / 2 ^ 1074) / 2 := by
        ring
      rw [e2]
      linarith
    have hvlt : |(roundHalfEven (q / pow2 e) : ℚ) * pow2 e| < pow2 1024 := by
      have h1 : |(roundHalfEven (q / pow2 e) : ℚ) * pow2 e| ≤
          |(roundHalfEven (q / pow2 e) : ℚ) * pow2 e - q| + |q| := by
        have := abs_add ((roundHalfEven (q / pow2 e) : ℚ) * pow2 e - q) q
        simpa using this
      have h2 : pow2 61 < pow2 1024 := pow2_lt_pow2 (by norm_num)
      have h3 : pow2 61 = 2 ^ 61 := by
        rw [pow2_eq]
        norm_cast
      rw [h3] at h2
      have h4 : |q| / 2 ^ 53 + 1 / 2 ^ 1075 ≤ 2 ^ 60 := by
        have : |q| / 2 ^ 53 ≤ |q| := div_le_self habs.le (by norm_num)
        have : (1 : ℚ) / 2 ^ 1075 ≤ 1 := by
          rw [div_le_iff₀ (by positivity)]
          norm_num
        have : (1 : ℚ) + 2 ^ 60 ≤ 2 ^ 61 := by norm_num
        nlinarith
      have h5 : (2 : ℚ) ^ 60 + 2 ^ 60 = 2 ^ 61 := by norm_num
      linarith [le_trans herr hbound]
    refine ⟨(roundHalfEven (q / pow2 e) : ℚ) * pow2 e, ?_, le_trans herr hbound⟩
    unfold binary64
    simp only [h0, if_false, ← he]
    rw [if_neg (not_le.mpr hvlt)]


theorem binary64_err_small (q : ℚ) (B K : ℚ) (hB : |q| ≤ B) (hB60 : B ≤ 2 ^ 60)
    (hK : B / 2 ^ 53 + 1 / 2 ^ 1075 ≤ K) :
    ∃ v : ℚ, binary64 q = .fin v ∧ |v - q| ≤ K := by
  obtain ⟨v, e, b⟩ := binary64_err q (le_trans hB hB60)
  refine ⟨v, e, le_trans b (le_trans ?_ hK)⟩
  have : |q| / 2 ^ 53 ≤ B / 2 ^ 53 := div_le_div_of_nonneg_right hB (by positivity)
  linarith

set_option maxHeartbeats 2000000 in
theorem round4_err (x : ℚ) (hx : |x| ≤ 2 * 10 ^ 10) :
    ∃ w : ℚ, round4 (.fin x) = .fin w ∧ |w - x| ≤ 6 / 10 ^ 5 := by
  have hEps : EPSILON = 1 / 2 ^ 52 := rfl
  have hx2 := abs_le.mp hx
  obtain ⟨a, ea, ba⟩ := binary64_err_small (x + EPSILON) (2 * 10 ^ 10 + 1) (24 / 10 ^ 7)
    (by
      rw [abs_le, hEps]
      constructor
      · have : (0 : ℚ) ≤ 1 / 2 ^ 52 := by positivity
        linarith [hx2.1]
      · have : (1 : ℚ) / 2 ^ 52 ≤ 1 := by norm_num
        linarith [hx2.2])
    (by norm_num) (by norm_num)
  have ba2 := abs_le.mp ba
  have hE7 : EPSILON ≤ 1 / 10 ^ 7 := by rw [hEps]; norm_num
  have hE0 : 0 ≤ EPSILON := by rw [hEps]; positivity
  obtain ⟨m, em, bm⟩ := binary64_err_small (a * 10000) ((2 * 10 ^ 10 + 1) * 10000) (224 / 10 ^ 4)
    (by
      rw [abs_le]
      constructor <;> nlinarith [ba2.1, ba2.2, hx2.1, hx2.2])
    (by norm_num) (by norm_num)
  have bm2 := abs_le.mp bm
  have hr1 := Int.floor_le (m + 1 / 2)
  have hr2 := Int.lt_floor_add_one (m + 1 / 2)
  obtain ⟨w, ew, bw⟩ := binary64_err_small (((⌊m + 1 / 2⌋ : Int) : ℚ) / 10000)
    (2 * 10 ^ 10 + 1) (24 / 10 ^ 7)
    (by
      rw [abs_le]
      constructor
      · rw [le_div_iff₀ (by norm_num)]
        nlinarith [ba2.1, ba2.2, hx2.1, hx2.2, bm2.1, bm2.2]
      · rw [div_le_iff₀ (by norm_num)]
        nlinarith [ba2.1, ba2.2, hx2.1, hx2.2, bm2.1, bm2.2])
    (by norm_num) (by norm_num)
  have bw2 := abs_le.mp bw
  refine ⟨w, ?_, ?_⟩
  · simp only [round4, JSNum.add, ea, JSNum.mulBy, em, mathRound, JSNum.divBy, ew]
  · have hq : ((⌊m + 1 / 2⌋ : Int) : ℚ) / 10000 - x ≤ 5474 / 10 ^ 8 := by
      rw [sub_le_iff_le_add, div_le_iff₀ (by norm_num)]
      nlinarith [ba2.1, ba2.2, bm2.1, bm2.2]
    have hq2 : -(5474 / 10 ^ 8) ≤ ((⌊m + 1 / 2⌋ : Int) : ℚ) / 10000 - x := by
      rw [le_sub_iff_add_le, le_div_iff₀ (by norm_num)]
      nlinarith [ba2.1, ba2.2, bm2.1, bm2.2]
    rw [abs_le]
    constructor <;> linarith [bw2.1, bw2.2]

/-- The net figure of an accepted draft with bounded offsets, total and cost: the row holds
the texts of the duration, the cost and a net within 0.0001 of their difference. -/
theorem committed_net_bound (today : Str) (db : DB) (book : Book) (draft : Draft) (c : ℚ)
    (hacc : (committedKey (commitEntry today db book draft)).isSome = true)
    (hoff : OffsetsBelow52 draft.timeRanges)
    (hbound : (draft.timeRanges.filterMap countedMinutes).sum < 10 ^ 12)
    (hcost : draftCost draft = .fin c) (hc : c ≤ 10 ^ 10) :
    ∃ (text : Str) (net : ℚ),
      committedField (commitEntry today db book draft) "Duration_h".toList = some text ∧
      IsFourDecimals text
        (halfUp4 ((((draft.timeRanges.filterMap countedMinutes).sum : Int) : ℚ) / 60)) ∧
      committedField (commitEntry today db book draft) "Cost_h".toList =
        some (numberToString (.fin c)) ∧
      committedField (commitEntry today db book draft) "Net_h".toList =
        some (numberToString (.fin net)) ∧
      |net - (halfUp4 ((((draft.timeRanges.filterMap countedMinutes).sum : Int) : ℚ) / 60) - c)|
        < 1 / 10000 := by
  have hlt53 : (draft.timeRanges.filterMap countedMinutes).sum < 2 ^ 53 := by
    have : (10 : Int) ^ 12 < 2 ^ 53 := by norm_num
    omega
  have ht := computeDurationHours_total draft.timeRanges hoff hlt53
  have hguard : ¬ ((computeDurationHours draft.timeRanges).hasOpen = true ∨
      (computeDurationHours draft.timeRanges).durH.leZero = true ∨
      (draftCost draft).isNaN = true ∨ (draftCost draft).ltZero = true) := by
    intro h
    obtain ⟨msg, hm⟩ := commitEntry_rejected today db book draft h
    rw [hm] at hacc
    simp [committedKey] at hacc
  simp only [not_or, Bool.not_eq_true] at hguard
  obtain ⟨key, row, out, ho, hres, _, _, _, _, hD, hC, hN⟩ :=
    commitEntry_accepted today db book draft hguard.1 hguard.2.1 hguard.2.2.1 hguard.2.2.2
  have hfield : ∀ k, committedField (commitEntry today db book draft) k = objGet row k := by
    intro k
    rw [ho]
    simp only [committedField, hres]
  have hdurH : (computeDurationHours draft.timeRanges).durH =
      round4 ((computeDurationHours draft.timeRanges).totalMin.divBy 60) := rfl
  rw [ht] at hdurH
  have hnn := totalMin_nonneg draft.timeRanges
  have hpos : 0 < (draft.timeRanges.filterMap countedMinutes).sum := by
    rcases lt_or_eq_of_le hnn with h | h
    · exact h
    · exfalso
      rw [← h, round4_zero_minutes] at hdurH
      have := hguard.2.1
      rw [hdurH] at this
      simp [JSNum.leZero] at this
  obtain ⟨v, hv, hv0, hv21, hfl, hvD⟩ :=
    round4_minutes (draft.timeRanges.filterMap countedMinutes).sum hpos hbound
  have hc0 : 0 ≤ c := by
    have := hguard.2.2.2
    rw [hcost] at this
    simpa [JSNum.ltZero] using this
  have hz : 0 ≤ (1000 * (draft.timeRanges.filterMap countedMinutes).sum + 3) / 6 := by omega
  obtain ⟨z, hzeq⟩ := Int.eq_ofNat_of_zero_le hz
  have hz17 : (z : ℚ) ≤ 17 * 10 ^ 13 := by
    have : (1000 * (draft.timeRanges.filterMap countedMinutes).sum + 3) / 6 ≤
        17 * (10 : Int) ^ 13 := by omega
    rw [hzeq] at this
    exact_mod_cast this
  have hz0 : (0 : ℚ) ≤ (z : ℚ) := by positivity
  rw [hzeq, Int.cast_natCast] at hvD
  have hvD2 := abs_le.mp hvD
  -- the difference and its rounding
  obtain ⟨d, ed, bd⟩ := binary64_err_small (v - c) (2 * 10 ^ 10) (24 / 10 ^ 7)
    (by
      rw [abs_le]
      constructor <;> nlinarith [hvD2.1, hvD2.2])
    (by norm_num) (by norm_num)
  have bd2 := abs_le.mp bd
  obtain ⟨net, en, bn⟩ := round4_err d
    (by
      rw [abs_le]
      constructor <;> nlinarith [hvD2.1, hvD2.2, bd2.1, bd2.2])
  have bn2 := abs_le.mp bn
  have hnet : round4 ((computeDurationHours draft.timeRanges).durH.sub (draftCost draft)) =
      .fin net := by
    rw [hdurH, hv, hcost]
    simp only [JSNum.sub, ed, en]
  rw [hnet] at hN
  rw [hcost] at hC
  rw [hdurH, hv] at hD
  refine ⟨_, net, (hfield _).trans hD, ?_, (hfield _).trans hC, (hfield _).trans hN, ?_⟩
  · rw [halfUp4_div60, hzeq, Int.cast_natCast]
    rw [hzeq] at hfl
    exact toFixed4_shape v z hv0.le hv21 hfl
  · rw [halfUp4_div60, hzeq, Int.cast_natCast, abs_lt]
    constructor <;> linarith [hvD2.1, hvD2.2, bd2.1, bd2.2, bn2.1, bn2.2]

/-! ## Claim on the net figure of a committed row -/

/-- C7, counterexample. The draft whose only range is 0h00 -> 3h42 with cost `1e305` is
accepted and its row holds `Duration_h` `3.7000`, `Cost_h` `1e+305` and `Net_h`
`-Infinity`: read back, `Net_h` is minus infinity, while `Duration_h - Cost_h` is the
finite number that `-1e+305` reads as. With cost `1000000000000000` the row holds `Net_h`
`-999999999999996.4`, where 3.7 - 1000000000000000 is -999999999999996.3 and the binary64
difference of the two fields is written `-999999999999996.2`. -/
theorem commit_net_not_difference :
    (committedKey (commitEntry sampleToday (sampleStore (rangeDraft 222 "1e305".toList))
        sampleBook (rangeDraft 222 "1e305".toList))).isSome = true ∧
      committedField (commitEntry sampleToday (sampleStore (rangeDraft 222 "1e305".toList))
        sampleBook (rangeDraft 222 "1e305".toList)) "Duration_h".toList =
          some "3.7000".toList ∧
      committedField (commitEntry sampleToday (sampleStore (rangeDraft 222 "1e305".toList))
        sampleBook (rangeDraft 222 "1e305".toList)) "Cost_h".toList = some "1e+305".toList ∧
      committedField (commitEntry sampleToday (sampleStore (rangeDraft 222 "1e305".toList))
        sampleBook (rangeDraft 222 "1e305".toList)) "Net_h".toList =
          some "-Infinity".toList ∧
      parseFloat "-Infinity".toList = .inf true ∧
      (parseFloat "3.7000".toList).sub (parseFloat "1e+305".toList) =
        parseFloat "-1e+305".toList ∧
      parseFloat "-1e+305".toList ≠ .inf true ∧
      (committedKey (commitEntry sampleToday
        (sampleStore (rangeDraft 222 "1000000000000000".toList))
        sampleBook (rangeDraft 222 "1000000000000000".toList))).isSome = true ∧
      committedField (commitEntry sampleToday
        (sampleStore (rangeDraft 222 "1000000000000000".toList))
        sampleBook (rangeDraft 222 "1000000000000000".toList)) "Duration_h".toList =
          some "3.7000".toList ∧
      committedField (commitEntry sampleToday
        (sampleStore (rangeDraft 222 "1000000000000000".toList))
        sampleBook (rangeDraft 222 "1000000000000000".toList)) "Cost_h".toList =
          some "1000000000000000".toList ∧
      committedField (commitEntry sampleToday
        (sampleStore (rangeDraft 222 "1000000000000000".toList))
        sampleBook (rangeDraft 222 "1000000000000000".toList)) "Net_h".toList =
          some "-999999999999996.4".toList ∧
      numberToString
        ((parseFloat "3.7000".toList).sub (parseFloat "1000000000000000".toList)) =
          "-999999999999996.2".toList ∧
      (37 : ℚ) / 10 - 1000000000000000 = -9999999999999963 / 10 := by
  decide!

/-- C7, amended. For every draft that `commitEntry` accepts, whose offsets are below 2^52
in size, whose total is below 10^12 minutes and whose cost is a finite number `c` of at
most 10^10, the row holds as `Duration_h` a text with an integer part and four decimal
digits whose value `D` is the total divided by 60 and rounded at the 4th decimal, as
`Cost_h` the text `String(c)` and as `Net_h` the text `String(net)` of a finite number
`net` that differs from `D - c` by less than 0.0001. The draft whose only range is
0h00 -> 2h05 with cost `0.5` commits with `Duration_h` `2.0833`, `Cost_h` `0.5` and
`Net_h` `1.5833`. -/
theorem committed_net (today : Str) (db : DB) (book : Book) (draft : Draft) (c : ℚ)
    (hacc : (committedKey (commitEntry today db book draft)).isSome = true)
    (hoff : OffsetsBelow52 draft.timeRanges)
    (hbound : (draft.timeRanges.filterMap countedMinutes).sum < 10 ^ 12)
    (hcost : draftCost draft = .fin c) (hc : c ≤ 10 ^ 10) :
    (∃ (text : Str) (net : ℚ),
      committedField (commitEntry today db book draft) "Duration_h".toList = some text ∧
      IsFourDecimals text
        (halfUp4 ((((draft.timeRanges.filterMap countedMinutes).sum : Int) : ℚ) / 60)) ∧
      committedField (commitEntry today db book draft) "Cost_h".toList =
        some (numberToString (.fin c)) ∧
      committedField (commitEntry today db book draft) "Net_h".toList =
        some (numberToString (.fin net)) ∧
      |net - (halfUp4 ((((draft.timeRanges.filterMap countedMinutes).sum : Int) : ℚ) / 60) - c)|
        < 1 / 10000) ∧
      committedField (commitEntry sampleToday (sampleStore (rangeDraft 125 "0.5".toList))
        sampleBook (rangeDraft 125 "0.5".toList)) "Duration_h".toList =
          some "2.0833".toList ∧
      committedField (commitEntry sampleToday (sampleStore (rangeDraft 125 "0.5".toList))
        sampleBook (rangeDraft 125 "0.5".toList)) "Cost_h".toList = some "0.5".toList ∧
      committedField (commitEntry sampleToday (sampleStore (rangeDraft 125 "0.5".toList))
        sampleBook (rangeDraft 125 "0.5".toList)) "Net_h".toList = some "1.5833".toList := by
  obtain ⟨text, net, h1, h2, h3, h4, h5⟩ :=
    committed_net_bound today db book draft c hacc hoff hbound hcost hc
  exact ⟨⟨text, net, h1, h2, h3, h4, h5⟩, by decide!, by decide!, by decide!⟩

theorem committed_net_witness :
    ∃ (text : Str) (net : ℚ),
      committedField (commitEntry sampleToday (sampleStore (rangeDraft 125 "0.5".toList))
        sampleBook (rangeDraft 125 "0.5".toList)) "Duration_h".toList = some text ∧
      IsFourDecimals text
        (halfUp4 (((((rangeDraft 125 "0.5".toList).timeRanges.filterMap
          countedMinutes).sum : Int) : ℚ) / 60)) ∧
      committedField (commitEntry sampleToday (sampleStore (rangeDraft 125 "0.5".toList))
        sampleBook (rangeDraft 125 "0.5".toList)) "Cost_h".toList =
          some (numberToString (.fin (1 / 2))) ∧
      committedField (commitEntry sampleToday (sampleStore (rangeDraft 125 "0.5".toList))
        sampleBook (rangeDraft 125 "0.5".toList)) "Net_h".toList =
          some (numberToString (.fin net)) ∧
      |net - (halfUp4 (((((rangeDraft 125 "0.5".toList).timeRanges.filterMap
          countedMinutes).sum : Int) : ℚ) / 60) - 1 / 2)| < 1 / 10000 :=
  (committed_net sampleToday (sampleStore (rangeDraft 125 "0.5".toList)) sampleBook
    (rangeDraft 125 "0.5".toList) (1 / 2) (by decide!)
    (by
      intro r hr
      simp only [rangeDraft, sampleDraft, List.mem_singleton] at hr
      rw [hr]
      refine ⟨fun i hi => ?_, fun i hi => ?_⟩ <;>
        simp only [Option.some.injEq] at hi <;> rw [← hi] <;> decide)
    (by decide) (by decide!) (by norm_num)).1

/-! ## Claims on durations -/

/-- C8 (as the code has it): for every list of time ranges the open flag of
`computeDurationHours` says that some range has a set start and an unset end, and, when
every offset is below 2^52 in size and the counted minutes sum to less than 2^53 (the range
in which binary64 numbers hold every integer), the total is the sum of `end - start` over
exactly the ranges whose start and end are both set with the end not before the start: a
range with unset start is ignored, an open one adds nothing and an inverted one adds 0
without being flagged.  Hence a draft whose only range is 10h00 -> 9h00 (read as 600 and 540
minutes) has total 0, no open range and duration 0, and `commitEntry` refuses it because
the duration is not above 0, leaving the store and the draft as they were. -/
theorem duration_total (ranges : List TimeRange) :
    (computeDurationHours ranges).hasOpen = ranges.any isOpenRange ∧
      (OffsetsBelow52 ranges → (ranges.filterMap countedMinutes).sum < 2 ^ 53 →
        (computeDurationHours ranges).totalMin =
          .fin (((ranges.filterMap countedMinutes).sum : Int) : ℚ)) ∧
      (∀ e : Option Int, countedMinutes ⟨none, e⟩ = none ∧ isOpenRange ⟨none, e⟩ = false) ∧
      (∀ s : Int, countedMinutes ⟨some s, none⟩ = none ∧ isOpenRange ⟨some s, none⟩ = true) ∧
      (∀ s e : Int, e < s →
        countedMinutes ⟨some s, some e⟩ = none ∧ isOpenRange ⟨some s, some e⟩ = false) ∧
      (∀ s e : Int, s ≤ e → countedMinutes ⟨some s, some e⟩ = some (e - s)) ∧
      parseHhMm "10h00".toList = some 600 ∧ parseHhMm "9h00".toList = some 540 ∧
      computeDurationHours [⟨some 600, some 540⟩] =
        { totalMin := .fin 0, hasOpen := false, durH := .fin 0 } ∧
      (∀ (today : Str) (db : DB) (book : Book) (draft : Draft),
        commitEntry today db book { draft with timeRanges := [⟨some 600, some 540⟩] } =
          some { db := db, draft := { draft with timeRanges := [⟨some 600, some 540⟩] },
                 result := .rejected
                   "Duration is 0. Add at least one valid closed range before committing.".toList
               }) := by
  have hd : computeDurationHours [⟨some 600, some 540⟩] =
      { totalMin := .fin 0, hasOpen := false, durH := .fin 0 } := by decide!
  refine ⟨computeDurationHours_open ranges, computeDurationHours_total ranges, ?_, ?_, ?_,
    ?_, by decide!, by decide!, hd, ?_⟩
  · intro e
    cases e <;> simp [countedMinutes, isOpenRange]
  · intro s
    simp [countedMinutes, isOpenRange]
  · intro s e h
    have : ¬ s ≤ e := by omega
    simp [countedMinutes, isOpenRange, this]
  · intro s e h
    simp [countedMinutes, h]
  · intro today db book draft
    simp only [commitEntry, hd]
    simp [JSNum.leZero]

theorem duration_total_witness :
    (computeDurationHours [⟨some 600, some 540⟩, ⟨some 1517, some 1739⟩]).totalMin =
        .fin (((([⟨some 600, some 540⟩, ⟨some 1517, some 1739⟩] : List TimeRange).filterMap
          countedMinutes).sum : Int) : ℚ) ∧
      countedMinutes ⟨some 600, some 540⟩ = none ∧ isOpenRange ⟨some 600, some 540⟩ = false :=
  ⟨(duration_total [⟨some 600, some 540⟩, ⟨some 1517, some 1739⟩]).2.1
      (by
        intro r hr
        simp only [List.mem_cons, List.mem_singleton, List.not_mem_nil, or_false] at hr
        rcases hr with h | h <;> rw [h] <;> refine ⟨fun i hi => ?_, fun i hi => ?_⟩ <;>
          simp only [Option.some.injEq] at hi <;> rw [← hi] <;> decide)
      (by decide),
    (duration_total []).2.2.2.2.1 600 540 (by decide)⟩

/-- C8 as stated fails: the ranges 0h00 -> 150119987579016h32 (2^53 minutes) and
0h00 -> 0h01 are both closed with the end after the start, their minutes sum to 2^53 + 1,
and the total `computeDurationHours` returns is 2^53: the second range adds nothing to the
binary64 total. -/
theorem duration_total_rounds :
    parseHhMm "150119987579016h32".toList = some 9007199254740992 ∧
      parseHhMm "0h01".toList = some 1 ∧
      (longRanges.filterMap countedMinutes).sum = 9007199254740993 ∧
      (computeDurationHours longRanges).totalMin = .fin 9007199254740992 ∧
      (computeDurationHours longRanges).hasOpen = false := by
  decide!

/-- C9, counterexample. The draft whose only range is 0h00 -> 1000000000000h01
(60000000000001 minutes) with cost `0` is accepted and its `Duration_h` is written as
`1000000000000.0168`, where the total divided by 60 and rounded half-up at the 4th decimal
is 1000000000000.0167; the range 0h00 -> 1024000000000000000000h00 commits with
`Duration_h` `1.024e+21`, with no four decimal digits; and the range 0h00 -> 2h05 with
cost `0.00125` commits with `Duration_h` `2.0833` and `Net_h` `2.082`, where the exact
difference 2.08205 rounded half-up is 2.0821. -/
theorem commit_duration_text_rounds :
    parseHhMm "1000000000000h01".toList = some 60000000000001 ∧
      committedField (commitEntry sampleToday (sampleStore (rangeDraft 60000000000001 ['0']))
        sampleBook (rangeDraft 60000000000001 ['0'])) "Duration_h".toList =
          some "1000000000000.0168".toList ∧
      halfUp4 ((60000000000001 : ℚ) / 60) = 10000000000000167 / 10000 ∧
      parseHhMm "1024000000000000000000h00".toList = some 61440000000000000000000 ∧
      committedField (commitEntry sampleToday
        (sampleStore (rangeDraft 61440000000000000000000 ['0'])) sampleBook
        (rangeDraft 61440000000000000000000 ['0'])) "Duration_h".toList =
          some "1.024e+21".toList ∧
      parseHhMm "2h05".toList = some 125 ∧
      committedField (commitEntry sampleToday (sampleStore (rangeDraft 125 "0.00125".toList))
        sampleBook (rangeDraft 125 "0.00125".toList)) "Duration_h".toList =
          some "2.0833".toList ∧
      committedField (commitEntry sampleToday (sampleStore (rangeDraft 125 "0.00125".toList))
        sampleBook (rangeDraft 125 "0.00125".toList)) "Net_h".toList = some "2.082".toList ∧
      halfUp4 ((20833 : ℚ) / 10000 - 125 / 100000) = 20821 / 10000 := by
  decide!

/-- C9, amended. For every draft that `commitEntry` accepts, whose offsets are below 2^52
in size and whose total is below 10^12 minutes, the total is the exact sum of the counted
minutes and `Duration_h` is that total divided by 60 and rounded to 4 decimal places, a
half at the 4th decimal going up, written with an integer part and exactly four decimal
digits; when the cost is a finite number `c` of at most 10^10, `Net_h` is `String(net)` for
a finite number `net` within 0.0001 of that `Duration_h` minus `c`; in particular the draft
whose only range is 25h17 -> 28h59 (read as 1517 and 1739 minutes) with cost `0` commits
with `Duration_h` `3.7000` and `Net_h` `3.7`. -/
theorem committed_duration_text (today : Str) (db : DB) (book : Book) (draft : Draft)
    (hacc : (committedKey (commitEntry today db book draft)).isSome = true)
    (hoff : OffsetsBelow52 draft.timeRanges)
    (hbound : (draft.timeRanges.filterMap countedMinutes).sum < 10 ^ 12) :
    (computeDurationHours draft.timeRanges).totalMin =
        .fin (((draft.timeRanges.filterMap countedMinutes).sum : Int) : ℚ) ∧
      (∃ text : Str,
        committedField (commitEntry today db book draft) "Duration_h".toList = some text ∧
        IsFourDecimals text
          (halfUp4 ((((draft.timeRanges.filterMap countedMinutes).sum : Int) : ℚ) / 60))) ∧
      (∀ c : ℚ, draftCost draft = .fin c → c ≤ 10 ^ 10 →
        ∃ net : ℚ,
          committedField (commitEntry today db book draft) "Net_h".toList =
            some (numberToString (.fin net)) ∧
          |net - (halfUp4
            ((((draft.timeRanges.filterMap countedMinutes).sum : Int) : ℚ) / 60) - c)|
              < 1 / 10000) ∧
      parseHhMm "25h17".toList = some 1517 ∧ parseHhMm "28h59".toList = some 1739 ∧
      committedField (commitEntry sampleToday
        (sampleStore (sampleDraft [⟨some 1517, some 1739⟩] ['0'])) sampleBook
        (sampleDraft [⟨some 1517, some 1739⟩] ['0'])) "Duration_h".toList =
          some "3.7000".toList ∧
      committedField (commitEntry sampleToday
        (sampleStore (sampleDraft [⟨some 1517, some 1739⟩] ['0'])) sampleBook
        (sampleDraft [⟨some 1517, some 1739⟩] ['0'])) "Net_h".toList = some "3.7".toList := by
  have hlt53 : (draft.timeRanges.filterMap countedMinutes).sum < 2 ^ 53 := by
    have : (10 : Int) ^ 12 < 2 ^ 53 := by norm_num
    omega
  have ht := computeDurationHours_total draft.timeRanges hoff hlt53
  have hguard : ¬ ((computeDurationHours draft.timeRanges).hasOpen = true ∨
      (computeDurationHours draft.timeRanges).durH.leZero = true ∨
      (draftCost draft).isNaN = true ∨ (draftCost draft).ltZero = true) := by
    intro h
    obtain ⟨msg, hm⟩ := commitEntry_rejected today db book draft h
    rw [hm] at hacc
    simp [committedKey] at hacc
  simp only [not_or, Bool.not_eq_true] at hguard
  obtain ⟨key, row, out, ho, hres, _, _, _, _, hD, _, hN⟩ :=
    commitEntry_accepted today db book draft hguard.1 hguard.2.1 hguard.2.2.1 hguard.2.2.2
  have hfield : ∀ k, committedField (commitEntry today db book draft) k = objGet row k := by
    intro k
    rw [ho]
    simp only [committedField, hres]
  have hdurH : (computeDurationHours draft.timeRanges).durH =
      round4 ((computeDurationHours draft.timeRanges).totalMin.divBy 60) := rfl
  rw [ht] at hdurH
  have hnn := totalMin_nonneg draft.timeRanges
  have hpos : 0 < (draft.timeRanges.filterMap countedMinutes).sum := by
    rcases lt_or_eq_of_le hnn with h | h
    · exact h
    · exfalso
      rw [← h, round4_zero_minutes] at hdurH
      have := hguard.2.1
      rw [hdurH] at this
      simp [JSNum.leZero] at this
  obtain ⟨v, hv, hv0, hv21, hfl, _⟩ :=
    round4_minutes (draft.timeRanges.filterMap countedMinutes).sum hpos hbound
  refine ⟨ht, ⟨_, (hfield _).trans hD, ?_⟩, ?_, by decide!, by decide!, by decide!,
    by decide!⟩
  swap
  · intro c hcost hc
    obtain ⟨_, net, _, _, _, h4, h5⟩ :=
      committed_net_bound today db book draft c hacc hoff hbound hcost hc
    exact ⟨net, h4, h5⟩
  rw [hdurH, hv, halfUp4_div60]
  have hz : 0 ≤ (1000 * (draft.timeRanges.filterMap countedMinutes).sum + 3) / 6 := by omega
  obtain ⟨z, hzeq⟩ := Int.eq_ofNat_of_zero_le hz
  rw [hzeq] at hfl ⊢
  rw [Int.cast_natCast]
  exact toFixed4_shape v z hv0.le hv21 hfl

theorem committed_duration_text_witness :
    (computeDurationHours (sampleDraft [⟨some 1517, some 1739⟩] ['0']).timeRanges).totalMin =
        .fin ((((sampleDraft [⟨some 1517, some 1739⟩] ['0']).timeRanges.filterMap
          countedMinutes).sum : Int) : ℚ) ∧
      (∃ text : Str,
        committedField (commitEntry sampleToday
          (sampleStore (sampleDraft [⟨some 1517, some 1739⟩] ['0'])) sampleBook
          (sampleDraft [⟨some 1517, some 1739⟩] ['0'])) "Duration_h".toList = some text ∧
        IsFourDecimals text (halfUp4 (((((sampleDraft [⟨some 1517, some 1739⟩]
          ['0']).timeRanges.filterMap countedMinutes).sum : Int) : ℚ) / 60))) ∧
      ∃ net : ℚ,
        committedField (commitEntry sampleToday
          (sampleStore (sampleDraft [⟨some 1517, some 1739⟩] ['0'])) sampleBook
          (sampleDraft [⟨some 1517, some 1739⟩] ['0'])) "Net_h".toList =
            some (numberToString (.fin net)) ∧
        |net - (halfUp4 (((((sampleDraft [⟨some 1517, some 1739⟩]
          ['0']).timeRanges.filterMap countedMinutes).sum : Int) : ℚ) / 60) - 0)|
            < 1 / 10000 :=
  ⟨(committed_duration_text sampleToday
      (sampleStore (sampleDraft [⟨some 1517, some 1739⟩] ['0'])) sampleBook
      (sampleDraft [⟨some 1517, some 1739⟩] ['0']) (by decide!)
      (by
        intro r hr
        simp only [sampleDraft, List.mem_singleton] at hr
        rw [hr]
        refine ⟨fun i hi => ?_, fun i hi => ?_⟩ <;>
          simp only [Option.some.injEq] at hi <;> rw [← hi] <;> decide)
      (by decide)).1,
    (committed_duration_text sampleToday
      (sampleStore (sampleDraft [⟨some 1517, some 1739⟩] ['0'])) sampleBook
      (sampleDraft [⟨some 1517, some 1739⟩] ['0']) (by decide!)
      (by
        intro r hr
        simp only [sampleDraft, List.mem_singleton] at hr
        rw [hr]
        refine ⟨fun i hi => ?_, fun i hi => ?_⟩ <;>
          simp only [Option.some.injEq] at hi <;> rw [← hi] <;> decide)
      (by decide)).2.1,
    (committed_duration_text sampleToday
      (sampleStore (sampleDraft [⟨some 1517, some 1739⟩] ['0'])) sampleBook
      (sampleDraft [⟨some 1517, some 1739⟩] ['0']) (by decide!)
      (by
        intro r hr
        simp only [sampleDraft, List.mem_singleton] at hr
        rw [hr]
        refine ⟨fun i hi => ?_, fun i hi => ?_⟩ <;>
          simp only [Option.some.injEq] at hi <;> rw [← hi] <;> decide)
      (by decide)).2.2.1 0 (by decide!) (by norm_num)⟩

/-! ## Identifier derivation -/

theorem collapseRuns_eq_spec (s : Str) :
    collapseRuns false s = collapseSpec s ∧
      collapseRuns true s = collapseSpec (s.dropWhile (fun d => !isLowerAlnum d)) := by
  induction s with
  | nil => constructor <;> simp [collapseRuns, collapseSpec]
  | cons c rest ih =>
    by_cases hc : isLowerAlnum c = true
    · constructor
      · rw [collapseSpec]
        simp [collapseRuns, hc, ih.1]
      · rw [List.dropWhile_cons]
        simp only [hc, Bool.not_true, Bool.false_eq_true, if_false]
        rw [collapseSpec]
        simp [collapseRuns, hc, ih.1]
    · have hc2 : isLowerAlnum c = false := by simpa using hc
      constructor
      · rw [collapseSpec]
        simp [collapseRuns, hc2, ih.2]
      · rw [List.dropWhile_cons]
        simp [collapseRuns, hc2, ih.2]

/-- A character of the alphabet of identifiers: `a` to `z`, a digit, or the underscore. -/
theorem collapseRuns_chars (b : Bool) (s : Str) :
    ∀ c ∈ collapseRuns b s, isLowerAlnum c = true ∨ c = '_' := by
  induction s generalizing b with
  | nil => simp [collapseRuns]
  | cons d rest ih =>
    intro c hc
    by_cases hd : isLowerAlnum d = true
    · simp only [collapseRuns, hd, if_true, List.mem_cons] at hc
      rcases hc with rfl | hc
      · exact Or.inl hd
      · exact ih false c hc
    · cases b with
      | true =>
        simp only [collapseRuns, hd, if_false, if_true] at hc
        exact ih true c hc
      | false =>
        simp only [collapseRuns, hd, if_false, Bool.false_eq_true, List.mem_cons] at hc
        rcases hc with rfl | hc
        · exact Or.inr rfl
        · exact ih true c hc

theorem isLowerAlnum_underscore : isLowerAlnum '_' = false := by decide

theorem collapseRuns_noDouble (s : Str) :
    ∀ b : Bool, NoDoubleUnderscore (collapseRuns b s) ∧
      (b = true → (collapseRuns b s).head? ≠ some '_') := by
  induction s with
  | nil => intro b; simp [collapseRuns, NoDoubleUnderscore]
  | cons d rest ih =>
    intro b
    by_cases hd : isLowerAlnum d = true
    · have hne : d ≠ '_' := by
        intro h
        rw [h, isLowerAlnum_underscore] at hd
        exact Bool.false_ne_true hd
      simp only [collapseRuns, hd, if_true]
      refine ⟨?_, fun _ => by simp [hne]⟩
      unfold NoDoubleUnderscore
      rw [List.chain'_cons']
      refine ⟨?_, (ih false).1⟩
      intro y _ h
      exact hne h.1
    · cases b with
      | true =>
        have hd2 : isLowerAlnum d = false := by simpa using hd
        simp only [collapseRuns, hd2, Bool.false_eq_true, if_false, if_true]
        exact ⟨(ih true).1, fun _ => (ih true).2 rfl⟩
      | false =>
        simp only [collapseRuns, hd, if_false, Bool.false_eq_true]
        refine ⟨?_, fun h => by simp at h⟩
        unfold NoDoubleUnderscore
        rw [List.chain'_cons']
        refine ⟨?_, (ih true).1⟩
        intro y hy h
        exact (ih true).2 rfl (by rw [hy, h.2])

theorem stripUnderscores_eq (s : Str) :
    stripUnderscores s = (s.dropWhile (· == '_')).rdropWhile (· == '_') := rfl

theorem stripUnderscores_inside (s : Str) : stripUnderscores s <:+: s := by
  rw [stripUnderscores_eq]
  exact (List.rdropWhile_prefix _ _).isInfix.trans (List.dropWhile_suffix _).isInfix

theorem stripUnderscores_head (s : Str) : (stripUnderscores s).head? ≠ some '_' := by
  rw [stripUnderscores_eq]
  intro h
  have hpre : (s.dropWhile (· == '_')).rdropWhile (· == '_') <+: s.dropWhile (· == '_') :=
    List.rdropWhile_prefix _ _
  obtain ⟨t, ht⟩ := hpre
  cases hr : (s.dropWhile (· == '_')).rdropWhile (· == '_') with
  | nil => rw [hr] at h; simp at h
  | cons a as =>
    rw [hr] at h ht
    simp only [List.head?_cons, Option.some.injEq] at h
    have h2 := List.head?_dropWhile_not (· == '_') s
    rw [← ht] at h2
    simp [h] at h2

theorem stripUnderscores_last (s : Str) : (stripUnderscores s).getLast? ≠ some '_' := by
  rw [stripUnderscores_eq]
  intro h
  have hne : (s.dropWhile (· == '_')).rdropWhile (· == '_') ≠ [] := by
    intro h0
    rw [h0] at h
    simp at h
  have := List.rdropWhile_last_not (· == '_') (s.dropWhile (· == '_')) hne
  rw [List.getLast?_eq_getLast _ hne] at h
  simp only [Option.some.injEq] at h
  rw [h] at this
  simp at this

/-- C11. The function `normalizeId` is total and deterministic (it is a function of its
argument): it trims and lower-cases its input, removes apostrophes, replaces every maximal
run of characters outside `[a-z0-9]` by a single underscore (`collapseSpec`) and strips
underscores from both ends.  For every input the result contains only the letters `a` to
`z`, digits and underscores, never two underscores in a row and never an underscore at
either end; the empty and the absent input give the empty string, and `  O'Brien & Sons! `
gives `obrien_sons`. -/
theorem normalizeId_shape (s : Str) :
    normalizeId s = stripUnderscores (collapseSpec
        ((jsToLower (jsTrim s)).filter (fun c => !(c == '\'' || c == Char.ofNat 0x2019)))) ∧
      (∀ c ∈ normalizeId s, isLowerAlnum c = true ∨ c = '_') ∧
      NoDoubleUnderscore (normalizeId s) ∧
      ¬ (['_', '_'] <:+: normalizeId s) ∧
      (normalizeId s).head? ≠ some '_' ∧
      (normalizeId s).getLast? ≠ some '_' ∧
      normalizeId [] = [] ∧ normalizeIdArg none = [] ∧ normalizeIdArg (some []) = [] ∧
      normalizeIdArg (some s) = normalizeId s ∧
      normalizeId "  O'Brien & Sons! ".toList = "obrien_sons".toList := by
  have hchain : NoDoubleUnderscore (normalizeId s) :=
    List.Chain'.infix (collapseRuns_noDouble _ false).1 (stripUnderscores_inside _)
  refine ⟨?_, ?_, hchain, ?_, stripUnderscores_head _, stripUnderscores_last _, by decide,
    by decide, by decide, ?_, by decide⟩
  · unfold normalizeId
    rw [(collapseRuns_eq_spec _).1]
  · intro c hc
    exact collapseRuns_chars false _ c ((stripUnderscores_inside _).subset hc)
  · intro h
    have := List.Chain'.infix hchain h
    simp [List.chain'_cons] at this
  · unfold normalizeIdArg orElse
    by_cases h : s = []
    · simp [h]
    · simp [h]

/-- C12. For all franchise and subseries texts `deriveSeriesId` returns a value: the empty
string when the franchise is empty (so for the pair of the empty text and `x`),
`normalizeId(franchise)` when the franchise is present and the subseries empty, and
`normalizeId` of the franchise, a space and the subseries when both are present. -/
theorem deriveSeriesId_cases (franchise subseries : Str) :
    (franchise = [] → deriveSeriesId franchise subseries = []) ∧
      (franchise ≠ [] → subseries = [] →
        deriveSeriesId franchise subseries = normalizeId franchise) ∧
      (franchise ≠ [] → subseries ≠ [] →
        deriveSeriesId franchise subseries = normalizeId (franchise ++ [' '] ++ subseries)) ∧
      deriveSeriesId [] "x".toList = [] := by
  refine ⟨?_, ?_, ?_, by decide⟩
  · intro h
    simp [deriveSeriesId, h]
  · intro h1 h2
    simp [deriveSeriesId, h1, h2]
  · intro h1 h2
    simp [deriveSeriesId, h1, h2]

theorem deriveSeriesId_cases_witness :
    deriveSeriesId "Dune".toList "Heroes".toList =
      normalizeId ("Dune".toList ++ [' '] ++ "Heroes".toList) :=
  (deriveSeriesId_cases "Dune".toList "Heroes".toList).2.2.1 (by decide) (by decide)

/-! ## Statistics engine -/

theorem bookStatsLoop_eq : ∀ (es : List Entry) (acc : Nat × JSNum × JSNum),
    bookStatsLoop es acc =
      (acc.1 + es.countP (fun e => isFinishedRow e.row),
       (es.map durationOf).foldl JSNum.add acc.2.1,
       (es.map costOf).foldl JSNum.add acc.2.2) := by
  intro es
  induction es with
  | nil => intro acc; simp [bookStatsLoop]
  | cons e rest ih =>
    intro acc
    by_cases h : isFinishedRow e.row = true
    · simp [bookStatsLoop, ih, h, durationOf, costOf, List.countP_cons_of_pos]
      omega
    · simp [bookStatsLoop, ih, h, durationOf, costOf]

theorem tolerantNumber_nan (v : Option Str) (h : parseFloat (orElse v ['0']) = .nan) :
    tolerantNumber v = .fin 0 := by
  simp [tolerantNumber, h, JSNum.orZero]

/-- C13 (as the code has it): for every set of entries and every catalog key,
`computeBookStats` returns as `reads` the number of the entries of that catalog item whose
status is finished (the status is lower-cased before it is compared, so `Finished` as the
commit writes it and `finished` both count), as `duration` and `cost` the binary64 sums of
`Duration_h` and `Cost_h` over all of those entries whatever their status, added in the
order of the store from 0 with every addition rounded to the nearest binary64 number, and
as `netOverall` the binary64 difference `duration - cost`; a `Duration_h` or `Cost_h` that
is missing, blank or not parseable counts as 0 (no error arises: the function returns a
value for every input), and for a catalog item with no entries every figure is 0. -/
theorem computeBookStats_eq (entries : List Entry) (bookKey : Str) :
    (computeBookStats entries bookKey).reads =
        (entriesOfBook entries bookKey).countP (fun e => isFinishedRow e.row) ∧
      (computeBookStats entries bookKey).duration =
        jsSum ((entriesOfBook entries bookKey).map durationOf) ∧
      (computeBookStats entries bookKey).cost =
        jsSum ((entriesOfBook entries bookKey).map costOf) ∧
      (computeBookStats entries bookKey).netOverall =
        (computeBookStats entries bookKey).duration.sub (computeBookStats entries bookKey).cost ∧
      (∀ e, e ∈ entriesOfBook entries bookKey ↔ e ∈ entries ∧ e.bookKey = bookKey) ∧
      (∀ v, parseFloat (orElse v ['0']) = .nan → tolerantNumber v = .fin 0) ∧
      tolerantNumber none = .fin 0 ∧ tolerantNumber (some []) = .fin 0 ∧
      tolerantNumber (some "n/a".toList) = .fin 0 ∧
      (∀ (xs : List JSNum) (x : JSNum), jsSum (xs ++ [x]) = (jsSum xs).add x) ∧
      (∀ a b : ℚ, (JSNum.fin a).add (.fin b) = binary64 (a + b)) ∧
      (∀ a b : ℚ, (JSNum.fin a).sub (.fin b) = binary64 (a - b)) ∧
      isFinishedRow [("Status".toList, "Finished".toList)] = true ∧
      isFinishedRow [("Status".toList, "finished".toList)] = true ∧
      isFinishedRow [("Status".toList, "Unfinished".toList)] = false ∧
      isFinishedRow [] = false ∧
      (entriesOfBook entries bookKey = [] →
        computeBookStats entries bookKey =
          { reads := 0, duration := .fin 0, cost := .fin 0, netOverall := .fin 0 }) := by
  refine ⟨?_, ?_, ?_, rfl, ?_, tolerantNumber_nan, by decide!, by decide!, by decide!,
    ?_, fun _ _ => rfl, fun _ _ => rfl, by decide, by decide, by decide, by decide, ?_⟩
  · simp [computeBookStats, bookStatsLoop_eq]
  · simp [computeBookStats, bookStatsLoop_eq, jsSum]
  · simp [computeBookStats, bookStatsLoop_eq, jsSum]
  · intro e
    simp [entriesOfBook, List.mem_filter]
  · intro xs x
    simp [jsSum, List.foldl_append]
  · intro h
    have h0 : (JSNum.fin 0).sub (.fin 0) = .fin 0 := by decide!
    simp [computeBookStats, h, bookStatsLoop, h0]

theorem computeBookStats_eq_witness :
    computeBookStats statsEntries "none".toList =
      { reads := 0, duration := .fin 0, cost := .fin 0, netOverall := .fin 0 } ∧
    (computeBookStats statsEntries "dune||Kindle".toList).reads = 1 ∧
    numberToString (computeBookStats statsEntries "dune||Kindle".toList).duration =
      "5.2".toList ∧
    numberToString (computeBookStats statsEntries "dune||Kindle".toList).cost = "2".toList ∧
    numberToString (computeBookStats statsEntries "dune||Kindle".toList).netOverall =
      "3.2".toList :=
  ⟨(computeBookStats_eq statsEntries "none".toList).2.2.2.2.2.2.2.2.2.2.2.2.2.2.2.2
      (by decide),
    by decide!, by decide!, by decide!, by decide!⟩

/-- C13 as stated fails: for the two entries with durations 0.3 and 0 and costs 0.1 and
0.2 the exact sums are 0.3 and 0.3 with difference 0, and `computeBookStats` returns the
cost 0.30000000000000004 and the net -2^-54, written `-5.551115123125783e-17`: a book
that is paid off exactly is reported as not paid off. -/
theorem computeBookStats_rounds :
    decimalEntries.map durationOf = [binary64 (3 / 10), .fin 0] ∧
      decimalEntries.map costOf = [binary64 (1 / 10), binary64 (2 / 10)] ∧
      ((3 : ℚ) / 10 + 0) - (1 / 10 + 2 / 10) = 0 ∧
      numberToString (computeBookStats decimalEntries "dune||Kindle".toList).duration =
        "0.3".toList ∧
      numberToString (computeBookStats decimalEntries "dune||Kindle".toList).cost =
        "0.30000000000000004".toList ∧
      (computeBookStats decimalEntries "dune||Kindle".toList).netOverall =
        .fin (-1 / 2 ^ 54) ∧
      numberToString (computeBookStats decimalEntries "dune||Kindle".toList).netOverall =
        "-5.551115123125783e-17".toList ∧
      (computeBookStats decimalEntries "dune||Kindle".toList).netOverall.ltZero = true := by
  decide!

theorem unitsLt_irrefl : ∀ a : List Nat, unitsLt a a = false := by
  intro a
  induction a with
  | nil => rfl
  | cons x xs ih => simp [unitsLt, ih]

theorem sumEntriesLoop_eq (from_ to_ : Str) : ∀ (es : List Entry) (acc : JSNum × JSNum),
    sumEntriesLoop from_ to_ es acc =
      (((es.filter (inWindow from_ to_)).map durationOf).foldl JSNum.add acc.1,
       ((es.filter (inWindow from_ to_)).map costOf).foldl JSNum.add acc.2) := by
  intro es
  induction es with
  | nil => intro acc; simp [sumEntriesLoop]
  | cons e rest ih =>
    intro acc
    have hw : dateInRange (effectiveDate e.row) from_ to_ = inWindow from_ to_ e := by
      unfold dateInRange inWindow jsStrGe jsStrLe
      by_cases hd : effectiveDate e.row = []
      · simp [hd]
      · simp [hd]
    by_cases h : inWindow from_ to_ e = true
    · simp [sumEntriesLoop, hw, h, ih, durationOf, costOf]
    · simp [sumEntriesLoop, hw, h, ih]

/-- C14 (as the code has it): for every set of entries and every pair of date strings
`from` and `to`, `sumEntries` returns as `dur` and `cost` the binary64 sums of `Duration_h`
and `Cost_h` over exactly the entries whose effective date (`DateStarted`, or
`DateFinished` when `DateStarted` is empty) is not empty and satisfies
`from <= date <= to` in the order of strings, both bounds included, added in the order of
the store from 0 with every addition rounded to the nearest binary64 number, and as `net`
the binary64 difference `dur - cost`; an entry with neither date is never counted, and a
window with no entry gives 0, 0 and 0. -/
theorem sumEntries_eq (entries : List Entry) (from_ to_ : Str) :
    (sumEntries entries from_ to_).dur =
        jsSum ((entries.filter (inWindow from_ to_)).map durationOf) ∧
      (sumEntries entries from_ to_).cost =
        jsSum ((entries.filter (inWindow from_ to_)).map costOf) ∧
      (sumEntries entries from_ to_).net =
        (sumEntries entries from_ to_).dur.sub (sumEntries entries from_ to_).cost ∧
      (∀ (xs : List JSNum) (x : JSNum), jsSum (xs ++ [x]) = (jsSum xs).add x) ∧
      (∀ a b : ℚ, (JSNum.fin a).add (.fin b) = binary64 (a + b)) ∧
      (∀ a b : ℚ, (JSNum.fin a).sub (.fin b) = binary64 (a - b)) ∧
      (∀ row : Obj, effectiveDate row =
        if orElse (objGet row "DateStarted".toList) [] ≠ [] then
          orElse (objGet row "DateStarted".toList) []
        else orElse (objGet row "DateFinished".toList) []) ∧
      (∀ e : Entry, effectiveDate e.row = [] → inWindow from_ to_ e = false) ∧
      (∀ e : Entry, effectiveDate e.row ≠ [] → effectiveDate e.row = from_ →
        jsStrLe from_ to_ = true → inWindow from_ to_ e = true) ∧
      (∀ e : Entry, effectiveDate e.row ≠ [] → effectiveDate e.row = to_ →
        jsStrLe from_ to_ = true → inWindow from_ to_ e = true) ∧
      (entries.filter (inWindow from_ to_) = [] →
        sumEntries entries from_ to_ = { dur := .fin 0, cost := .fin 0, net := .fin 0 }) := by
  refine ⟨?_, ?_, rfl, ?_, fun _ _ => rfl, fun _ _ => rfl, ?_, ?_, ?_, ?_, ?_⟩
  · simp [sumEntries, sumEntriesLoop_eq, jsSum]
  · simp [sumEntries, sumEntriesLoop_eq, jsSum]
  · intro xs x
    simp [jsSum, List.foldl_append]
  · intro row
    unfold effectiveDate
    cases h1 : objGet row "DateStarted".toList with
    | none => simp [orElse]
    | some s =>
      by_cases hs : s = []
      · simp [orElse, hs]
      · simp [orElse, hs]
  · intro e h
    simp [inWindow, h]
  · intro e hne hf hle
    have : jsStrLe from_ from_ = true := by simp [jsStrLe, jsStrLt, unitsLt_irrefl]
    rw [hf] at hne
    simp [inWindow, hne, hf, this, hle]
  · intro e hne ht hle
    have : jsStrLe to_ to_ = true := by simp [jsStrLe, jsStrLt, unitsLt_irrefl]
    rw [ht] at hne
    simp [inWindow, hne, ht, this, hle]
  · intro h
    have h0 : (JSNum.fin 0).sub (.fin 0) = .fin 0 := by decide!
    simp [sumEntries, sumEntriesLoop_eq, h, h0]

theorem sumEntries_eq_witness :
    sumEntries statsEntries "2026-01-01".toList "2026-12-31".toList =
      { dur := .fin 0, cost := .fin 0, net := .fin 0 } ∧
    numberToString (sumEntries statsEntries "2025-01-05".toList "2025-02-01".toList).dur =
      "5.2".toList ∧
    numberToString (sumEntries statsEntries "2025-01-05".toList "2025-02-01".toList).cost =
      "2".toList ∧
    numberToString (sumEntries statsEntries "2025-01-05".toList "2025-02-01".toList).net =
      "3.2".toList :=
  ⟨(sumEntries_eq statsEntries "2026-01-01".toList "2026-12-31".toList).2.2.2.2.2.2.2.2.2.2
      (by decide), by decide!, by decide!, by decide!⟩

/-- C14 as stated fails: for the window of January 2025 and the two entries with
durations 0.3 and 0 and costs 0.1 and 0.2, both in the window, the exact sums are 0.3 and
0.3 with difference 0, and `sumEntries` returns the cost 0.30000000000000004 and the net
-2^-54, written `-5.551115123125783e-17`. -/
theorem sumEntries_rounds :
    decimalEntries.filter (inWindow "2025-01-01".toList "2025-01-31".toList) =
        decimalEntries ∧
      ((3 : ℚ) / 10 + 0) - (1 / 10 + 2 / 10) = 0 ∧
      numberToString (sumEntries decimalEntries "2025-01-01".toList "2025-01-31".toList).dur =
        "0.3".toList ∧
      numberToString (sumEntries decimalEntries "2025-01-01".toList "2025-01-31".toList).cost =
        "0.30000000000000004".toList ∧
      (sumEntries decimalEntries "2025-01-01".toList "2025-01-31".toList).net =
        .fin (-1 / 2 ^ 54) ∧
      numberToString (sumEntries decimalEntries "2025-01-01".toList "2025-01-31".toList).net =
        "-5.551115123125783e-17".toList := by
  decide!

/-! ## The order of strings -/

theorem unitsLt_trans : ∀ a b c : List Nat, unitsLt a b = true → unitsLt b c = true →
    unitsLt a c = true := by
  intro a
  induction a with
  | nil =>
    intro b c h1 h2
    cases b with
    | nil => simp [unitsLt] at h1
    | cons y ys =>
      cases c with
      | nil => simp [unitsLt] at h2
      | cons z zs => simp [unitsLt]
  | cons x xs ih =>
    intro b c h1 h2
    cases b with
    | nil => simp [unitsLt] at h1
    | cons y ys =>
      cases c with
      | nil => simp [unitsLt] at h2
      | cons z zs =>
        simp only [unitsLt] at h1 h2 ⊢
        by_cases hxy : x < y
        · by_cases hyz : y < z
          · simp [show x < z by omega]
          · simp only [hyz, if_false] at h2
            by_cases hzy : z < y
            · simp [hzy] at h2
            · simp [show x < z by omega]
        · simp only [hxy, if_false] at h1
          by_cases hyx : y < x
          · simp [hyx] at h1
          · simp only [hyx, if_false] at h1
            have hxeq : x = y := by omega
            subst hxeq
            by_cases hyz : x < z
            · simp [hyz]
            · simp only [hyz, if_false] at h2 ⊢
              by_cases hzy : z < x
              · simp [hzy] at h2
              · simp only [hzy, if_false] at h2 ⊢
                exact ih ys zs h1 h2

theorem unitsLt_trichotomy : ∀ a b : List Nat,
    unitsLt a b = true ∨ a = b ∨ unitsLt b a = true := by
  intro a
  induction a with
  | nil =>
    intro b
    cases b with
    | nil => exact Or.inr (Or.inl rfl)
    | cons y ys => exact Or.inl (by simp [unitsLt])
  | cons x xs ih =>
    intro b
    cases b with
    | nil => exact Or.inr (Or.inr (by simp [unitsLt]))
    | cons y ys =>
      simp only [unitsLt]
      by_cases hxy : x < y
      · exact Or.inl (by simp [hxy])
      · by_cases hyx : y < x
        · exact Or.inr (Or.inr (by simp [hyx]))
        · have hxeq : x = y := by omega
          subst hxeq
          simp only [hxy, if_false, List.cons.injEq, true_and]
          exact ih ys

theorem unitsLt_asymm (a b : List Nat) (h : unitsLt a b = true) : unitsLt b a = false := by
  cases hba : unitsLt b a with
  | false => rfl
  | true =>
    have := unitsLt_trans a b a h hba
    rw [unitsLt_irrefl] at this
    exact absurd this (by simp)

theorem char_valid_nat (c : Char) :
    c.toNat < 0xD800 ∨ (0xDFFF < c.toNat ∧ c.toNat < 0x110000) := c.valid

theorem char_eq_of_toNat (a b : Char) (h : a.toNat = b.toNat) : a = b := by
  rw [← Char.ofNat_toNat a, ← Char.ofNat_toNat b, h]

theorem utf16_append_inj (a b : Char) (xs ys : List Nat)
    (h : utf16 a ++ xs = utf16 b ++ ys) : a = b ∧ xs = ys := by
  have ha := char_valid_nat a
  have hb := char_valid_nat b
  unfold utf16 at h
  by_cases h1 : a.toNat < 0x10000
  · by_cases h2 : b.toNat < 0x10000
    · simp only [h1, h2, if_true, List.singleton_append, List.cons.injEq] at h
      exact ⟨char_eq_of_toNat a b h.1, h.2⟩
    · simp only [h1, h2, if_true, if_false, List.singleton_append, List.cons_append,
        List.nil_append, List.cons.injEq] at h
      omega
  · by_cases h2 : b.toNat < 0x10000
    · simp only [h1, h2, if_true, if_false, List.singleton_append, List.cons_append,
        List.nil_append, List.cons.injEq] at h
      omega
    · simp only [h1, h2, if_false, List.cons_append, List.nil_append, List.cons.injEq] at h
      refine ⟨char_eq_of_toNat a b ?_, h.2.2⟩
      omega

theorem utf16_flatMap_injective : ∀ a b : Str, a.flatMap utf16 = b.flatMap utf16 → a = b := by
  intro a
  induction a with
  | nil =>
    intro b h
    cases b with
    | nil => rfl
    | cons y ys =>
      exfalso
      simp only [List.flatMap_nil, List.flatMap_cons] at h
      have := congrArg List.length h
      unfold utf16 at this
      split at this <;> simp at this
  | cons x xs ih =>
    intro b h
    cases b with
    | nil =>
      exfalso
      simp only [List.flatMap_nil, List.flatMap_cons] at h
      have := congrArg List.length h
      unfold utf16 at this
      split at this <;> simp at this
    | cons y ys =>
      simp only [List.flatMap_cons] at h
      obtain ⟨hxy, hrest⟩ := utf16_append_inj x y _ _ h
      rw [hxy, ih ys hrest]

theorem jsStrLt_irrefl (a : Str) : jsStrLt a a = false := unitsLt_irrefl _

theorem jsStrLt_trans (a b c : Str) (h1 : jsStrLt a b = true) (h2 : jsStrLt b c = true) :
    jsStrLt a c = true := unitsLt_trans _ _ _ h1 h2

theorem jsStrLt_asymm (a b : Str) (h : jsStrLt a b = true) : jsStrLt b a = false :=
  unitsLt_asymm _ _ h

theorem jsStrLt_trichotomy (a b : Str) :
    jsStrLt a b = true ∨ a = b ∨ jsStrLt b a = true := by
  rcases unitsLt_trichotomy (a.flatMap utf16) (b.flatMap utf16) with h | h | h
  · exact Or.inl h
  · exact Or.inr (Or.inl (utf16_flatMap_injective a b h))
  · exact Or.inr (Or.inr h)

/-! ## The order of the exported rows -/

theorem exportCompare_neg_iff (a b : Entry) : exportCompare a b < 0 ↔ exportBefore a b := by
  have hdef : exportCompare a b =
      (if jsStrLt (lastEditedOf a) (lastEditedOf b) then -1
       else if jsStrLt (lastEditedOf b) (lastEditedOf a) then 1
       else if jsStrLt a.compositeKey b.compositeKey then -1 else 1) := rfl
  rw [hdef]
  unfold exportBefore
  generalize lastEditedOf a = la
  generalize lastEditedOf b = lb
  by_cases h1 : jsStrLt la lb = true
  · simp [h1]
  · by_cases h2 : jsStrLt lb la = true
    · have hne : la ≠ lb := by
        intro h
        rw [h, jsStrLt_irrefl] at h2
        exact absurd h2 (by simp)
      simp [h1, h2, hne]
    · have heq : la = lb := by
        rcases jsStrLt_trichotomy la lb with h | h | h
        · exact absurd h h1
        · exact h
        · exact absurd h h2
      by_cases h3 : jsStrLt a.compositeKey b.compositeKey = true
      · subst heq
        simp [h1, h3]
      · simp [h1, h2, h3]

theorem exportBefore_trans (a b c : Entry) (h1 : exportBefore a b) (h2 : exportBefore b c) :
    exportBefore a c := by
  unfold exportBefore at *
  rcases h1 with h1 | ⟨e1, k1⟩
  · rcases h2 with h2 | ⟨e2, _⟩
    · exact Or.inl (jsStrLt_trans _ _ _ h1 h2)
    · exact Or.inl (e2 ▸ h1)
  · rcases h2 with h2 | ⟨e2, k2⟩
    · exact Or.inl (e1 ▸ h2)
    · exact Or.inr ⟨e1.trans e2, jsStrLt_trans _ _ _ k1 k2⟩

theorem exportBefore_asymm (a b : Entry) (h1 : exportBefore a b) : ¬ exportBefore b a := by
  unfold exportBefore at *
  intro h2
  rcases h1 with h1 | ⟨e1, k1⟩
  · rcases h2 with h2 | ⟨e2, _⟩
    · rw [jsStrLt_asymm _ _ h1] at h2; exact absurd h2 (by simp)
    · rw [e2, jsStrLt_irrefl] at h1; exact absurd h1 (by simp)
  · rcases h2 with h2 | ⟨_, k2⟩
    · rw [e1, jsStrLt_irrefl] at h2; exact absurd h2 (by simp)
    · rw [jsStrLt_asymm _ _ k1] at k2; exact absurd k2 (by simp)

theorem exportBefore_total (a b : Entry) (h : a.compositeKey ≠ b.compositeKey) :
    exportBefore a b ∨ exportBefore b a := by
  unfold exportBefore
  rcases jsStrLt_trichotomy (lastEditedOf a) (lastEditedOf b) with h1 | h1 | h1
  · exact Or.inl (Or.inl h1)
  · rcases jsStrLt_trichotomy a.compositeKey b.compositeKey with h2 | h2 | h2
    · exact Or.inl (Or.inr ⟨h1, h2⟩)
    · exact absurd h2 h
    · exact Or.inr (Or.inr ⟨h1.symm, h2⟩)
  · exact Or.inr (Or.inl h1)

theorem orderedInsert_exportBefore (a : Entry) : ∀ l : List Entry,
    l.Pairwise exportBefore → (∀ b ∈ l, a.compositeKey ≠ b.compositeKey) →
    (l.orderedInsert (fun x y => exportCompare x y < 0) a).Pairwise exportBefore := by
  intro l
  induction l with
  | nil => intro _ _; simp
  | cons b l ih =>
    intro hs hk
    rw [List.pairwise_cons] at hs
    by_cases hab : exportCompare a b < 0
    · rw [List.orderedInsert, if_pos hab]
      have hab2 := (exportCompare_neg_iff a b).mp hab
      rw [List.pairwise_cons]
      refine ⟨?_, List.pairwise_cons.mpr hs⟩
      intro c hc
      rcases List.mem_cons.mp hc with rfl | hc
      · exact hab2
      · exact exportBefore_trans a b c hab2 (hs.1 c hc)
    · rw [List.orderedInsert, if_neg hab]
      rw [List.pairwise_cons]
      refine ⟨?_, ih hs.2 (fun c hc => hk c (List.mem_cons_of_mem _ hc))⟩
      intro c hc
      rcases (List.mem_orderedInsert _).mp hc with rfl | hc
      · rcases exportBefore_total c b (hk b (List.mem_cons_self _ _)) with h | h
        · exact absurd ((exportCompare_neg_iff c b).mpr h) hab
        · exact h
      · exact hs.1 c hc

theorem sortEntries_sorted : ∀ entries : List Entry, (entryKeys entries).Nodup →
    (sortEntries entries).Pairwise exportBefore := by
  intro entries
  induction entries with
  | nil => intro _; simp [sortEntries]
  | cons a l ih =>
    intro hnd
    simp only [entryKeys, List.map_cons, List.nodup_cons] at hnd
    have hs := ih hnd.2
    unfold sortEntries at hs ⊢
    rw [List.insertionSort]
    apply orderedInsert_exportBefore a _ hs
    intro b hb heq
    have hb2 : b ∈ l := (List.perm_insertionSort _ l).subset hb
    exact hnd.1 (List.mem_map.mpr ⟨b, hb2, heq.symm⟩)

theorem sortEntries_perm_invariant (entries entries2 : List Entry)
    (hnd : (entryKeys entries).Nodup) (hp : entries2.Perm entries) :
    sortEntries entries2 = sortEntries entries := by
  have hnd2 : (entryKeys entries2).Nodup := (hp.map Entry.compositeKey).nodup_iff.mpr hnd
  have h1 := sortEntries_sorted entries hnd
  have h2 := sortEntries_sorted entries2 hnd2
  have hperm : (sortEntries entries2).Perm (sortEntries entries) :=
    ((sortEntries_perm entries2).trans hp).trans (sortEntries_perm entries).symm
  exact @List.eq_of_perm_of_sorted _ exportBefore
    ⟨fun a b hab hba => absurd hba (exportBefore_asymm a b hab)⟩ _ _ hperm h2 h1

theorem keepRow_rowValues (row : Obj) : keepRow (rowValues row) = true := by
  simp [keepRow, rowValues, CSV_COLUMNS]

theorem parseCSV_exportCSV (entries : List Entry) :
    parseCSV (exportCSV entries) =
      CSV_COLUMNS :: (sortEntries entries).map (fun e => rowValues e.row) := by
  rw [exportCSV_eq_lines, parseCSV_encode]
  · have h1 : keepRow CSV_COLUMNS = true := by decide
    rw [List.filter_cons_of_pos h1]
    congr 1
    rw [List.filter_eq_self]
    intro r hr
    obtain ⟨e, _, rfl⟩ := List.mem_map.mp hr
    exact keepRow_rowValues e.row
  · intro r hr
    rcases List.mem_cons.mp hr with rfl | hr
    · decide
    · obtain ⟨e, _, rfl⟩ := List.mem_map.mp hr
      simp [rowValues, CSV_COLUMNS]

/-- C15. For every set of persisted entries with pairwise distinct composite keys, the data
rows of the text `exportCSV` produces are the rows of the entries in ascending order of the
pair (LastEdited, composite key of the entry), a missing `LastEdited` comparing as the empty
string; the rows are those of a permutation of the stored entries (none dropped or
duplicated), and the text does not depend on the order in which the store returns the
entries. -/
theorem exportCSV_order (entries : List Entry) (hnd : (entryKeys entries).Nodup) :
    parseCSV (exportCSV entries) =
        CSV_COLUMNS :: (sortEntries entries).map (fun e => rowValues e.row) ∧
      (sortEntries entries).Pairwise exportBefore ∧
      (sortEntries entries).Perm entries ∧
      (∀ e : Entry, objGet e.row "LastEdited".toList = none → lastEditedOf e = []) ∧
      (∀ entries2 : List Entry, entries2.Perm entries →
        exportCSV entries2 = exportCSV entries) := by
  refine ⟨parseCSV_exportCSV entries, sortEntries_sorted entries hnd, sortEntries_perm entries,
    ?_, ?_⟩
  · intro e h
    unfold lastEditedOf
    rw [h]
    rfl
  · intro entries2 hp
    unfold exportCSV
    rw [sortEntries_perm_invariant entries entries2 hnd hp]

theorem exportCSV_order_witness :
    (entryKeys statsEntries).Nodup ∧ (sortEntries statsEntries).Pairwise exportBefore ∧
      (sortEntries statsEntries).Perm statsEntries :=
  ⟨by decide, (exportCSV_order statsEntries (by decide)).2.1,
    (exportCSV_order statsEntries (by decide)).2.2.1⟩

/-! ## The drafts store -/

theorem idbPut_keys {α : Type} (keyOf : α → Str) : ∀ (store : List α) (val : α),
    keyOf val ∈ store.map keyOf → (idbPut keyOf store val).map keyOf = store.map keyOf := by
  intro store
  induction store with
  | nil => intro val h; simp at h
  | cons r rest ih =>
    intro val h
    by_cases hk : keyOf r = keyOf val
    · simp [idbPut, hk]
    · simp only [List.map_cons, List.mem_cons] at h
      have hin : keyOf val ∈ rest.map keyOf := by
        rcases h with h | h
        · exact absurd h.symm hk
        · exact h
      simp [idbPut, hk, ih val hin]

theorem idbPut_keys_nodup {α : Type} (keyOf : α → Str) (store : List α) (val : α)
    (h : (store.map keyOf).Nodup) : ((idbPut keyOf store val).map keyOf).Nodup := by
  by_cases hin : keyOf val ∈ store.map keyOf
  · rw [idbPut_keys keyOf store val hin]
    exact h
  · rw [idbPut_fresh keyOf store val hin]
    simp only [List.map_append, List.map_cons, List.map_nil]
    rw [List.nodup_append]
    refine ⟨h, by simp, ?_⟩
    intro a ha hb
    simp only [List.mem_singleton] at hb
    exact hin (hb ▸ ha)

theorem mem_idbPut {α : Type} (keyOf : α → Str) : ∀ (store : List α) (val x : α),
    (store.map keyOf).Nodup → x ∈ idbPut keyOf store val →
      x = val ∨ (x ∈ store ∧ keyOf x ≠ keyOf val) := by
  intro store
  induction store with
  | nil =>
    intro val x _ hx
    simp only [idbPut, List.mem_singleton] at hx
    exact Or.inl hx
  | cons r rest ih =>
    intro val x hnd hx
    simp only [List.map_cons, List.nodup_cons] at hnd
    by_cases hk : keyOf r = keyOf val
    · simp only [idbPut, hk, if_true, List.mem_cons] at hx
      rcases hx with hx | hx
      · exact Or.inl hx
      · refine Or.inr ⟨List.mem_cons_of_mem _ hx, ?_⟩
        intro hxk
        apply hnd.1
        rw [hk, ← hxk]
        exact List.mem_map_of_mem keyOf hx
    · simp only [idbPut, hk, if_false, List.mem_cons] at hx
      rcases hx with hx | hx
      · exact Or.inr ⟨hx ▸ List.mem_cons_self _ _, hx ▸ hk⟩
      · rcases ih val x hnd.2 hx with h | ⟨h1, h2⟩
        · exact Or.inl h
        · exact Or.inr ⟨List.mem_cons_of_mem _ h1, h2⟩

theorem idbGet_mem {α : Type} (keyOf : α → Str) (store : List α) (key : Str) (r : α)
    (h : idbGet keyOf store key = some r) : r ∈ store ∧ keyOf r = key := by
  unfold idbGet at h
  have h1 := List.mem_of_find?_eq_some h
  have h2 := List.find?_some h
  exact ⟨h1, by simpa using h2⟩

theorem eq_of_key_eq (drafts : List Draft) (hnd : DraftKeysDistinct drafts) :
    ∀ d1 ∈ drafts, ∀ d2 ∈ drafts, d1.draftKey = d2.draftKey → d1 = d2 := by
  induction drafts with
  | nil => intro d1 h; simp at h
  | cons r rest ih =>
    intro d1 h1 d2 h2 hk
    simp only [DraftKeysDistinct, List.map_cons, List.nodup_cons] at hnd
    rcases List.mem_cons.mp h1 with e1 | m1
    · rcases List.mem_cons.mp h2 with e2 | m2
      · rw [e1, e2]
      · exfalso
        apply hnd.1
        rw [← e1, hk]
        exact List.mem_map_of_mem Draft.draftKey m2
    · rcases List.mem_cons.mp h2 with e2 | m2
      · exfalso
        apply hnd.1
        rw [← e2, ← hk]
        exact List.mem_map_of_mem Draft.draftKey m1
      · exact ih hnd.2 d1 m1 d2 m2 hk

/-- Saving a changed copy of a stored draft keeps the invariant when the copy keeps the key
and the catalog key and is active only if the stored draft was. -/
theorem put_changed_keeps (drafts : List Draft) (d d2 : Draft)
    (hnd : DraftKeysDistinct drafts) (hinv : AtMostOneActive drafts) (hd : d ∈ drafts)
    (hk : d2.draftKey = d.draftKey) (hb : d2.bookKey = d.bookKey)
    (ha : d2.active = true → d.active = true) :
    DraftKeysDistinct (idbPut Draft.draftKey drafts d2) ∧
      AtMostOneActive (idbPut Draft.draftKey drafts d2) := by
  refine ⟨idbPut_keys_nodup _ _ _ hnd, ?_⟩
  intro x hx y hy hbk hxa hya
  rcases mem_idbPut Draft.draftKey drafts d2 x hnd hx with ex | ⟨hx1, hx2⟩
  · rcases mem_idbPut Draft.draftKey drafts d2 y hnd hy with ey | ⟨hy1, hy2⟩
    · rw [ex, ey]
    · exfalso
      rw [ex] at hbk hxa
      have := hinv d hd y hy1 (hb.symm.trans hbk) (ha hxa) hya
      apply hy2
      rw [← this, hk]
  · rcases mem_idbPut Draft.draftKey drafts d2 y hnd hy with ey | ⟨hy1, hy2⟩
    · exfalso
      rw [ey] at hbk hya
      have := hinv x hx1 d hd (hbk.trans hb) hxa (ha hya)
      apply hx2
      rw [this, hk]
    · exact hinv x hx1 y hy1 hbk hxa hya

theorem findActive_none (drafts : List Draft) (bookKey : Str)
    (h : findActiveDraftByBookKey drafts bookKey = none) :
    ∀ d ∈ drafts, d.bookKey = bookKey → d.active = false := by
  intro d hd hb
  unfold findActiveDraftByBookKey at h
  rw [List.find?_eq_none] at h
  have := h d (List.mem_filter.mpr ⟨hd, by simp [hb]⟩)
  simpa using this

theorem findActive_some (drafts : List Draft) (bookKey : Str) (d : Draft)
    (h : findActiveDraftByBookKey drafts bookKey = some d) :
    d ∈ drafts ∧ d.bookKey = bookKey ∧ d.active = true := by
  unfold findActiveDraftByBookKey at h
  have h1 := List.mem_of_find?_eq_some h
  have h2 := List.find?_some h
  rw [List.mem_filter] at h1
  exact ⟨h1.1, by simpa using h1.2, by simpa using h2⟩

theorem importCSV_drafts (db : DB) (text : Str) (db2 : DB) (res : Except Str ImportCounts)
    (h : importCSV db text = some (db2, res)) : db2.drafts = db.drafts := by
  unfold importCSV at h
  by_cases hlen : (parseCSV text).length < 2
  · simp only [hlen, if_true, Option.some.injEq, Prod.mk.injEq] at h
    rw [← h.1]
  · simp only [hlen, if_false] at h
    by_cases hs : sameHeader (((parseCSV text).headD []).map jsTrim) CSV_COLUMNS = true
    · obtain ⟨out, news, hr, _, _, _, hd, _⟩ := importRows_spec
        (((parseCSV text).headD []).map jsTrim) (parseCSV text).tail
        (db, { added := 0, skipped := 0, deduped := 0 })
      simp only [hs, Bool.not_true, Bool.false_eq_true, if_false, hr, Option.some.injEq,
        Prod.mk.injEq] at h
      rw [← h.1]
      exact hd
    · simp only [hs, Bool.not_false, if_true, Option.some.injEq, Prod.mk.injEq] at h
      rw [← h.1]

theorem commitEntry_drafts (today : Str) (db : DB) (book : Book) (draft : Draft)
    (out : CommitOutcome) (h : commitEntry today db book draft = some out) :
    out.db.drafts = db.drafts ∨
      ∃ d2 : Draft, out.db.drafts = idbPut Draft.draftKey db.drafts d2 ∧
        d2.draftKey = draft.draftKey ∧ d2.bookKey = draft.bookKey ∧
        (d2.active = true → draft.active = true) := by
  by_cases hg : (computeDurationHours draft.timeRanges).hasOpen = true ∨
      (computeDurationHours draft.timeRanges).durH.leZero = true ∨
      (draftCost draft).isNaN = true ∨ (draftCost draft).ltZero = true
  · obtain ⟨msg, hm⟩ := commitEntry_rejected today db book draft hg
    rw [hm] at h
    simp only [Option.some.injEq] at h
    rw [← h]
    exact Or.inl rfl
  · simp only [not_or, Bool.not_eq_true] at hg
    have h34 : ((draftCost draft).isNaN || (draftCost draft).ltZero) = false := by
      simp [hg.2.2.1, hg.2.2.2]
    unfold draftCost at h34
    right
    obtain ⟨ck, hloop⟩ := copyLoop_terminates db.entries book.bookID 2
    by_cases hused : (idbGet Entry.compositeKey db.entries book.bookID).isSome = true
    · simp only [commitEntry, hg.1, hg.2.1, h34, Bool.false_eq_true, if_false, hused, if_true,
        hloop, saveDraft, Option.some.injEq] at h
      rw [← h]
      refine ⟨_, rfl, ?_, ?_, ?_⟩
      · simp only
        split <;> rfl
      · simp only
        split <;> rfl
      · simp only
        split
        · intro h; simp at h
        · exact id
    · simp only [commitEntry, hg.1, hg.2.1, h34, Bool.false_eq_true, if_false, hused,
        saveDraft, Option.some.injEq] at h
      rw [← h]
      refine ⟨_, rfl, ?_, ?_, ?_⟩
      · simp only
        split <;> rfl
      · simp only
        split <;> rfl
      · simp only
        split
        · intro h; simp at h
        · exact id

theorem applyAction_keeps (today : Str) (a : SlugAction) (draft : Draft) :
    (applyAction today a draft).draftKey = draft.draftKey ∧
      (applyAction today a draft).bookKey = draft.bookKey ∧
      ((applyAction today a draft).active = true → draft.active = true) := by
  cases a
  case setStatus value =>
    simp only [applyAction]
    split_ifs <;> exact ⟨rfl, rfl, id⟩
  case removeFromReading => exact ⟨rfl, rfl, fun h => by simp [applyAction] at h⟩
  all_goals exact ⟨rfl, rfl, id⟩

theorem put_new_keeps (drafts : List Draft) (d2 : Draft)
    (hnd : DraftKeysDistinct drafts) (hinv : AtMostOneActive drafts)
    (hnone : ∀ d ∈ drafts, d.bookKey = d2.bookKey → d.active = false) :
    DraftKeysDistinct (idbPut Draft.draftKey drafts d2) ∧
      AtMostOneActive (idbPut Draft.draftKey drafts d2) := by
  refine ⟨idbPut_keys_nodup _ _ _ hnd, ?_⟩
  intro x hx y hy hbk hxa hya
  rcases mem_idbPut Draft.draftKey drafts d2 x hnd hx with ex | ⟨hx1, _⟩
  · rcases mem_idbPut Draft.draftKey drafts d2 y hnd hy with ey | ⟨hy1, _⟩
    · rw [ex, ey]
    · have := hnone y hy1 (by rw [← hbk, ex])
      rw [this] at hya
      exact absurd hya (by simp)
  · rcases mem_idbPut Draft.draftKey drafts d2 y hnd hy with ey | ⟨hy1, _⟩
    · have := hnone x hx1 (by rw [hbk, ey])
      rw [this] at hxa
      exact absurd hxa (by simp)
    · exact hinv x hx1 y hy1 hbk hxa hya

theorem openSlug_mem (db : DB) (draftKey : Str) (draft : Draft) (book : Book)
    (h : openSlug db draftKey = some (draft, book)) :
    draft ∈ db.drafts ∧ draft.draftKey = draftKey := by
  unfold openSlug at h
  cases hg : idbGet Draft.draftKey db.drafts draftKey with
  | none => simp [hg] at h
  | some d =>
    simp only [hg] at h
    cases hb : idbGet Book.bookKey db.books d.bookKey with
    | none => simp [hb] at h
    | some b =>
      simp only [hb, Option.some.injEq, Prod.mk.injEq] at h
      rw [← h.1]
      exact idbGet_mem _ _ _ _ hg

theorem reachable_invariant (db : DB) (h : Reachable db) :
    DraftKeysDistinct db.drafts ∧ AtMostOneActive db.drafts := by
  induction h with
  | init books entries =>
    exact ⟨List.nodup_nil, fun d1 h1 => by simp at h1⟩
  | imported h text db2 res hi ih =>
    rw [importCSV_drafts _ _ _ _ hi]
    exact ih
  | @created db h now today bookKey isReread ih =>
    unfold getOrCreateDraft
    cases hf : findActiveDraftByBookKey db.drafts bookKey with
    | some existing => exact ih
    | none =>
      cases hb : idbGet Book.bookKey db.books bookKey with
      | none => exact ih
      | some book =>
        exact put_new_keeps _ _ ih.1 ih.2 (findActive_none _ _ hf)
  | @edited db h today draftKey a draft book ho ih =>
    have hm := (openSlug_mem db draftKey draft book ho).1
    have hk := applyAction_keeps today a draft
    exact put_changed_keeps db.drafts draft _ ih.1 ih.2 hm hk.1 hk.2.1 hk.2.2
  | @committed db h today draftKey draft book out ho hc ih =>
    have hm := (openSlug_mem db draftKey draft book ho).1
    rcases commitEntry_drafts today db book draft out hc with he | ⟨d2, he, hk, hb, ha⟩
    · rw [he]
      exact ih
    · rw [he]
      exact put_changed_keeps db.drafts draft d2 ih.1 ih.2 hm hk hb ha

theorem findActive_isSome (drafts : List Draft) (bookKey : Str) (e : Draft) (he : e ∈ drafts)
    (hb : e.bookKey = bookKey) (ha : e.active = true) :
    ∃ existing, findActiveDraftByBookKey drafts bookKey = some existing := by
  cases hf : findActiveDraftByBookKey drafts bookKey with
  | some x => exact ⟨x, rfl⟩
  | none =>
    have := findActive_none drafts bookKey hf e he hb
    rw [ha] at this
    exact absurd this (by simp)

theorem findActive_eq_none (drafts : List Draft) (bookKey : Str)
    (h : ∀ d ∈ drafts, d.bookKey = bookKey → d.active = false) :
    findActiveDraftByBookKey drafts bookKey = none := by
  cases hf : findActiveDraftByBookKey drafts bookKey with
  | none => rfl
  | some x =>
    obtain ⟨hx, hb, ha⟩ := findActive_some drafts bookKey x hf
    rw [h x hx hb] at ha
    exact absurd ha (by simp)

theorem length_le_one_of_all_eq {α : Type} : ∀ (l : List α), l.Nodup →
    (∀ x ∈ l, ∀ y ∈ l, x = y) → l.length ≤ 1
  | [], _, _ => by simp
  | [_], _, _ => by simp
  | a :: b :: t, hnd, h => by
    have hab : a = b := h a (by simp) b (by simp)
    rw [hab] at hnd
    simp at hnd

theorem activeDrafts_length (drafts : List Draft) (hnd : DraftKeysDistinct drafts)
    (hinv : AtMostOneActive drafts) (bookKey : Str) :
    (activeDrafts drafts bookKey).length ≤ 1 := by
  apply length_le_one_of_all_eq
  · exact (List.Nodup.of_map _ hnd).filter _
  · intro x hx y hy
    simp only [activeDrafts, List.mem_filter, Bool.and_eq_true, beq_iff_eq] at hx hy
    exact hinv x hx.1 y hy.1 (by rw [hx.2.1, hy.2.1]) hx.2.2 hy.2.2

/-- C16: in every store state reachable from an empty drafts collection by imports, calls
of `getOrCreateDraft`, edits of a stored draft, remove-from-reading and `commitEntry`, the
drafts have distinct keys and each catalog key has at most one active draft. When an
active draft of the catalog key exists, `getOrCreateDraft` returns the key of an active
draft of that key and leaves the store as it was. When none exists and the catalog holds
an item with that key, it puts one draft in the store and returns its key: the draft is
active, of that catalog key, started today, with status `Unfinished`, empty finish date,
no time ranges, and cost `0` for a re-read and blank otherwise; the books and entries are
untouched, and when the new key was not in the store the drafts are the old ones followed
by the new one. -/
theorem one_active_draft :
    (∀ db : DB, Reachable db →
      DraftKeysDistinct db.drafts ∧
        ∀ bookKey : Str, (activeDrafts db.drafts bookKey).length ≤ 1) ∧
    (∀ (now : Nat) (today : Str) (db : DB) (bookKey : Str) (isReread : Bool),
      (∃ e ∈ db.drafts, e.bookKey = bookKey ∧ e.active = true) →
      ∃ existing ∈ activeDrafts db.drafts bookKey,
        getOrCreateDraft now today db bookKey isReread = (db, .ok existing.draftKey)) ∧
    (∀ (now : Nat) (today : Str) (db : DB) (bookKey : Str) (isReread : Bool),
      (∀ e ∈ db.drafts, e.bookKey = bookKey → e.active = false) →
      bookKey ∈ db.books.map Book.bookKey →
      ∃ d : Draft,
        getOrCreateDraft now today db bookKey isReread =
          ({ db with drafts := idbPut Draft.draftKey db.drafts d }, .ok d.draftKey) ∧
        d.bookKey = bookKey ∧ d.active = true ∧ d.dateStarted = today ∧
        d.status = "Unfinished".toList ∧ d.dateFinished = [] ∧ d.timeRanges = [] ∧
        d.cost_h = (if isReread then ['0'] else []) ∧
        (d.draftKey ∉ db.drafts.map Draft.draftKey →
          idbPut Draft.draftKey db.drafts d = db.drafts ++ [d])) := by
  refine ⟨?_, ?_, ?_⟩
  · intro db h
    have hi := reachable_invariant db h
    exact ⟨hi.1, activeDrafts_length db.drafts hi.1 hi.2⟩
  · intro now today db bookKey isReread ⟨e, he, hb, ha⟩
    obtain ⟨existing, hf⟩ := findActive_isSome db.drafts bookKey e he hb ha
    obtain ⟨hx, hxb, hxa⟩ := findActive_some db.drafts bookKey existing hf
    refine ⟨existing, ?_, ?_⟩
    · simp only [activeDrafts, List.mem_filter, Bool.and_eq_true, beq_iff_eq]
      exact ⟨hx, hxb, hxa⟩
    · simp only [getOrCreateDraft, hf]
  · intro now today db bookKey isReread hnone hbook
    have hf := findActive_eq_none db.drafts bookKey hnone
    have hs := (idbGet_isSome_iff Book.bookKey db.books bookKey).mpr hbook
    obtain ⟨book, hb⟩ := Option.isSome_iff_exists.mp hs
    simp only [getOrCreateDraft, hf, hb]
    exact ⟨_, rfl, rfl, rfl, rfl, rfl, rfl, rfl, rfl, fun h => idbPut_fresh _ _ _ h⟩

theorem one_active_draft_witness :
    (DraftKeysDistinct (getOrCreateDraft 7 sampleToday catalogStore sampleBook.bookKey true).1.drafts ∧
      ∀ bookKey : Str,
        (activeDrafts (getOrCreateDraft 7 sampleToday catalogStore sampleBook.bookKey true).1.drafts
          bookKey).length ≤ 1) ∧
    (∃ existing ∈ activeDrafts (sampleStore (sampleDraft [] [])).drafts sampleBook.bookKey,
      getOrCreateDraft 7 sampleToday (sampleStore (sampleDraft [] [])) sampleBook.bookKey false =
        (sampleStore (sampleDraft [] []), .ok existing.draftKey)) ∧
    (∃ d : Draft,
      getOrCreateDraft 7 sampleToday catalogStore sampleBook.bookKey true =
        ({ catalogStore with drafts := idbPut Draft.draftKey catalogStore.drafts d },
          .ok d.draftKey) ∧
      d.bookKey = sampleBook.bookKey ∧ d.active = true ∧ d.dateStarted = sampleToday ∧
      d.status = "Unfinished".toList ∧ d.dateFinished = [] ∧ d.timeRanges = [] ∧
      d.cost_h = (if true = true then ['0'] else []) ∧
      (d.draftKey ∉ catalogStore.drafts.map Draft.draftKey →
        idbPut Draft.draftKey catalogStore.drafts d = catalogStore.drafts ++ [d])) :=
  ⟨one_active_draft.1 _ (Reachable.created (Reachable.init [sampleBook] []) 7 sampleToday
      sampleBook.bookKey true),
    one_active_draft.2.1 7 sampleToday (sampleStore (sampleDraft [] [])) sampleBook.bookKey false
      ⟨sampleDraft [] [], by decide, by decide, by decide⟩,
    one_active_draft.2.2 7 sampleToday catalogStore sampleBook.bookKey true
      (fun e he => by simp [catalogStore] at he) (by decide)⟩

/-! ## Catalog identity -/

theorem pipe_split : ∀ (a b x y : Str), '|' ∉ a → '|' ∉ b →
    a ++ '|' :: x = b ++ '|' :: y → a = b ∧ x = y
  | [], [], x, y, _, _, h => by
    simp only [List.nil_append, List.cons.injEq, true_and] at h
    exact ⟨rfl, h⟩
  | [], c :: b, x, y, _, hb, h => by
    simp only [List.nil_append, List.cons_append, List.cons.injEq] at h
    exact absurd (List.mem_cons.mpr (Or.inl h.1)) hb
  | c :: a, [], x, y, ha, _, h => by
    simp only [List.nil_append, List.cons_append, List.cons.injEq] at h
    exact absurd (List.mem_cons.mpr (Or.inl h.1.symm)) ha
  | c :: a, e :: b, x, y, ha, hb, h => by
    simp only [List.cons_append, List.cons.injEq] at h
    have := pipe_split a b x y (fun m => ha (List.mem_cons_of_mem _ m))
      (fun m => hb (List.mem_cons_of_mem _ m)) h.2
    exact ⟨by rw [h.1, this.1], this.2⟩

theorem makeBookKey_inj_of_ids (id1 f1 id2 f2 : Str) (h1 : '|' ∉ id1) (h2 : '|' ∉ id2)
    (h : makeBookKey id1 f1 = makeBookKey id2 f2) : id1 = id2 ∧ f1 = f2 := by
  simp only [makeBookKey, String.toList, List.append_assoc, List.cons_append,
    List.nil_append] at h
  have := pipe_split id1 id2 _ _ h1 h2 h
  simp only [List.cons.injEq, true_and] at this
  exact this

theorem makeBookKey_inj_of_formats (id1 f1 id2 f2 : Str) (h1 : '|' ∉ f1) (h2 : '|' ∉ f2)
    (h : makeBookKey id1 f1 = makeBookKey id2 f2) : id1 = id2 ∧ f1 = f2 := by
  have hr := congrArg List.reverse h
  simp only [makeBookKey, String.toList, List.reverse_append, List.reverse_cons,
    List.reverse_nil, List.nil_append, List.append_assoc, List.cons_append] at hr
  have := pipe_split f1.reverse f2.reverse _ _ (by simpa using h1) (by simpa using h2) hr
  simp only [List.reverse_inj, List.cons.injEq, true_and] at this
  exact ⟨this.2, this.1⟩

/-- C17 (as the code has it): `makeBookKey(bookID, format)` is the external id, then `||`,
then the format. Two pairs that differ in the external id or in the format get different
keys when neither external id holds a `|` character, and also when neither format holds
one; two formats of the same book always get different keys. -/
theorem makeBookKey_distinct :
    (∀ bookID format : Str, makeBookKey bookID format = bookID ++ ['|', '|'] ++ format) ∧
    (∀ id1 f1 id2 f2 : Str, ('|' ∉ id1 ∧ '|' ∉ id2) ∨ ('|' ∉ f1 ∧ '|' ∉ f2) →
      (id1, f1) ≠ (id2, f2) → makeBookKey id1 f1 ≠ makeBookKey id2 f2) ∧
    (∀ bookID f1 f2 : Str, f1 ≠ f2 → makeBookKey bookID f1 ≠ makeBookKey bookID f2) := by
  refine ⟨fun _ _ => rfl, ?_, ?_⟩
  · intro id1 f1 id2 f2 hp hne heq
    apply hne
    rcases hp with ⟨h1, h2⟩ | ⟨h1, h2⟩
    · have := makeBookKey_inj_of_ids id1 f1 id2 f2 h1 h2 heq
      rw [this.1, this.2]
    · have := makeBookKey_inj_of_formats id1 f1 id2 f2 h1 h2 heq
      rw [this.1, this.2]
  · intro bookID f1 f2 hne heq
    apply hne
    simp only [makeBookKey, List.append_assoc] at heq
    exact List.append_cancel_left (List.append_cancel_left heq)

theorem makeBookKey_distinct_witness :
    makeBookKey "dune".toList "Kindle".toList ≠ makeBookKey "dune".toList "Audio".toList ∧
      makeBookKey "dune".toList "Kindle".toList ≠ makeBookKey "emma".toList "Kindle".toList :=
  ⟨makeBookKey_distinct.2.2 "dune".toList "Kindle".toList "Audio".toList (by decide),
    makeBookKey_distinct.2.1 "dune".toList "Kindle".toList "emma".toList "Kindle".toList
      (Or.inl ⟨by decide, by decide⟩) (by decide)⟩

/-- C17 as stated fails: the pairs (`a`, `b||c`) and (`a||b`, `c`) differ in the external
id and in the format, and `makeBookKey` gives both the key `a||b||c`. -/
theorem makeBookKey_collision :
    ("a".toList, "b||c".toList) ≠ ("a||b".toList, "c".toList) ∧
      makeBookKey "a".toList "b||c".toList = makeBookKey "a||b".toList "c".toList ∧
      makeBookKey "a".toList "b||c".toList = "a||b||c".toList := by
  decide

/-! ## Catalog inserts -/

theorem idbGet_of_mem {α : Type} (keyOf : α → Str) : ∀ (store : List α) (r : α),
    (store.map keyOf).Nodup → r ∈ store → idbGet keyOf store (keyOf r) = some r := by
  intro store
  induction store with
  | nil => intro r _ h; simp at h
  | cons s rest ih =>
    intro r hnd hr
    simp only [List.map_cons, List.nodup_cons] at hnd
    rcases List.mem_cons.mp hr with e | m
    · rw [e]
      simp [idbGet]
    · have hne : keyOf s ≠ keyOf r := by
        intro he
        exact hnd.1 (he ▸ List.mem_map_of_mem keyOf m)
      have := ih r hnd.2 m
      unfold idbGet at this ⊢
      rw [List.find?_cons_of_neg _ (by simpa using hne)]
      exact this

theorem idbGet_none_of_not_mem {α : Type} (keyOf : α → Str) (store : List α) (key : Str)
    (h : key ∉ store.map keyOf) : idbGet keyOf store key = none := by
  cases hg : idbGet keyOf store key with
  | none => rfl
  | some r =>
    have := (idbGet_isSome_iff keyOf store key).mp (by rw [hg]; rfl)
    exact absurd this h

/-- C18: catalog inserts are first-writer-wins. When the books store (whose records have
distinct keys) holds an item with key `bookID||format` and the row carries that `BookID`
and `Format`, `ensureBookFromCSVRow` returns the stored item and leaves the store as it
was, whatever else the row carries. When the store holds no item with that key, it appends
exactly one new item and returns it: its key is `bookID||format`, its title, author,
franchise and subseries are the row's (blank when absent), and each of author identifier,
series label and series identifier is the row's when the row has a non-empty one and is
otherwise derived with `normalizeId`, `deriveSeries` and `deriveSeriesId` from the item's
author, franchise and subseries. -/
theorem ensureBook_first_writer_wins :
    (∀ (books : List Book) (row : Obj) (bookID format : Str) (b : Book),
      (books.map Book.bookKey).Nodup →
      objGet row "BookID".toList = some bookID → objGet row "Format".toList = some format →
      b ∈ books → b.bookKey = makeBookKey bookID format →
      ensureBookFromCSVRow books row = (books, b)) ∧
    (∀ (books : List Book) (row : Obj) (bookID format : Str),
      objGet row "BookID".toList = some bookID → objGet row "Format".toList = some format →
      makeBookKey bookID format ∉ books.map Book.bookKey →
      ∃ b : Book, ensureBookFromCSVRow books row = (books ++ [b], b) ∧
        b.bookKey = makeBookKey bookID format ∧ b.bookID = bookID ∧ b.format = format ∧
        b.title = orElse (objGet row "Title".toList) [] ∧
        b.author = orElse (objGet row "Author".toList) [] ∧
        b.franchise = orElse (objGet row "Franchise".toList) [] ∧
        b.subseries = orElse (objGet row "Subseries".toList) [] ∧
        b.authorID = orElse (objGet row "AuthorID".toList) (normalizeId b.author) ∧
        b.series = orElse (objGet row "Series".toList) (deriveSeries b.franchise b.subseries) ∧
        b.seriesID =
          orElse (objGet row "SeriesID".toList) (deriveSeriesId b.franchise b.subseries)) := by
  refine ⟨?_, ?_⟩
  · intro books row bookID format b hnd hid hf hb hk
    have hg := idbGet_of_mem Book.bookKey books b hnd hb
    rw [hk] at hg
    simp only [ensureBookFromCSVRow, hid, hf, tmpl, hg]
  · intro books row bookID format hid hf hno
    have hg := idbGet_none_of_not_mem Book.bookKey books _ hno
    simp only [ensureBookFromCSVRow, hid, hf, tmpl, hg]
    rw [idbPut_fresh _ _ _ (by exact hno)]
    exact ⟨_, rfl, rfl, rfl, rfl, rfl, rfl, rfl, rfl, rfl, rfl, rfl⟩

theorem ensureBook_first_writer_wins_witness :
    ensureBookFromCSVRow [sampleBook] otherRow = ([sampleBook], sampleBook) ∧
    (∃ b : Book, ensureBookFromCSVRow [] otherRow = ([] ++ [b], b) ∧
      b.bookKey = makeBookKey "dune".toList "Kindle".toList ∧ b.bookID = "dune".toList ∧
      b.format = "Kindle".toList ∧
      b.title = orElse (objGet otherRow "Title".toList) [] ∧
      b.author = orElse (objGet otherRow "Author".toList) [] ∧
      b.franchise = orElse (objGet otherRow "Franchise".toList) [] ∧
      b.subseries = orElse (objGet otherRow "Subseries".toList) [] ∧
      b.authorID = orElse (objGet otherRow "AuthorID".toList) (normalizeId b.author) ∧
      b.series =
        orElse (objGet otherRow "Series".toList) (deriveSeries b.franchise b.subseries) ∧
      b.seriesID =
        orElse (objGet otherRow "SeriesID".toList) (deriveSeriesId b.franchise b.subseries)) :=
  ⟨ensureBook_first_writer_wins.1 [sampleBook] otherRow "dune".toList "Kindle".toList sampleBook
      (by decide) (by decide) (by decide) (by decide) (by decide),
    ensureBook_first_writer_wins.2 [] otherRow "dune".toList "Kindle".toList
      (by decide) (by decide) (by decide)⟩

/-! ## Carriage returns and blank lines -/

theorem parseCSVLoop_out (c : Char) (rest : List Char) (st : ParseState)
    (hq : st.inQ = false) :
    parseCSVLoop (c :: rest) st = parseCSVLoop rest (readOutside c st) := by
  rw [parseCSVLoop.eq_def]
  simp only [hq, Bool.false_eq_true, if_false, readOutside]
  split_ifs <;> rfl

theorem parseCSVLoop_nil (st : ParseState) : parseCSVLoop [] st = st := by
  rw [parseCSVLoop.eq_def]

theorem parse_induction (P : Str → ParseState → Prop)
    (hnil : ∀ st, P [] st)
    (hqq : ∀ rest st, st.inQ = true → P rest { st with field := st.field ++ ['"'] } →
      P ('"' :: '"' :: rest) st)
    (hqe : ∀ rest st, st.inQ = true → NoQuoteHead rest → P rest { st with inQ := false } →
      P ('"' :: rest) st)
    (hqo : ∀ c rest st, st.inQ = true → c ≠ '"' → P rest { st with field := st.field ++ [c] } →
      P (c :: rest) st)
    (hout : ∀ c rest st, st.inQ = false → P rest (readOutside c st) → P (c :: rest) st) :
    ∀ text st, P text st := by
  have key : ∀ n : Nat, ∀ text : Str, text.length ≤ n → ∀ st, P text st := by
    intro n
    induction n with
    | zero =>
      intro text h st
      have : text = [] := List.length_eq_zero.mp (Nat.le_zero.mp h)
      rw [this]
      exact hnil st
    | succ n ih =>
      intro text h st
      cases text with
      | nil => exact hnil st
      | cons c rest =>
        simp only [List.length_cons, Nat.add_le_add_iff_right] at h
        by_cases hq : st.inQ = true
        · by_cases hc : c = '"'
          · rw [hc]
            cases rest with
            | nil => exact hqe [] st hq trivial (hnil _)
            | cons d rest2 =>
              by_cases hd : d = '"'
              · rw [hd]
                simp only [List.length_cons] at h
                exact hqq rest2 st hq (ih rest2 (by omega) _)
              · exact hqe (d :: rest2) st hq hd (ih _ h _)
          · exact hqo c rest st hq hc (ih rest h _)
        · exact hout c rest st (by simpa using hq) (ih rest h _)
  exact fun text st => key text.length text (Nat.le_refl _) st

theorem noQuoteHead_append (a b : Str) (ha : NoQuoteHead a) (hb : NoQuoteHead b) :
    NoQuoteHead (a ++ b) := by
  cases a with
  | nil => exact hb
  | cons c rest => exact ha

theorem parseCSVLoop_append (b : Str) (hb : NoQuoteHead b) :
    ∀ (a : Str) (st : ParseState),
      parseCSVLoop (a ++ b) st = parseCSVLoop b (parseCSVLoop a st) := by
  apply parse_induction
  · intro st
    rw [parseCSVLoop_nil, List.nil_append]
  · intro rest st hq ih
    rw [List.cons_append, List.cons_append, parseCSVLoop_inQ_quote_quote _ _ hq,
      parseCSVLoop_inQ_quote_quote _ _ hq, ih]
  · intro rest st hq hrest ih
    rw [List.cons_append, parseCSVLoop_inQ_quote_end _ (noQuoteHead_append _ _ hrest hb) _ hq,
      parseCSVLoop_inQ_quote_end _ hrest _ hq, ih]
  · intro c rest st hq hc ih
    rw [List.cons_append, parseCSVLoop_inQ_other c hc _ _ hq,
      parseCSVLoop_inQ_other c hc _ _ hq, ih]
  · intro c rest st hq ih
    rw [List.cons_append, parseCSVLoop_out c _ _ hq, parseCSVLoop_out c _ _ hq, ih]

theorem parseCSVLoop_inQ : ∀ (a : Str) (st : ParseState),
    (parseCSVLoop a st).inQ = quoteOpen a st.inQ := by
  apply parse_induction
  · intro st
    rw [parseCSVLoop_nil]
    rfl
  · intro rest st hq ih
    rw [parseCSVLoop_inQ_quote_quote _ _ hq, ih]
    simp [quoteOpen, hq]
  · intro rest st hq hrest ih
    rw [parseCSVLoop_inQ_quote_end _ hrest _ hq, ih]
    simp [quoteOpen, hq]
  · intro c rest st hq hc ih
    rw [parseCSVLoop_inQ_other c hc _ _ hq, ih]
    simp [quoteOpen, hc]
  · intro c rest st hq ih
    rw [parseCSVLoop_out c _ _ hq, ih]
    simp only [quoteOpen, readOutside, hq]
    split_ifs <;> simp_all

theorem noCR_append_single (f : Str) (c : Char) (hf : '\r' ∉ f) (hc : c ≠ '\r') :
    '\r' ∉ f ++ [c] := by
  simp only [List.mem_append, List.mem_singleton, not_or]
  exact ⟨hf, fun h => hc h.symm⟩

theorem noCRState_readOutside (c : Char) (st : ParseState) (h : NoCRState st) :
    NoCRState (readOutside c st) := by
  obtain ⟨h1, h2, h3⟩ := h
  have hrow : ∀ f ∈ st.row ++ [st.field], '\r' ∉ f := by
    intro f hf
    rcases List.mem_append.mp hf with m | m
    · exact h2 f m
    · rw [List.mem_singleton.mp m]
      exact h3
  unfold readOutside
  split_ifs with c1 c2 c3 c4 c5
  · exact ⟨h1, h2, h3⟩
  · exact ⟨h1, hrow, by simp⟩
  · refine ⟨?_, by simp, by simp⟩
    intro r hr
    rcases List.mem_append.mp hr with m | m
    · exact h1 r m
    · rw [List.mem_singleton.mp m]
      exact hrow
  · exact ⟨h1, by simp, by simp⟩
  · exact ⟨h1, h2, h3⟩
  · exact ⟨h1, h2, noCR_append_single _ _ h3 c5⟩

theorem parseCSVLoop_noCR : ∀ (text : Str) (st : ParseState),
    hasQuotedCR text st.inQ = false → NoCRState st → NoCRState (parseCSVLoop text st) := by
  apply parse_induction
  · intro st _ h
    rw [parseCSVLoop_nil]
    exact h
  · intro rest st hq ih hcr h
    rw [parseCSVLoop_inQ_quote_quote _ _ hq]
    apply ih
    · simpa [hasQuotedCR, hq] using hcr
    · exact ⟨h.1, h.2.1, noCR_append_single _ _ h.2.2 (by decide)⟩
  · intro rest st hq hrest ih hcr h
    rw [parseCSVLoop_inQ_quote_end _ hrest _ hq]
    apply ih
    · simpa [hasQuotedCR, hq] using hcr
    · exact h
  · intro c rest st hq hc ih hcr h
    rw [parseCSVLoop_inQ_other c hc _ _ hq]
    simp only [hasQuotedCR, hc, if_false, hq, Bool.true_and, Bool.or_eq_false_iff,
      decide_eq_false_iff_not] at hcr
    apply ih
    · show hasQuotedCR rest st.inQ = false
      rw [hq]
      exact hcr.2
    · exact ⟨h.1, h.2.1, noCR_append_single _ _ h.2.2 hcr.1⟩
  · intro c rest st hq ih hcr h
    rw [parseCSVLoop_out c _ _ hq]
    apply ih
    · simp only [hasQuotedCR, hq, Bool.false_and, Bool.false_or, Bool.not_false] at hcr
      unfold readOutside
      split_ifs at hcr ⊢ <;> simp_all
    · exact noCRState_readOutside c st h

theorem toLF_head (c : Char) (rest : Str) (hc : c ≠ '"') : NoQuoteHead (toLF (c :: rest)) := by
  induction rest generalizing c with
  | nil =>
    have e : toLF [c] = [c] := by simp [toLF]
    rw [e]
    exact hc
  | cons d rest2 ih =>
    rw [toLF]
    split_ifs with h
    · simp only [List.head?_cons, Option.some.injEq] at h
      exact ih d (by rw [h.2]; decide)
    · exact hc

theorem toLF_cons_ne (c : Char) (rest : Str) (hc : c ≠ '\r') :
    toLF (c :: rest) = c :: toLF rest := by
  simp [toLF, hc]

theorem parseCSVLoop_toLF : ∀ (text : Str) (st : ParseState),
    hasQuotedCR text st.inQ = false → parseCSVLoop (toLF text) st = parseCSVLoop text st := by
  apply parse_induction
  · intro st _
    rfl
  · intro rest st hq ih hcr
    rw [toLF_cons_ne _ _ (by decide), toLF_cons_ne _ _ (by decide),
      parseCSVLoop_inQ_quote_quote _ _ hq, parseCSVLoop_inQ_quote_quote _ _ hq]
    apply ih
    simpa [hasQuotedCR, hq] using hcr
  · intro rest st hq hrest ih hcr
    have hh : NoQuoteHead (toLF rest) := by
      cases rest with
      | nil => trivial
      | cons d rest2 => exact toLF_head d rest2 hrest
    rw [toLF_cons_ne _ _ (by decide), parseCSVLoop_inQ_quote_end _ hh _ hq,
      parseCSVLoop_inQ_quote_end _ hrest _ hq]
    apply ih
    simpa [hasQuotedCR, hq] using hcr
  · intro c rest st hq hc ih hcr
    simp only [hasQuotedCR, hc, if_false, hq, Bool.true_and, Bool.or_eq_false_iff,
      decide_eq_false_iff_not] at hcr
    rw [toLF_cons_ne _ _ hcr.1, parseCSVLoop_inQ_other c hc _ _ hq,
      parseCSVLoop_inQ_other c hc _ _ hq]
    apply ih
    show hasQuotedCR rest st.inQ = false
    rw [hq]
    exact hcr.2
  · intro c rest st hq ih hcr
    simp only [hasQuotedCR, hq, Bool.false_and, Bool.false_or, Bool.not_false] at hcr
    have hnext : hasQuotedCR rest (readOutside c st).inQ = false := by
      unfold readOutside
      split_ifs at hcr ⊢ <;> simp_all
    by_cases hdrop : c = '\r' ∧ rest.head? = some '\n'
    · have e1 : toLF (c :: rest) = toLF rest := by simp [toLF, hdrop]
      have e2 : readOutside c st = st := by
        rw [hdrop.1]
        simp [readOutside]
      rw [e1, parseCSVLoop_out c _ _ hq]
      have := ih hnext
      rw [e2] at this ⊢
      exact this
    · have e1 : toLF (c :: rest) = c :: toLF rest := by simp [toLF, hdrop]
      rw [e1, parseCSVLoop_out c _ _ hq, parseCSVLoop_out c _ _ hq]
      exact ih hnext

theorem jsTrim_blank (s : Str) (h : ∀ c ∈ s, isJsSpace c = true) : jsTrim s = [] := by
  unfold jsTrim
  have : s.dropWhile isJsSpace = [] := List.dropWhile_eq_nil_iff.mpr h
  rw [this]
  rfl

theorem parseCSVLoop_blank : ∀ (ws : Str), IsBlank ws →
    ∀ (rows : List (List Str)) (field : Str), (∀ c ∈ field, isJsSpace c = true) →
      ∃ field2 : Str, (∀ c ∈ field2, isJsSpace c = true) ∧
        parseCSVLoop ws { rows := rows, row := [], field := field, inQ := false } =
          { rows := rows, row := [], field := field2, inQ := false } := by
  intro ws
  induction ws with
  | nil =>
    intro _ rows field hf
    exact ⟨field, hf, parseCSVLoop_nil _⟩
  | cons c rest ih =>
    intro hb rows field hf
    have hc := hb c (List.mem_cons_self _ _)
    have hrest : IsBlank rest := fun d hd => hb d (List.mem_cons_of_mem _ hd)
    rw [parseCSVLoop_out c _ _ rfl]
    have h1 : c ≠ '"' := by
      intro e
      rw [e] at hc
      exact absurd hc.1 (by decide)
    have h2 : c ≠ ',' := by
      intro e
      rw [e] at hc
      exact absurd hc.1 (by decide)
    by_cases h4 : c = '\r'
    · have e : readOutside c { rows := rows, row := [], field := field, inQ := false } =
          { rows := rows, row := [], field := field, inQ := false } := by
        rw [h4]
        simp [readOutside]
      rw [e]
      exact ih hrest rows field hf
    · have e : readOutside c { rows := rows, row := [], field := field, inQ := false } =
          { rows := rows, row := [], field := field ++ [c], inQ := false } := by
        simp [readOutside, h1, h2, hc.2, h4]
      rw [e]
      apply ih hrest
      intro d hd
      rcases List.mem_append.mp hd with m | m
      · exact hf d m
      · rw [List.mem_singleton.mp m]
        exact hc.1

theorem keepRow_blank (field : Str) (h : ∀ c ∈ field, isJsSpace c = true) :
    keepRow [field] = false := by
  simp [keepRow, jsTrim_blank field h]

theorem parseCSV_trailing_blank (text ws : Str) (hq : quoteOpen text false = false)
    (hb : IsBlank ws) :
    parseCSV (text ++ ['\n'] ++ ws) = parseCSV (text ++ ['\n']) ∧
      parseCSV (text ++ ['\n'] ++ ws ++ ['\n']) = parseCSV (text ++ ['\n']) := by
  have hstart : ∀ tail : Str,
      parseCSVLoop (text ++ '\n' :: tail) { rows := [], row := [], field := [], inQ := false } =
        parseCSVLoop tail (readOutside '\n'
          (parseCSVLoop text { rows := [], row := [], field := [], inQ := false })) := by
    intro tail
    rw [parseCSVLoop_append _ (by exact (by decide : '\n' ≠ '"')), parseCSVLoop_out]
    rw [parseCSVLoop_inQ]
    exact hq
  generalize hR : (readOutside '\n'
    (parseCSVLoop text { rows := [], row := [], field := [], inQ := false })) = st1 at hstart
  have hst1 : st1 = { rows := st1.rows, row := [], field := [], inQ := false } := by
    rw [← hR]
    have := parseCSVLoop_inQ text { rows := [], row := [], field := [], inQ := false }
    rw [hq] at this
    simp [readOutside, this]
  obtain ⟨f2, hf2, hloop⟩ := parseCSVLoop_blank ws hb st1.rows [] (by simp)
  rw [← hst1] at hloop
  have hbase : parseCSV (text ++ ['\n']) = st1.rows := by
    unfold parseCSV
    rw [hstart [], parseCSVLoop_nil, hst1]
    simp
  refine ⟨?_, ?_⟩
  · rw [hbase]
    unfold parseCSV
    rw [List.append_assoc, List.singleton_append, hstart ws, hloop]
    by_cases hn : f2 = []
    · simp [hn]
    · simp [hn, keepRow_blank f2 hf2]
  · rw [hbase]
    unfold parseCSV
    rw [List.append_assoc, List.append_assoc, List.singleton_append, hstart (ws ++ ['\n']),
      parseCSVLoop_append _ (by exact (by decide : '\n' ≠ '"')), hloop,
      parseCSVLoop_out _ _ _ rfl, parseCSVLoop_nil]
    simp [readOutside, keepRow_blank f2 hf2]

/-- C19 (as the code has it): decoding discards the carriage returns outside quoted
sections. For every text in which no carriage return stands inside a quoted section, no
field of any row returned by `parseCSV` holds a carriage return, and the text with each
CRLF replaced by LF decodes to the same rows. For every text whose quoted sections are all
closed, a blank line (white space only) after the line feed that ends it produces no row,
whether or not the blank line is ended by a line feed itself. -/
theorem parseCSV_carriage_returns :
    (∀ text : Str, hasQuotedCR text false = false →
      ∀ r ∈ parseCSV text, ∀ f ∈ r, '\r' ∉ f) ∧
    (∀ text : Str, hasQuotedCR text false = false → parseCSV (toLF text) = parseCSV text) ∧
    (∀ text ws : Str, quoteOpen text false = false → IsBlank ws →
      parseCSV (text ++ ['\n'] ++ ws) = parseCSV (text ++ ['\n']) ∧
        parseCSV (text ++ ['\n'] ++ ws ++ ['\n']) = parseCSV (text ++ ['\n'])) := by
  refine ⟨?_, ?_, ?_⟩
  · intro text hcr
    have hst := parseCSVLoop_noCR text { rows := [], row := [], field := [], inQ := false } hcr
      ⟨by simp, by simp, by simp⟩
    obtain ⟨h1, h2, h3⟩ := hst
    have hlast : ∀ r ∈ (parseCSVLoop text
        { rows := [], row := [], field := [], inQ := false }).rows ++
        [(parseCSVLoop text { rows := [], row := [], field := [], inQ := false }).row ++
          [(parseCSVLoop text { rows := [], row := [], field := [], inQ := false }).field]],
        ∀ f ∈ r, '\r' ∉ f := by
      intro r hr
      rcases List.mem_append.mp hr with m | m
      · exact h1 r m
      · rw [List.mem_singleton.mp m]
        intro f hf
        rcases List.mem_append.mp hf with m2 | m2
        · exact h2 f m2
        · rw [List.mem_singleton.mp m2]
          exact h3
    unfold parseCSV
    dsimp only
    split_ifs
    · exact hlast
    · exact h1
    · exact h1
  · intro text hcr
    unfold parseCSV
    rw [parseCSVLoop_toLF text _ hcr]
  · intro text ws hq hb
    exact parseCSV_trailing_blank text ws hq hb

theorem parseCSV_carriage_returns_witness :
    (∀ r ∈ parseCSV crlfText, ∀ f ∈ r, '\r' ∉ f) ∧
    parseCSV (toLF crlfText) = parseCSV crlfText ∧
    (parseCSV (crlfText ++ ['\n'] ++ " \t".toList) = parseCSV (crlfText ++ ['\n']) ∧
      parseCSV (crlfText ++ ['\n'] ++ " \t".toList ++ ['\n']) = parseCSV (crlfText ++ ['\n'])) :=
  ⟨parseCSV_carriage_returns.1 crlfText (by decide),
    parseCSV_carriage_returns.2.1 crlfText (by decide),
    parseCSV_carriage_returns.2.2 crlfText " \t".toList (by decide)
      (by unfold IsBlank; decide)⟩

/-- C19 as stated fails: a carriage return inside a quoted field is kept, so the text
`"a\rb"` decodes to the one field `a\rb`, and a document whose quoted field spans two
lines decodes to different rows with CRLF and with LF line endings. -/
theorem parseCSV_keeps_quoted_CR :
    parseCSV "\"a\rb\"".toList = [["a\rb".toList]] ∧
      '\r' ∈ "a\rb".toList ∧
      parseCSV "x,\"a\r\nb\"\r\n".toList = [["x".toList, "a\r\nb".toList]] ∧
      parseCSV "x,\"a\nb\"\n".toList = [["x".toList, "a\nb".toList]] ∧
      parseCSV "x,\"a\r\nb\"\r\n".toList ≠ parseCSV "x,\"a\nb\"\n".toList := by
  decide

/-! ## Showing an elapsed-minute offset -/

theorem toDigitsCore_natStr : ∀ (fuel n : Nat) (ds : List Char), n < fuel →
    Nat.toDigitsCore 10 fuel n ds = natStr n ++ ds := by
  intro fuel
  induction fuel using Nat.strong_induction_on with
  | _ fuel ih =>
    intro n ds hlt
    cases fuel with
    | zero => omega
    | succ f =>
      by_cases h0 : n / 10 = 0
      · simp [natStr, Nat.toDigits, Nat.toDigitsCore, h0]
      · have hn : n / 10 < n := Nat.div_lt_self (by omega) (by decide)
        have e1 : Nat.toDigitsCore 10 (f + 1) n ds =
            Nat.toDigitsCore 10 f (n / 10) (Nat.digitChar (n % 10) :: ds) := by
          simp [Nat.toDigitsCore, h0]
        have e2 : natStr n = Nat.toDigitsCore 10 n (n / 10) [Nat.digitChar (n % 10)] := by
          simp [natStr, Nat.toDigits, Nat.toDigitsCore, h0]
        rw [e1, e2, ih f (Nat.lt_succ_self f) (n / 10) _ (by omega),
          ih n (by omega) (n / 10) _ hn]
        simp

theorem natStr_step (n : Nat) (h : n / 10 ≠ 0) :
    natStr n = natStr (n / 10) ++ [Nat.digitChar (n % 10)] := by
  have hn : n / 10 < n := Nat.div_lt_self (by omega) (by decide)
  have e2 : natStr n = Nat.toDigitsCore 10 n (n / 10) [Nat.digitChar (n % 10)] := by
    simp [natStr, Nat.toDigits, Nat.toDigitsCore, h]
  rw [e2, toDigitsCore_natStr n (n / 10) _ hn]

theorem natStr_length_le (n e : Nat) (he : 0 < e) (h : n < 10 ^ e) : (natStr n).length ≤ e :=
  Nat.toDigitsCore_length 10 (by decide) _ n e h he

theorem stripZeros_natStr : ∀ (fuel n : Nat) (e : Int), n ≠ 0 →
    ∃ k : Nat, (stripZeros fuel n e).2 = e + k ∧
      natStr n = natStr (stripZeros fuel n e).1 ++ List.replicate k '0' := by
  intro fuel
  induction fuel with
  | zero =>
    intro n e _
    exact ⟨0, by simp [stripZeros], by simp [stripZeros]⟩
  | succ f ih =>
    intro n e hn
    by_cases h10 : n % 10 = 0
    · have hd : n / 10 ≠ 0 := by omega
      obtain ⟨k, hk1, hk2⟩ := ih (n / 10) (e + 1) hd
      refine ⟨k + 1, ?_, ?_⟩
      · simp only [stripZeros, hn, h10, ne_eq, not_false_eq_true, and_self, if_true]
        rw [hk1]
        push_cast
        ring
      · simp only [stripZeros, hn, h10, ne_eq, not_false_eq_true, and_self, if_true]
        rw [natStr_step n hd, h10, hk2, List.replicate_succ', List.append_assoc]
        rfl
    · exact ⟨0, by simp [stripZeros, h10], by simp [stripZeros, h10]⟩

theorem natStr_mul_pow10 (s : Nat) (hs : s ≠ 0) : ∀ m : Nat,
    natStr (s * 10 ^ m) = natStr s ++ List.replicate m '0' := by
  intro m
  induction m with
  | zero => simp
  | succ m ih =>
    have hx : s * 10 ^ m ≠ 0 := by positivity
    have e : s * 10 ^ (m + 1) = s * 10 ^ m * 10 := by ring
    rw [e, natStr_step (s * 10 ^ m * 10) (by omega), Nat.mul_div_cancel _ (by decide : 0 < 10),
      Nat.mul_mod_left, ih, List.replicate_succ', List.append_assoc]
    rfl

theorem pow10_natCast (m : Nat) : pow10 (m : Int) = ((10 ^ m : Nat) : ℚ) := by
  unfold pow10
  simp

theorem binary64_nat (n : Nat) (h : n < 2 ^ 53) : binary64 (n : ℚ) = .fin (n : ℚ) := by
  have := binary64_int (n : Int) (by
    rw [abs_of_nonneg (by positivity)]
    exact_mod_cast h)
  simpa using this

theorem natStr_length_ge : ∀ n : Nat, n ≠ 0 → 10 ^ ((natStr n).length - 1) ≤ n := by
  intro n
  induction n using Nat.strong_induction_on with
  | _ n ih =>
    intro hn
    by_cases h : n / 10 = 0
    · have h10 : n < 10 ^ 1 := by omega
      have := natStr_length_le n 1 (by decide) h10
      have e : (natStr n).length - 1 = 0 := by omega
      rw [e]
      omega
    · have hlt : n / 10 < n := Nat.div_lt_self (by omega) (by decide)
      have h2 := ih (n / 10) hlt h
      have hne := natStr_ne_nil (n / 10)
      have hpos : 1 ≤ (natStr (n / 10)).length := by
        cases hL : natStr (n / 10) with
        | nil => exact absurd hL hne
        | cons c rest => simp
      rw [natStr_step n h]
      simp only [List.length_append, List.length_singleton, Nat.add_sub_cancel]
      have e : (natStr (n / 10)).length = ((natStr (n / 10)).length - 1) + 1 := by omega
      rw [e, pow_succ]
      omega

theorem shortestLoop_nat (n D : Nat) (hn : n < 10 ^ 15) (hD : 10 ^ (D - 1) ≤ n) :
    ∀ (fuel k : Nat), 1 ≤ k → k ≤ D → D - k < fuel →
      ∃ s k2 : Nat, shortestLoop (n : ℚ) (D : Int) fuel k = (s, k2) ∧ k ≤ k2 ∧ k2 ≤ D ∧
        s * 10 ^ (D - k2) = n := by
  intro fuel
  induction fuel with
  | zero => intro k _ _ h; omega
  | succ f ih =>
    intro k hk1 hkD hf
    have hscale : pow10 ((D : Int) - (k : Int)) = ((10 ^ (D - k) : Nat) : ℚ) := by
      rw [← pow10_natCast]
      congr 1
      omega
    have hpos : 0 < 10 ^ (D - k) := by positivity
    have hlo : (⌊(n : ℚ) / ((10 ^ (D - k) : Nat) : ℚ)⌋).toNat = n / 10 ^ (D - k) := by
      have := Rat.floor_intCast_div_natCast (n : Int) (10 ^ (D - k))
      simp only [Int.cast_natCast] at this
      rw [this]
      norm_cast
    have hle : n / 10 ^ (D - k) * 10 ^ (D - k) ≤ n := Nat.div_mul_le_self n _
    have hlt : n < (n / 10 ^ (D - k) + 1) * 10 ^ (D - k) := by
      have := Nat.lt_div_mul_add hpos (a := n)
      rw [Nat.add_mul, Nat.one_mul]
      exact this
    have hper : 10 ^ (D - k) ≤ n :=
      le_trans (Nat.pow_le_pow_right (by decide) (by omega)) hD
    have hhi53 : (n / 10 ^ (D - k) + 1) * 10 ^ (D - k) < 2 ^ 53 := by
      have h1 : (n / 10 ^ (D - k) + 1) * 10 ^ (D - k) ≤ n + n + 1 := by
        rw [Nat.add_mul, Nat.one_mul]
        omega
      have : n + n + 1 < 2 ^ 53 := by
        have : (10 : Nat) ^ 15 + 10 ^ 15 + 1 < 2 ^ 53 := by norm_num
        omega
      omega
    have hlo53 : n / 10 ^ (D - k) * 10 ^ (D - k) < 2 ^ 53 := by
      have : (10 : Nat) ^ 15 < 2 ^ 53 := by norm_num
      omega
    have hn53 : n < 2 ^ 53 := by
      have : (10 : Nat) ^ 15 < 2 ^ 53 := by norm_num
      omega
    have eLo : binary64 (((n / 10 ^ (D - k) : Nat) : ℚ) * ((10 ^ (D - k) : Nat) : ℚ)) =
        .fin ((n / 10 ^ (D - k) * 10 ^ (D - k) : Nat) : ℚ) := by
      rw [← Nat.cast_mul]
      exact binary64_nat _ hlo53
    have eHi : binary64 (((n / 10 ^ (D - k) + 1 : Nat) : ℚ) * ((10 ^ (D - k) : Nat) : ℚ)) =
        .fin (((n / 10 ^ (D - k) + 1) * 10 ^ (D - k) : Nat) : ℚ) := by
      rw [← Nat.cast_mul]
      exact binary64_nat _ hhi53
    have okHi : ¬ (JSNum.fin (((n / 10 ^ (D - k) + 1) * 10 ^ (D - k) : Nat) : ℚ) =
        JSNum.fin (n : ℚ)) := by
      intro h
      have h2 := JSNum.fin.inj h
      have h3 : (n / 10 ^ (D - k) + 1) * 10 ^ (D - k) = n := by exact_mod_cast h2
      omega
    rw [shortestLoop]
    simp only [hscale, hlo, eLo, eHi, binary64_nat n hn53, okHi, decide_False, Bool.and_false,
      Bool.false_eq_true, if_false]
    by_cases hdiv : n / 10 ^ (D - k) * 10 ^ (D - k) = n
    · have okLo : JSNum.fin ((n / 10 ^ (D - k) * 10 ^ (D - k) : Nat) : ℚ) = JSNum.fin (n : ℚ) := by
        rw [hdiv]
      simp only [okLo, decide_True, if_true]
      exact ⟨_, _, rfl, le_refl _, hkD, hdiv⟩
    · have okLo : ¬ (JSNum.fin ((n / 10 ^ (D - k) * 10 ^ (D - k) : Nat) : ℚ) =
          JSNum.fin (n : ℚ)) := by
        intro h
        have h2 := JSNum.fin.inj h
        have h3 : n / 10 ^ (D - k) * 10 ^ (D - k) = n := by exact_mod_cast h2
        exact hdiv h3
      simp only [okLo, decide_False, Bool.false_eq_true, if_false]
      have hkne : k ≠ D := by
        intro h
        rw [h] at hdiv
        simp at hdiv
      obtain ⟨s, k2, h1, h2, h3, h4⟩ := ih (k + 1) (by omega) (by omega) (by omega)
      exact ⟨s, k2, h1, by omega, h3, h4⟩

theorem formatDigits_pad (ds : Str) (L : Nat) (h1 : ds.length ≤ L) (h2 : L ≤ 21) :
    formatDigits ds (L : Int) = ds ++ List.replicate (L - ds.length) '0' := by
  unfold formatDigits
  dsimp only
  rw [if_pos (by constructor <;> omega)]
  congr 2
  omega

theorem numberToString_nat (n : Nat) (h : n < 10 ^ 15) :
    numberToString (.fin (n : ℚ)) = natStr n := by
  by_cases h0 : n = 0
  · rw [h0]
    simp [numberToString, natStr]
    rfl
  · have hq : (n : ℚ) ≠ 0 := by exact_mod_cast h0
    have hpos : (0 : ℚ) < n := by positivity
    have habs : |(n : ℚ)| = n := abs_of_pos hpos
    have h1 : (1 : ℚ) ≤ n := by
      have : 1 ≤ n := Nat.one_le_iff_ne_zero.mpr h0
      exact_mod_cast this
    have hD : decimalExponent (n : ℚ) = ((natStr n).length : Int) := by
      simp [decimalExponent, h1]
    have hlen15 := natStr_length_le n 15 (by decide) h
    have hlen1 : 1 ≤ (natStr n).length := by
      have := natStr_ne_nil n
      cases hL : natStr n with
      | nil => exact absurd hL this
      | cons c rest => simp
    obtain ⟨s, k2, hloop, hk1, hk2, hs⟩ :=
      shortestLoop_nat n (natStr n).length h (natStr_length_ge n h0) 20 1 (le_refl _) hlen1
        (by omega)
    have hs0 : s ≠ 0 := by
      intro hz
      rw [hz] at hs
      simp at hs
      exact h0 hs.symm
    have hstr : natStr n = natStr s ++ List.replicate ((natStr n).length - k2) '0' := by
      conv_lhs => rw [← hs]
      exact natStr_mul_pow10 s hs0 _
    have hslen : (natStr s).length = k2 := by
      have := congrArg List.length hstr
      simp only [List.length_append, List.length_replicate] at this
      omega
    obtain ⟨j, hj1, hj2⟩ := stripZeros_natStr s s 0 hs0
    have hjlen : (natStr s).length = (natStr (stripZeros s s 0).1).length + j := by
      have := congrArg List.length hj2
      simpa using this
    simp only [numberToString, hq, if_false, habs, hD, hloop, not_lt.mpr hpos.le,
      List.nil_append, hslen]
    rw [add_sub_cancel_right, formatDigits_pad _ (natStr n).length (by omega) (by omega)]
    have e : (natStr n).length - (natStr (stripZeros s s 0).1).length =
        j + ((natStr n).length - k2) := by omega
    rw [e, List.replicate_add, ← List.append_assoc, ← hj2]
    exact hstr.symm

theorem isDigit_cases (c : Char) (h : isDigit c = true) :
    c ∈ ['0', '1', '2', '3', '4', '5', '6', '7', '8', '9'] := by
  simp only [isDigit, Bool.and_eq_true, decide_eq_true_eq, Char.le_def, UInt32.le_def,
    Nat.le_eq] at h
  have h1 : 48 ≤ c.toNat := h.1
  have h2 : c.toNat ≤ 57 := h.2
  have : c.toNat = 48 ∨ c.toNat = 49 ∨ c.toNat = 50 ∨ c.toNat = 51 ∨ c.toNat = 52 ∨
      c.toNat = 53 ∨ c.toNat = 54 ∨ c.toNat = 55 ∨ c.toNat = 56 ∨ c.toNat = 57 := by omega
  simp only [List.mem_cons, List.mem_singleton, List.not_mem_nil, or_false]
  rcases this with e | e | e | e | e | e | e | e | e | e
  · exact Or.inl (char_eq_of_toNat c '0' e)
  · exact Or.inr (Or.inl (char_eq_of_toNat c '1' e))
  · exact Or.inr (Or.inr (Or.inl (char_eq_of_toNat c '2' e)))
  · exact Or.inr (Or.inr (Or.inr (Or.inl (char_eq_of_toNat c '3' e))))
  · exact Or.inr (Or.inr (Or.inr (Or.inr (Or.inl (char_eq_of_toNat c '4' e)))))
  · exact Or.inr (Or.inr (Or.inr (Or.inr (Or.inr (Or.inl (char_eq_of_toNat c '5' e))))))
  · exact Or.inr (Or.inr (Or.inr (Or.inr (Or.inr (Or.inr (Or.inl (char_eq_of_toNat c '6' e)))))))
  · exact Or.inr (Or.inr (Or.inr (Or.inr (Or.inr (Or.inr (Or.inr
      (Or.inl (char_eq_of_toNat c '7' e))))))))
  · exact Or.inr (Or.inr (Or.inr (Or.inr (Or.inr (Or.inr (Or.inr (Or.inr
      (Or.inl (char_eq_of_toNat c '8' e)))))))))
  · exact Or.inr (Or.inr (Or.inr (Or.inr (Or.inr (Or.inr (Or.inr (Or.inr
      (Or.inr (char_eq_of_toNat c '9' e)))))))))

theorem plain_chars : ∀ c ∈ ['h', '0', '1', '2', '3', '4', '5', '6', '7', '8', '9'],
    isJsSpace c = false ∧ jsToLowerChar c = [c] ∧ c ≠ '-' := by
  decide

theorem jsTrim_plain (s : Str) (h : ∀ c ∈ s, isJsSpace c = false) : jsTrim s = s := by
  unfold jsTrim
  have e1 : ∀ t : Str, (∀ c ∈ t, isJsSpace c = false) → t.dropWhile isJsSpace = t := by
    intro t ht
    cases t with
    | nil => rfl
    | cons c rest => simp [List.dropWhile_cons, ht c (List.mem_cons_self _ _)]
  rw [e1 s h, e1 s.reverse (fun c hc => h c (List.mem_reverse.mp hc)), List.reverse_reverse]

theorem jsToLower_plain (s : Str) (h : ∀ c ∈ s, jsToLowerChar c = [c]) : jsToLower s = s := by
  unfold jsToLower
  induction s with
  | nil => rfl
  | cons c rest ih =>
    rw [List.flatMap_cons, h c (List.mem_cons_self _ _),
      ih (fun d hd => h d (List.mem_cons_of_mem _ hd))]
    rfl

theorem two_digits : ∀ m < 60,
    (padStart (natStr m) 2 '0').length = 2 ∧
      (padStart (natStr m) 2 '0').all isDigit = true ∧
      digitsVal (padStart (natStr m) 2 '0') = m := by
  decide

theorem signed_plain (d : Char) (rest : Str) (hd : d ≠ '-') :
    parseHhMm.match_1 (fun _ => Bool × Str) (d :: rest) (fun r => (true, r))
      (fun r => (false, r)) = (false, d :: rest) := by
  split
  · rename_i heq
    simp only [List.cons.injEq] at heq
    exact absurd heq.1 hd
  · rfl

theorem parseHhMm_shown (hs ms : Str) (h1 : hs ≠ []) (h2 : hs.all isDigit = true)
    (h3 : ms.length = 2) (h4 : ms.all isDigit = true) (h5 : digitsVal ms < 60) :
    parseHhMm (hs ++ ['h'] ++ ms) = some ((digitsVal hs : Int) * 60 + (digitsVal ms : Int)) := by
  have hmem : ∀ c ∈ hs ++ ['h'] ++ ms,
      c ∈ ['h', '0', '1', '2', '3', '4', '5', '6', '7', '8', '9'] := by
    intro c hc
    simp only [List.append_assoc, List.mem_append, List.mem_singleton] at hc
    rcases hc with m | m | m
    · exact List.mem_cons_of_mem _ (isDigit_cases c (List.all_eq_true.mp h2 c m))
    · rw [m]
      exact List.mem_cons_self _ _
    · exact List.mem_cons_of_mem _ (isDigit_cases c (List.all_eq_true.mp h4 c m))
  have ht : (jsToLower (jsTrim (hs ++ ['h'] ++ ms))).filter (fun c => !isJsSpace c) =
      hs ++ ['h'] ++ ms := by
    rw [jsTrim_plain _ (fun c hc => (plain_chars c (hmem c hc)).1),
      jsToLower_plain _ (fun c hc => (plain_chars c (hmem c hc)).2.1),
      List.filter_eq_self.mpr (fun c hc => by simp [(plain_chars c (hmem c hc)).1])]
  obtain ⟨d, rest, hd⟩ := List.exists_cons_of_ne_nil h1
  have hdm : d ≠ '-' := (plain_chars d (hmem d (by simp [hd]))).2.2
  have hne : hs ++ ['h'] ++ ms ≠ [] := by simp [hd]
  have htake : (hs ++ ['h'] ++ ms).takeWhile isDigit = hs := by
    rw [List.append_assoc, List.takeWhile_append_of_pos (List.all_eq_true.mp h2)]
    simp [List.takeWhile_cons, isDigit]
  have hdrop : (hs ++ ['h'] ++ ms).dropWhile isDigit = 'h' :: ms := by
    rw [List.append_assoc, List.dropWhile_append_of_pos (List.all_eq_true.mp h2)]
    simp [List.dropWhile_cons, isDigit]
  have hsigned := signed_plain d (rest ++ ['h'] ++ ms) hdm
  rw [← List.cons_append, ← List.cons_append, ← hd] at hsigned
  unfold parseHhMm
  simp only [hne, if_false, ht]
  rw [hsigned]
  simp only [htake, hdrop]
  have hmm : ¬ ((digitsVal ms : Int) < 0 ∨ (digitsVal ms : Int) > 59) := by omega
  simp [h1, h3, h4, hmm]
  omega

theorem tmod_natAbs_lt (m : Int) : (Int.tmod m 60).natAbs < 60 := by
  cases m with
  | ofNat n =>
    show (n % 60) < 60
    omega
  | negSucc n =>
    have e : Int.tmod (Int.negSucc n) 60 = -Int.ofNat (Nat.succ n % 60) := rfl
    rw [e, Int.natAbs_neg]
    show (Nat.succ n % 60) < 60
    omega

theorem fmtHhMm_nat (n : Nat) (h : n / 60 < 10 ^ 15) :
    fmtHhMm (n : Int) = natStr (n / 60) ++ ['h'] ++ padStart (natStr (n % 60)) 2 '0' := by
  have e1 : Int.tdiv (n : Int) 60 = ((n / 60 : Nat) : Int) := (Int.ofNat_tdiv n 60).symm
  have e2 : Int.tmod (n : Int) 60 = ((n % 60 : Nat) : Int) := (Int.ofNat_tmod n 60).symm
  unfold fmtHhMm
  simp only [e1, e2, Int.natAbs_ofNat, Int.cast_natCast]
  rw [numberToString_nat _ h]

/-- C20 (as the code has it): showing and re-reading an elapsed-minute offset loses
nothing for every non-negative integer number of minutes below 2^53 (the integers a
number of the program holds exactly), values beyond 24 hours included: `parseHhMm` of
`fmtHhMm(m)` is `m`. For every integer `m`, the text `fmtHhMm` writes is the hours as
`String` writes them, the letter `h`, and a minutes part of exactly two digits whose value
is the size of the remainder of `m` by 60, between 00 and 59. The offset 1517 is shown as
`25h17` and read back as 1517. -/
theorem fmtHhMm_round_trip :
    (∀ m : Int, 0 ≤ m → m < 2 ^ 53 → parseHhMm (fmtHhMm m) = some m) ∧
    (∀ m : Int, ∃ ms : Str,
      fmtHhMm m = numberToString (.fin ((Int.tdiv m 60 : Int) : ℚ)) ++ ['h'] ++ ms ∧
        ms.length = 2 ∧ ms.all isDigit = true ∧
        digitsVal ms = (Int.tmod m 60).natAbs ∧ digitsVal ms < 60) ∧
    fmtHhMm 1517 = "25h17".toList ∧ parseHhMm "25h17".toList = some 1517 := by
  refine ⟨?_, ?_, by decide!, by decide!⟩
  · intro m h0 hlt
    obtain ⟨n, rfl⟩ := Int.eq_ofNat_of_zero_le h0
    have hn : n < 2 ^ 53 := by exact_mod_cast hlt
    have hh : n / 60 < 10 ^ 15 := by
      have : (2 : Nat) ^ 53 < 60 * 10 ^ 15 := by norm_num
      omega
    obtain ⟨t1, t2, t3⟩ := two_digits (n % 60) (Nat.mod_lt n (by decide))
    rw [fmtHhMm_nat n hh,
      parseHhMm_shown _ _ (natStr_ne_nil _) (natStr_digits _) t1 t2 (by rw [t3]; omega),
      digitsVal_natStr, t3]
    congr 1
    have := Nat.div_add_mod n 60
    push_cast
    omega
  · intro m
    obtain ⟨t1, t2, t3⟩ := two_digits (Int.tmod m 60).natAbs (tmod_natAbs_lt m)
    exact ⟨_, rfl, t1, t2, t3, by rw [t3]; exact tmod_natAbs_lt m⟩

theorem fmtHhMm_round_trip_witness :
    parseHhMm (fmtHhMm 4000) = some 4000 :=
  fmtHhMm_round_trip.1 4000 (by decide) (by decide)

/-- C20 as stated fails: for 6·10^22 minutes the hours are 10^21, which `String` writes
in exponent form, so `fmtHhMm` gives `1e+21h00` and `parseHhMm` rejects it. -/
theorem fmtHhMm_exponent_form :
    fmtHhMm (6 * 10 ^ 22) = "1e+21h00".toList ∧ parseHhMm (fmtHhMm (6 * 10 ^ 22)) = none := by
  decide!

/-! ## The series label and its identifier -/

theorem char_le_iff (a b : Char) : a ≤ b ↔ a.toNat ≤ b.toNat := Iff.rfl

theorem isLowerAlnum_iff (c : Char) :
    isLowerAlnum c = true ↔
      (97 ≤ c.toNat ∧ c.toNat ≤ 122) ∨ (48 ≤ c.toNat ∧ c.toNat ≤ 57) := by
  simp only [isLowerAlnum, Bool.or_eq_true, Bool.and_eq_true, decide_eq_true_eq, char_le_iff]
  rfl

theorem isJsSpace_toNat (c : Char) (h : isJsSpace c = true) :
    c.toNat < 48 ∧ c.toNat ≠ 39 ∨ 122 < c.toNat ∧ c.toNat ≠ 0x130 ∧ c.toNat ≠ 0x212A ∧ c.toNat ≠ 0x2019 := by
  simp only [isJsSpace, Bool.or_eq_true, Bool.and_eq_true, beq_iff_eq, decide_eq_true_eq] at h
  omega

theorem space_plain (c : Char) (h : isJsSpace c = true) :
    jsToLowerChar c = [c] ∧ (!(c == '\'' || c == Char.ofNat 0x2019)) = true ∧
      isLowerAlnum c = false := by
  have hn := isJsSpace_toNat c h
  have hA : ¬ ('A' ≤ c ∧ c ≤ 'Z') := by
    rw [char_le_iff, char_le_iff]
    have e1 : ('A' : Char).toNat = 65 := rfl
    have e2 : ('Z' : Char).toNat = 90 := rfl
    omega
  refine ⟨?_, ?_, ?_⟩
  · have h1 : c.toNat ≠ 0x130 := by omega
    have h2 : c.toNat ≠ 0x212A := by omega
    simp [jsToLowerChar, hA, h1, h2]
  · have h1 : c ≠ '\'' := by
      intro e
      rw [e] at hn
      revert hn
      decide
    have h2 : c ≠ Char.ofNat 0x2019 := by
      intro e
      rw [e] at hn
      revert hn
      decide
    simp [h1, h2]
  · rw [Bool.eq_false_iff, Ne, isLowerAlnum_iff]
    omega

theorem lowerPlain_append (a b : Str) : lowerPlain (a ++ b) = lowerPlain a ++ lowerPlain b := by
  simp [lowerPlain, jsToLower, List.flatMap_append, List.filter_append]

theorem lowerPlain_space : ∀ (w : Str), (∀ c ∈ w, isJsSpace c = true) → lowerPlain w = w := by
  intro w
  induction w with
  | nil => intro _; rfl
  | cons c rest ih =>
    intro h
    have hc := space_plain c (h c (List.mem_cons_self _ _))
    have hr := ih (fun d hd => h d (List.mem_cons_of_mem _ hd))
    have e : lowerPlain (c :: rest) = lowerPlain [c] ++ lowerPlain rest :=
      lowerPlain_append [c] rest
    have e1 : lowerPlain [c] = [c] := by
      simp only [lowerPlain, jsToLower, List.flatMap_cons, List.flatMap_nil, List.append_nil,
        hc.1, List.filter_cons, hc.2.1, if_true, List.filter_nil]
    rw [e, e1, hr]
    rfl

theorem jsTrim_split (t : Str) :
    ∃ w1 w2 : Str, (∀ c ∈ w1, isJsSpace c = true) ∧ (∀ c ∈ w2, isJsSpace c = true) ∧
      t = w1 ++ jsTrim t ++ w2 := by
  refine ⟨t.takeWhile isJsSpace, ((t.dropWhile isJsSpace).reverse.takeWhile isJsSpace).reverse,
    fun c hc => List.mem_takeWhile_imp hc,
    fun c hc => List.mem_takeWhile_imp (List.mem_reverse.mp hc), ?_⟩
  unfold jsTrim
  rw [List.append_assoc, ← List.reverse_append, List.takeWhile_append_dropWhile,
    List.reverse_reverse, List.takeWhile_append_dropWhile]

theorem collapseRuns_nonalnum : ∀ (x : Str), (∀ c ∈ x, isLowerAlnum c = false) → x ≠ [] →
    ∀ (b : Bool) (r : Str),
      collapseRuns b (x ++ r) = (if b then [] else ['_']) ++ collapseRuns true r := by
  intro x
  induction x with
  | nil => intro _ h; exact absurd rfl h
  | cons c rest ih =>
    intro hx _ b r
    have hc := hx c (List.mem_cons_self _ _)
    have hrest : ∀ d ∈ rest, isLowerAlnum d = false :=
      fun d hd => hx d (List.mem_cons_of_mem _ hd)
    by_cases hr : rest = []
    · rw [hr]
      cases b <;> simp [collapseRuns, hc]
    · have := ih hrest hr true r
      cases b <;> simp [collapseRuns, hc, this]

theorem collapseRuns_append_congr (r1 r2 : Str)
    (h : ∀ b : Bool, collapseRuns b r1 = collapseRuns b r2) :
    ∀ (f : Str) (b : Bool), collapseRuns b (f ++ r1) = collapseRuns b (f ++ r2) := by
  intro f
  induction f with
  | nil => intro b; exact h b
  | cons c rest ih =>
    intro b
    simp only [List.cons_append, collapseRuns]
    split_ifs
    · exact congrArg (List.cons c) (ih false)
    · exact ih true
    · exact congrArg (List.cons '_') (ih true)

theorem collapseRuns_separator (x y : Str) (hx : ∀ c ∈ x, isLowerAlnum c = false)
    (hy : ∀ c ∈ y, isLowerAlnum c = false) (hxn : x ≠ []) (hyn : y ≠ []) (f s : Str)
    (b : Bool) : collapseRuns b (f ++ (x ++ s)) = collapseRuns b (f ++ (y ++ s)) :=
  collapseRuns_append_congr _ _
    (fun b2 => by rw [collapseRuns_nonalnum x hx hxn, collapseRuns_nonalnum y hy hyn]) f b

theorem collapseRuns_dropWhile (r : Str) :
    (collapseRuns false r).dropWhile (· == '_') = (collapseRuns true r).dropWhile (· == '_') := by
  cases r with
  | nil => rfl
  | cons c rest =>
    by_cases hc : isLowerAlnum c = true
    · simp [collapseRuns, hc]
    · simp [collapseRuns, hc, List.dropWhile_cons]

theorem stripUnderscores_lead (x r : Str) (hx : ∀ c ∈ x, isLowerAlnum c = false) :
    stripUnderscores (collapseRuns false (x ++ r)) = stripUnderscores (collapseRuns false r) := by
  by_cases hxn : x = []
  · rw [hxn]
    rfl
  · rw [collapseRuns_nonalnum x hx hxn, stripUnderscores_eq, stripUnderscores_eq,
      collapseRuns_dropWhile r]
    simp [List.dropWhile_cons]

theorem collapseRuns_trail (x : Str) (hx : ∀ c ∈ x, isLowerAlnum c = false) :
    ∀ (m : Str) (b : Bool), collapseRuns b (m ++ x) = collapseRuns b m ∨
      collapseRuns b (m ++ x) = collapseRuns b m ++ ['_'] := by
  intro m
  induction m with
  | nil =>
    intro b
    by_cases hxn : x = []
    · rw [hxn]
      exact Or.inl rfl
    · have := collapseRuns_nonalnum x hx hxn b []
      rw [List.append_nil] at this
      rw [List.nil_append, this]
      cases b
      · exact Or.inr rfl
      · exact Or.inl rfl
  | cons c rest ih =>
    intro b
    simp only [List.cons_append, collapseRuns]
    split_ifs
    · rcases ih false with h | h
      · exact Or.inl (congrArg (List.cons c) h)
      · exact Or.inr (congrArg (List.cons c) h)
    · exact ih true
    · rcases ih true with h | h
      · exact Or.inl (congrArg (List.cons '_') h)
      · exact Or.inr (congrArg (List.cons '_') h)

theorem stripUnderscores_concat (z : Str) :
    stripUnderscores (z ++ ['_']) = stripUnderscores z := by
  rw [stripUnderscores_eq, stripUnderscores_eq, List.dropWhile_append]
  split_ifs with h
  · have : z.dropWhile (· == '_') = [] := by simpa using h
    rw [this]
    rfl
  · rw [List.rdropWhile_concat_pos _ _ _ (by simp)]

theorem stripUnderscores_pad (x1 m x2 : Str) (h1 : ∀ c ∈ x1, isLowerAlnum c = false)
    (h2 : ∀ c ∈ x2, isLowerAlnum c = false) :
    stripUnderscores (collapseRuns false (x1 ++ m ++ x2)) =
      stripUnderscores (collapseRuns false m) := by
  rw [List.append_assoc, stripUnderscores_lead _ _ h1]
  rcases collapseRuns_trail x2 h2 m false with h | h
  · rw [h]
  · rw [h, stripUnderscores_concat]

theorem normalizeId_eq_lowerPlain (t : Str) :
    normalizeId t = stripUnderscores (collapseRuns false (lowerPlain t)) := by
  obtain ⟨w1, w2, hw1, hw2, ht⟩ := jsTrim_split t
  have e : lowerPlain t = w1 ++ lowerPlain (jsTrim t) ++ w2 := by
    conv_lhs => rw [ht]
    rw [lowerPlain_append, lowerPlain_append, lowerPlain_space w1 hw1, lowerPlain_space w2 hw2]
  rw [e, stripUnderscores_pad _ _ _ (fun c hc => (space_plain c (hw1 c hc)).2.2)
    (fun c hc => (space_plain c (hw2 c hc)).2.2)]
  rfl

theorem commitEntry_series (today : Str) (db : DB) (book : Book) (draft : Draft)
    (h1 : (computeDurationHours draft.timeRanges).hasOpen = false)
    (h2 : (computeDurationHours draft.timeRanges).durH.leZero = false)
    (h3 : (draftCost draft).isNaN = false) (h4 : (draftCost draft).ltZero = false) :
    ∃ (key : Str) (row : Obj) (out : CommitOutcome),
      commitEntry today db book draft = some out ∧
      out.result = .committed key row ∧
      objGet row "Series".toList =
        some (orStr book.series (deriveSeries book.franchise book.subseries)) ∧
      objGet row "SeriesID".toList =
        some (orStr book.seriesID (deriveSeriesId book.franchise book.subseries)) := by
  have h34 : ((draftCost draft).isNaN || (draftCost draft).ltZero) = false := by simp [h3, h4]
  unfold draftCost at h34
  by_cases hused : (idbGet Entry.compositeKey db.entries book.bookID).isSome = true
  · obtain ⟨ck, hloop⟩ := copyLoop_terminates db.entries book.bookID 2
    simp only [commitEntry, h1, h2, h34, Bool.false_eq_true, if_false, hused, if_true, hloop]
    exact ⟨ck, _, _, rfl, rfl, rfl, rfl⟩
  · simp only [commitEntry, h1, h2, h34, Bool.false_eq_true, if_false, hused]
    exact ⟨_, _, _, rfl, rfl, rfl, rfl⟩

theorem orElse_absent (v : Option Str) (d : Str) (h : orElse v [] = []) : orElse v d = d := by
  cases v with
  | none => rfl
  | some s =>
    by_cases hs : s = []
    · simp [orElse, hs]
    · simp [orElse, hs] at h

theorem normalizeId_deriveSeries (franchise subseries : Str) :
    normalizeId (deriveSeries franchise subseries) = deriveSeriesId franchise subseries := by
  by_cases hf : franchise = []
  · simp only [deriveSeries, deriveSeriesId, hf, ne_eq, not_true_eq_false, false_and, if_false,
      if_true]
    decide
  · by_cases hs : subseries = []
    · simp [deriveSeries, deriveSeriesId, hf, hs]
    · simp only [deriveSeries, deriveSeriesId, hf, hs, ne_eq, not_false_eq_true, and_self,
        if_true, if_false, and_false]
      rw [normalizeId_eq_lowerPlain, normalizeId_eq_lowerPlain, List.append_assoc,
        List.append_assoc, lowerPlain_append, lowerPlain_append, lowerPlain_append,
        lowerPlain_append]
      have e1 : lowerPlain " — ".toList = " — ".toList := by decide
      have e2 : lowerPlain " ".toList = " ".toList := by decide
      rw [e1, e2]
      exact congrArg stripUnderscores
        (collapseRuns_separator _ _ (by decide) (by decide) (by decide) (by decide) _ _ false)

/-- C21. The derived series identifier is the normalized form of the derived series
label: for all texts `franchise` and `subseries`, `normalizeId` of `deriveSeries(franchise,
subseries)` is `deriveSeriesId(franchise, subseries)`. So when an import creates a catalog
item from a row that carries neither a series label nor a series identifier, the item's
`seriesID` is `normalizeId` of its `series`, and when a commit writes a row for a book that
has neither, the row's `SeriesID` is `normalizeId` of its `Series`. For the franchise
`Dune` and the subseries `Heroes of Dune` both sides are `dune_heroes_of_dune`. -/
theorem seriesId_of_series :
    (∀ franchise subseries : Str,
      normalizeId (deriveSeries franchise subseries) = deriveSeriesId franchise subseries) ∧
    (∀ (books : List Book) (row : Obj),
      makeBookKey (tmpl (objGet row "BookID".toList)) (tmpl (objGet row "Format".toList)) ∉
        books.map Book.bookKey →
      orElse (objGet row "Series".toList) [] = [] →
      orElse (objGet row "SeriesID".toList) [] = [] →
      (ensureBookFromCSVRow books row).2.seriesID =
        normalizeId (ensureBookFromCSVRow books row).2.series) ∧
    (∀ (today : Str) (db : DB) (book : Book) (draft : Draft),
      (committedKey (commitEntry today db book draft)).isSome = true →
      book.series = [] → book.seriesID = [] →
      ∃ label : Str,
        committedField (commitEntry today db book draft) "Series".toList = some label ∧
        committedField (commitEntry today db book draft) "SeriesID".toList =
          some (normalizeId label)) ∧
    deriveSeries "Dune".toList "Heroes of Dune".toList = "Dune — Heroes of Dune".toList ∧
    normalizeId (deriveSeries "Dune".toList "Heroes of Dune".toList) =
      "dune_heroes_of_dune".toList ∧
    deriveSeriesId "Dune".toList "Heroes of Dune".toList = "dune_heroes_of_dune".toList := by
  refine ⟨normalizeId_deriveSeries, ?_, ?_, by decide, by decide, by decide⟩
  · intro books row hno h1 h2
    have hg := idbGet_none_of_not_mem Book.bookKey books _ hno
    simp only [ensureBookFromCSVRow, hg, orElse_absent _ _ h1, orElse_absent _ _ h2]
    exact (normalizeId_deriveSeries _ _).symm
  · intro today db book draft hacc hs hid
    have hguard : ¬ ((computeDurationHours draft.timeRanges).hasOpen = true ∨
        (computeDurationHours draft.timeRanges).durH.leZero = true ∨
        (draftCost draft).isNaN = true ∨ (draftCost draft).ltZero = true) := by
      intro h
      obtain ⟨msg, hm⟩ := commitEntry_rejected today db book draft h
      rw [hm] at hacc
      simp [committedKey] at hacc
    simp only [not_or, Bool.not_eq_true] at hguard
    obtain ⟨key, row, out, ho, hres, hS, hI⟩ :=
      commitEntry_series today db book draft hguard.1 hguard.2.1 hguard.2.2.1 hguard.2.2.2
    have hfield : ∀ k, committedField (commitEntry today db book draft) k = objGet row k := by
      intro k
      rw [ho]
      simp only [committedField, hres]
    refine ⟨_, (hfield _).trans hS, ?_⟩
    rw [hfield, hI, hs, hid]
    simp only [orStr, if_true]
    rw [normalizeId_deriveSeries]

theorem seriesId_of_series_witness :
    (ensureBookFromCSVRow [] otherRow).2.seriesID =
        normalizeId (ensureBookFromCSVRow [] otherRow).2.series ∧
    ∃ label : Str,
      committedField (commitEntry sampleToday
        (sampleStore (sampleDraft [⟨some 1517, some 1739⟩] ['0'])) sampleBook
        (sampleDraft [⟨some 1517, some 1739⟩] ['0'])) "Series".toList = some label ∧
      committedField (commitEntry sampleToday
        (sampleStore (sampleDraft [⟨some 1517, some 1739⟩] ['0'])) sampleBook
        (sampleDraft [⟨some 1517, some 1739⟩] ['0'])) "SeriesID".toList =
          some (normalizeId label) :=
  ⟨seriesId_of_series.2.1 [] otherRow (by decide) (by decide) (by decide),
    seriesId_of_series.2.2.1 sampleToday
      (sampleStore (sampleDraft [⟨some 1517, some 1739⟩] ['0'])) sampleBook
      (sampleDraft [⟨some 1517, some 1739⟩] ['0']) (by decide!) (by decide) (by decide)⟩


end ReadingLog
